import Mathlib

/-!
# Sliding-tile puzzle solver: IDA* over a pattern-database heuristic

A shallow embedding of `patterndb.cpp` (explicit-stack solver) and
`patterndb4_solver.cpp` (recursive solver).

Conventions of the embedding.

* C++ `int` is modelled by `Int`.  Signed overflow is undefined in C++, so the
  definitions are the code only as long as every value stays in the range of
  `int` (`IntFits`); a statement that depends on a sum of stored values says
  under which bound it does.  `/` and `%` on `int` are the truncating
  `Int.tdiv` and `Int.tmod`.
* `vector<vector<int>>` is `List (List Int)`.  Reading or writing outside a
  vector is undefined in C++; the accessors `getCell` / `setCell` return `0` /
  leave the vector unchanged there, and statements that depend on such an
  access carry the hypothesis that keeps it in range.
* `unordered_set<int>` is a `List Int` used only through membership,
  `unordered_map<string,int>` is an association list used only through lookup.
* The globals `g_groups` and `g_patternDbDict` are the two fields of a
  `PatternDB` value passed explicitly.
* A `vector<Puzzle>` that is held by reference across a `push_back` carries its
  capacity (`PathVec`): a `push_back` at full capacity reallocates, with twice
  the capacity as in libc++ and libstdc++, and invalidates every reference into
  the vector.  `Puzzle &cur = path.back()` in `search` is such a reference; a
  read through it after a reallocation is undefined behaviour, and the run then
  ends in `Run.undefined`.  `Node &top = stack.back()` in `iterativeIDAStar` is
  taken anew in every iteration and never used after the `push_back`, so it is
  read as the element it names.
* Loops that may not terminate (`search`, the `while` loops of both solvers)
  take a fuel argument and return `none` when it runs out; "the function
  returns `r`" is `Returns`: every large enough fuel yields `some r`.
-/

namespace PatternDb

/-! ## Data model -/

/-- A blank displacement `(dx, dy)`: `pair<int,int>`. -/
abbrev Dir := Int × Int

/-- A tile group: `unordered_set<int>`. -/
abbrev Group := List Int

/-- One pattern table: `unordered_map<string,int>`. -/
abbrev Table := List (String × Int)

/-- The constant `INF` of both files. -/
def INF : Int := 100000

/-- The pair of globals `g_groups`, `g_patternDbDict`. -/
structure PatternDB where
  groups : List Group
  dicts : List Table
deriving DecidableEq

/-- Read `board[i][j]`. -/
def getCell (board : List (List Int)) (i j : Nat) : Int :=
  (board.getD i []).getD j 0

/-- Write `board[i][j] = v`. -/
def setCell (board : List (List Int)) (i j : Nat) (v : Int) : List (List Int) :=
  board.set i ((board.getD i []).set j v)

/-- The class `Puzzle` (identical in both files). -/
structure Puzzle where
  boardSize : Int
  board : List (List Int)
  blankRow : Int
  blankCol : Int
deriving DecidableEq

/-- The static member `Puzzle::DIRECTIONS`: down, up, right, left. -/
def DIRECTIONS : List Dir := [(1, 0), (-1, 0), (0, 1), (0, -1)]

namespace Puzzle

/-- The constructor `Puzzle(int boardSize)` (a structure and its namespace cannot
hold a function of the same name, hence `new`): cell `(i,j)` holds
`i*boardSize+j+1`, then the bottom-right cell is overwritten with the blank. -/
def new (boardSize : Int) : Puzzle :=
  let filled : List (List Int) :=
    (List.range boardSize.toNat).map fun (i : Nat) =>
      (List.range boardSize.toNat).map fun (j : Nat) => (i : Int) * boardSize + (j : Int) + 1
  let blankRow := boardSize - 1
  let blankCol := boardSize - 1
  { boardSize := boardSize
    board := setCell filled blankRow.toNat blankCol.toNat 0
    blankRow := blankRow
    blankCol := blankCol }

/-- The method `checkWin`: every cell but the bottom-right holds `i*boardSize+j+1`. -/
def checkWin (p : Puzzle) : Bool :=
  (List.range p.boardSize.toNat).all fun (i : Nat) =>
    (List.range p.boardSize.toNat).all fun (j : Nat) =>
      if (i : Int) = p.boardSize - 1 ∧ (j : Int) = p.boardSize - 1 then true
      else decide (getCell p.board i j = (i : Int) * p.boardSize + (j : Int) + 1)

/-- The method `move(dx, dy)`: the returned flag and the state left behind. -/
def move (p : Puzzle) (dx dy : Int) : Bool × Puzzle :=
  let newRow := p.blankRow + dx
  let newCol := p.blankCol + dy
  if newRow < 0 ∨ newRow ≥ p.boardSize ∨ newCol < 0 ∨ newCol ≥ p.boardSize then
    (false, p)
  else
    let board1 := setCell p.board p.blankRow.toNat p.blankCol.toNat
      (getCell p.board newRow.toNat newCol.toNat)
    let board2 := setCell board1 newRow.toNat newCol.toNat 0
    (true, { p with board := board2, blankRow := newRow, blankCol := newCol })

/-- The method `simulateMove(dir)`: `move` on a copy; the receiver is untouched. -/
def simulateMove (p : Puzzle) (dir : Dir) : Bool × Puzzle :=
  p.move dir.1 dir.2

/-- The method `hash(group)`: row and column of every cell holding a label of
the group, in row-major order, each printed in decimal. -/
def hash (p : Puzzle) (group : Group) : String :=
  (List.range p.boardSize.toNat).foldl (fun oss i =>
    (List.range p.boardSize.toNat).foldl (fun oss j =>
      if getCell p.board i j ∈ group then oss ++ toString i ++ toString j else oss) oss) ""

/-- The method `toString`: every cell followed by a tab, every row by a newline. -/
def toString (p : Puzzle) : String :=
  (List.range p.boardSize.toNat).foldl (fun oss i =>
    (List.range p.boardSize.toNat).foldl (fun oss j =>
      oss ++ ToString.toString (getCell p.board i j) ++ "\t") oss ++ "\n") ""

end Puzzle

/-! ## Heuristic -/

/-- The function `manhattan(puzzle, group)`. -/
def manhattan (puzzle : Puzzle) (group : Group) : Int :=
  (List.range puzzle.boardSize.toNat).foldl (fun h i =>
    (List.range puzzle.boardSize.toNat).foldl (fun h j =>
      let tile := getCell puzzle.board i j
      if tile ≠ 0 ∧ tile ∈ group then
        let destRow := (tile - 1).tdiv puzzle.boardSize
        let destCol := (tile - 1).tmod puzzle.boardSize
        h + ((destRow - (i : Int)).natAbs + (destCol - (j : Int)).natAbs : Int)
      else h) h) 0

/-- The function `hScore(puzzle)`, reading the database `db`.  The sum is taken in
`Int`; in the code it is an `int`, defined as long as it stays in range.  The code
indexes `g_patternDbDict[i]` for every group `i` without a check; with fewer tables
than groups that read is outside the vector, and is rendered here as an empty
table. -/
def hScore (db : PatternDB) (puzzle : Puzzle) : Int :=
  (List.range db.groups.length).foldl (fun h i =>
    let group := db.groups.getD i []
    let hashStr := puzzle.hash group
    let dict := db.dicts.getD i []
    match dict.lookup hashStr with
    | some v => h + v
    | none => h + manhattan puzzle group) 0

/-! ## Recursive solver (`patterndb4_solver.cpp`) -/

/-- The test `dir.first == -last.first && dir.second == -last.second` against
`last = moves.back()`, skipped when `moves` is empty. -/
def isReverse (dir : Dir) (moves : List Dir) : Bool :=
  match moves.getLast? with
  | none => false
  | some last => decide (dir.1 = -last.1 ∧ dir.2 = -last.2)

/-- How a run that ends has ended: with a value, or in undefined behaviour. -/
inductive Run (α : Type) where
  | value (a : α)
  | undefined
deriving DecidableEq

/-- The `vector<Puzzle> path`: its elements and its capacity. -/
structure PathVec where
  elems : List Puzzle
  cap : Nat
deriving DecidableEq

namespace PathVec

/-- The call `path.push_back(x)`.  With room left the element is appended in
place; at full capacity the buffer is reallocated with twice the capacity (one
for an empty vector), which invalidates every reference into the vector. -/
def push_back (v : PathVec) (x : Puzzle) : PathVec :=
  if v.elems.length < v.cap then { v with elems := v.elems ++ [x] }
  else { elems := v.elems ++ [x], cap := max (2 * v.cap) (v.elems.length + 1) }

/-- The call `path.pop_back()`: the capacity is kept. -/
def pop_back (v : PathVec) : PathVec :=
  { v with elems := v.elems.dropLast }

end PathVec

/-- What a call of `search` leaves behind: the returned `int` and the contents of
the two vectors it received by reference. -/
structure SearchOut where
  t : Int
  path : PathVec
  dirs : List Dir
deriving DecidableEq

/-- The `for` loop of `search` over the directions still to try; `rec` is the
recursive call and `min_val` the running minimum.  `cur` is the state that
`Puzzle &cur = path.back()` named at the top of `search` and `cap0` the
capacity of `path` at that moment: the reference is valid as long as the
capacity is `cap0`, since every reallocation raises the capacity.  The reversal
test reads `dirs` only; `cur.simulateMove(dir)` reads through the reference and
is undefined once `path` has been reallocated. -/
def searchLoop (rec : PathVec → Int → Int → List Dir → Option (Run SearchOut))
    (cur : Puzzle) (cap0 : Nat) (g bound : Int) :
    List Dir → Int → PathVec → List Dir → Option (Run SearchOut)
  | [], min_val, path, dirs => some (.value ⟨min_val, path, dirs⟩)
  | dir :: rest, min_val, path, dirs =>
    if isReverse dir dirs then searchLoop rec cur cap0 g bound rest min_val path dirs
    else if path.cap ≠ cap0 then some .undefined
    else
      let sim := cur.simulateMove dir
      if !sim.1 then searchLoop rec cur cap0 g bound rest min_val path dirs
      else
        match rec (path.push_back sim.2) (g + 1) bound (dirs ++ [dir]) with
        | none => none
        | some .undefined => some .undefined
        | some (.value out) =>
          if out.t = -1 then some (.value ⟨-1, out.path, out.dirs⟩)
          else
            searchLoop rec cur cap0 g bound rest (if out.t < min_val then out.t else min_val)
              out.path.pop_back out.dirs.dropLast

/-- The function `search(path, g, bound, dirs)`.  The result is `none` when the
fuel (the recursion depth allowed) runs out; `path.back()` on an empty vector
is undefined. -/
def search (db : PatternDB) : Nat → PathVec → Int → Int → List Dir → Option (Run SearchOut)
  | 0, _, _, _, _ => none
  | fuel + 1, path, g, bound, dirs =>
    match path.elems.getLast? with
    | none => some .undefined
    | some cur =>
      let f := g + hScore db cur
      if f > bound then some (.value ⟨f, path, dirs⟩)
      else if cur.checkWin then some (.value ⟨-1, path, dirs⟩)
      else searchLoop (search db fuel) cur path.cap g bound DIRECTIONS INF path dirs

/-- The `while (true)` loop of `idaStar`: `passes` bounds the number of
iterations, `fuel` the depth of each call of `search`. -/
def idaLoop (db : PatternDB) (fuel : Nat) :
    Nat → PathVec → List Dir → Int → Option (Run (List Dir))
  | 0, _, _, _ => none
  | passes + 1, path, dirs, bound =>
    match search db fuel path 0 bound dirs with
    | none => none
    | some .undefined => some .undefined
    | some (.value out) =>
      if out.t = -1 then some (.value out.dirs)
      else if out.t = INF then some (.value [])
      else idaLoop db fuel passes out.path out.dirs out.t

/-- The function `idaStar(puzzle)`: `path` starts as an empty vector, of
capacity 0, and receives `puzzle`. -/
def idaStar (fuel : Nat) (db : PatternDB) (puzzle : Puzzle) : Option (Run (List Dir)) :=
  if puzzle.checkWin then some (.value [])
  else idaLoop db fuel fuel ((⟨[], 0⟩ : PathVec).push_back puzzle) [] (hScore db puzzle)

/-! ## Explicit-stack solver (`patterndb.cpp`) -/

/-- The struct `Node`. -/
structure Node where
  state : Puzzle
  g : Int
  dirIndex : Nat
  moves : List Dir
deriving DecidableEq

/-- The inner `while (!stack.empty() && !found)` loop of `iterativeIDAStar`; the
head of the list is `stack.back()`.  It yields `solutionMoves` when `found` is
set (`none` otherwise) together with `newBound`; `fuel` bounds the number of
iterations. -/
def iterativePass (db : PatternDB) (bound : Int) :
    Nat → List Node → Int → Option (Option (List Dir) × Int)
  | _, [], newBound => some (none, newBound)
  | 0, _ :: _, _ => none
  | fuel + 1, top :: rest, newBound =>
    let f := top.g + hScore db top.state
    if f > bound then iterativePass db bound fuel rest (min newBound f)
    else if top.state.checkWin then some (some top.moves, newBound)
    else if top.dirIndex ≥ DIRECTIONS.length then iterativePass db bound fuel rest newBound
    else
      let dir := DIRECTIONS.getD top.dirIndex (0, 0)
      let top1 : Node := { top with dirIndex := top.dirIndex + 1 }
      if isReverse dir top.moves then iterativePass db bound fuel (top1 :: rest) newBound
      else
        let sim := top.state.simulateMove dir
        if !sim.1 then iterativePass db bound fuel (top1 :: rest) newBound
        else
          let child : Node :=
            { state := sim.2, g := top.g + 1, dirIndex := 0, moves := top.moves ++ [dir] }
          iterativePass db bound fuel (child :: top1 :: rest) newBound

/-- The outer `while (true)` loop of `iterativeIDAStar`: `passes` bounds the
number of iterations, `fuel` the length of each inner loop. -/
def iterativeLoop (db : PatternDB) (initial : Puzzle) (fuel : Nat) : Nat → Int → Option (List Dir)
  | 0, _ => none
  | passes + 1, bound =>
    match iterativePass db bound fuel [⟨initial, 0, 0, []⟩] INF with
    | none => none
    | some (some solutionMoves, _) => some solutionMoves
    | some (none, newBound) =>
      if newBound = INF then some []
      else iterativeLoop db initial fuel passes newBound

/-- The function `iterativeIDAStar(initial)`. -/
def iterativeIDAStar (fuel : Nat) (db : PatternDB) (initial : Puzzle) : Option (List Dir) :=
  iterativeLoop db initial fuel fuel (hScore db initial)

/-! ## Path reconstruction (both files) -/

/-- The function `reconstructPath(initial, moves)`; the flag of `move` is
discarded, as in the source. -/
def reconstructPath (initial : Puzzle) (moves : List Dir) : List String :=
  let rec go (temp : Puzzle) : List Dir → List String
    | [] => []
    | mv :: rest =>
      let temp1 := (temp.move mv.1 mv.2).2
      temp1.toString :: go temp1 rest
  initial.toString :: go initial moves

/-! ## Predicates used to state the properties -/

/-- The board is a `boardSize × boardSize` grid. -/
def Puzzle.Shaped (p : Puzzle) : Prop :=
  p.board.length = p.boardSize.toNat ∧ ∀ row ∈ p.board, row.length = p.boardSize.toNat

/-- The board is a grid and the cached blank coordinates point at a cell of it
that holds `0`. -/
def Puzzle.BlankCached (p : Puzzle) : Prop :=
  p.Shaped ∧ 0 ≤ p.blankRow ∧ p.blankRow < p.boardSize ∧ 0 ≤ p.blankCol ∧
    p.blankCol < p.boardSize ∧ getCell p.board p.blankRow.toNat p.blankCol.toNat = 0

/-- The values of the board, row by row, are a permutation of `0 .. N*N-1`. -/
def Puzzle.IsPermutation (p : Puzzle) : Prop :=
  List.Perm p.board.flatten
    ((List.range (p.boardSize.toNat * p.boardSize.toNat)).map fun (k : Nat) => (k : Int))

/-- A well-formed state: an `N × N` board whose values are a permutation of
`0 .. N*N-1`, with the cached blank on the `0` cell. -/
def Puzzle.WellFormed (p : Puzzle) : Prop :=
  p.BlankCached ∧ p.IsPermutation

instance (p : Puzzle) : Decidable p.Shaped := by
  unfold Puzzle.Shaped; infer_instance

instance (p : Puzzle) : Decidable p.BlankCached := by
  unfold Puzzle.BlankCached; infer_instance

instance (p : Puzzle) : Decidable p.IsPermutation := by
  unfold Puzzle.IsPermutation; infer_instance

instance (p : Puzzle) : Decidable p.WellFormed := by
  unfold Puzzle.WellFormed; infer_instance

/-- Replay a move list with `Puzzle::move`: `some` of the final state when every
move is one of the four `DIRECTIONS` and succeeds, `none` otherwise. -/
def applyMoves (p : Puzzle) : List Dir → Option Puzzle
  | [] => some p
  | d :: ds =>
    if d ∈ DIRECTIONS ∧ (p.move d.1 d.2).1 = true then applyMoves (p.move d.1 d.2).2 ds
    else none

/-- The move list `ms` is a legal move sequence taking `p` to a solved state. -/
def Solves (p : Puzzle) (ms : List Dir) : Prop :=
  ∃ q, applyMoves p ms = some q ∧ q.checkWin = true

/-- The fuel-indexed computation `f` returns `r`: it does so for every large
enough fuel. -/
def Returns {α : Type} (f : Nat → Option α) (r : α) : Prop :=
  ∃ n₀, ∀ n, n₀ ≤ n → f n = some r

/-! ## The heuristic in the words of the specification -/

/-- The Manhattan sum as the specification words it: the sum of
`|(t-1)/N - i| + |(t-1)%N - j|` over the cells `(i,j)` holding a non-zero tile
`t` of the group. -/
def manhattanSpec (puzzle : Puzzle) (group : Group) : Int :=
  ∑ c ∈ (Finset.range puzzle.boardSize.toNat ×ˢ Finset.range puzzle.boardSize.toNat).filter
      (fun c => getCell puzzle.board c.1 c.2 ≠ 0 ∧ getCell puzzle.board c.1 c.2 ∈ group),
    (|(getCell puzzle.board c.1 c.2 - 1).tdiv puzzle.boardSize - (c.1 : Int)| +
      |(getCell puzzle.board c.1 c.2 - 1).tmod puzzle.boardSize - (c.2 : Int)|)

/-- The estimate as the specification words it: the sum over the groups, in
order and paired with their tables, of the stored value when the fingerprint is
present and of the Manhattan sum of the group otherwise. -/
def hScoreSpec (db : PatternDB) (puzzle : Puzzle) : Int :=
  ((List.zip db.groups db.dicts).map fun gt =>
    match gt.2.lookup (puzzle.hash gt.1) with
    | some v => v
    | none => manhattanSpec puzzle gt.1).sum

/-! ## Counting the moves of a group -/

/-- The tile that a move by `d` slides: the one on the cell the blank moves to. -/
def movedTile (p : Puzzle) (d : Dir) : Int :=
  getCell p.board (p.blankRow + d.1).toNat (p.blankCol + d.2).toNat

/-- The number of moves of `ms`, replayed from `p`, that slide a tile of `group`. -/
def groupMoves (group : Group) : Puzzle → List Dir → Nat
  | _, [] => 0
  | p, d :: ds =>
    (if movedTile p d ∈ group then 1 else 0) + groupMoves group (p.move d.1 d.2).2 ds

/-- The summand of `manhattan` for tile `t` on cell `(i,j)` of a board of size `N`. -/
def cellCost (N : Int) (group : Group) (i j : Nat) (t : Int) : Int :=
  if t ≠ 0 ∧ t ∈ group then
    (((t - 1).tdiv N - (i : Int)).natAbs + ((t - 1).tmod N - (j : Int)).natAbs : Int)
  else 0

/-! ## The bounded depth-first pass as a function

Both solvers run, for each bound, the same depth-first pass.  `dfs` is that
pass without the bookkeeping of either implementation (no `path` vector, no
explicit stack); the theorems relate `search` and `iterativePass` to it. -/

/-- The outcome of one pass below a node: a solution, or the least `f` among the
nodes pruned (`INF` when there is none below `INF`). -/
inductive PassResult where
  | found (moves : List Dir)
  | cut (t : Int)
deriving DecidableEq

/-- The loop over the directions still to try at a node reached by `moves`. -/
def dfsLoop (rec : Puzzle → Int → List Dir → Option PassResult)
    (cur : Puzzle) (g : Int) (moves : List Dir) : List Dir → Int → Option PassResult
  | [], min_val => some (.cut min_val)
  | dir :: rest, min_val =>
    if isReverse dir moves then dfsLoop rec cur g moves rest min_val
    else if !(cur.simulateMove dir).1 then dfsLoop rec cur g moves rest min_val
    else
      match rec (cur.simulateMove dir).2 (g + 1) (moves ++ [dir]) with
      | none => none
      | some (.found ms) => some (.found ms)
      | some (.cut t) => dfsLoop rec cur g moves rest (if t < min_val then t else min_val)

/-- One pass with heuristic `h` and bound `bound` from the node `cur` at depth
`g` reached by `moves`; `none` when the fuel runs out. -/
def dfs (h : Puzzle → Int) (bound : Int) : Nat → Puzzle → Int → List Dir → Option PassResult
  | 0, _, _, _ => none
  | fuel + 1, cur, g, moves =>
    if g + h cur > bound then some (.cut (g + h cur))
    else if cur.checkWin then some (.found moves)
    else dfsLoop (dfs h bound fuel) cur g moves DIRECTIONS INF

/-- The move list `ds` can follow `moves` with no move undoing the one before it. -/
def NonReversing : List Dir → List Dir → Prop
  | _, [] => True
  | moves, d :: ds => isReverse d moves = false ∧ NonReversing (moves ++ [d]) ds

/-- The iterative deepening from `bound`, pass after pass, ends with the move
list `r`. -/
inductive Outcome (h : Puzzle → Int) (p : Puzzle) : Int → List Dir → Prop where
  | found {bound : Int} {n : Nat} {ms : List Dir} :
      dfs h bound n p 0 [] = some (.found ms) → Outcome h p bound ms
  | exhausted {bound : Int} {n : Nat} :
      dfs h bound n p 0 [] = some (.cut INF) → Outcome h p bound []
  | next {bound t : Int} {n : Nat} {r : List Dir} :
      dfs h bound n p 0 [] = some (.cut t) → t ≠ INF → Outcome h p t r → Outcome h p bound r

/-- Along the replay of `ds` from `cur` (at depth `g`) some state is pruned under
`bound`, with an `f` value that is at least `t`. -/
def PrunedAlong (h : Puzzle → Int) (bound : Int) (cur : Puzzle) (g t : Int)
    (ds : List Dir) : Prop :=
  ∃ (k : Nat) (s : Puzzle), k ≤ ds.length ∧ applyMoves cur (ds.take k) = some s ∧
    bound < g + k + h s ∧ t ≤ g + k + h s

/-! ## The recursive search with `cur` held as a copy

A proof device, not a model of the source: the recursive search as it would run
if `search` held `Puzzle cur = path.back()`, a copy, so that no read can be
through a dangling reference.  Every run of `search` that ends with a value is
also a run of `searchCopy` with the same result (`search_value_copy`), and
`searchCopy` computes the pass `dfs`. -/

/-- What a call of `searchCopy` leaves behind. -/
structure CopyOut where
  t : Int
  path : List Puzzle
  dirs : List Dir
deriving DecidableEq

/-- The loop of `searchLoop` with `cur` a copy: no capacity, no undefined read. -/
def searchLoopCopy (rec : List Puzzle → Int → Int → List Dir → Option CopyOut)
    (cur : Puzzle) (g bound : Int) :
    List Dir → Int → List Puzzle → List Dir → Option CopyOut
  | [], min_val, path, dirs => some ⟨min_val, path, dirs⟩
  | dir :: rest, min_val, path, dirs =>
    if isReverse dir dirs then searchLoopCopy rec cur g bound rest min_val path dirs
    else
      let sim := cur.simulateMove dir
      if !sim.1 then searchLoopCopy rec cur g bound rest min_val path dirs
      else
        match rec (path ++ [sim.2]) (g + 1) bound (dirs ++ [dir]) with
        | none => none
        | some out =>
          if out.t = -1 then some ⟨-1, out.path, out.dirs⟩
          else
            searchLoopCopy rec cur g bound rest (if out.t < min_val then out.t else min_val)
              out.path.dropLast out.dirs.dropLast

/-- The function `search` with `cur` a copy; `none` when the fuel runs out or
`path` is empty. -/
def searchCopy (db : PatternDB) : Nat → List Puzzle → Int → Int → List Dir → Option CopyOut
  | 0, _, _, _, _ => none
  | fuel + 1, path, g, bound, dirs =>
    match path.getLast? with
    | none => none
    | some cur =>
      let f := g + hScore db cur
      if f > bound then some ⟨f, path, dirs⟩
      else if cur.checkWin then some ⟨-1, path, dirs⟩
      else searchLoopCopy (searchCopy db fuel) cur g bound DIRECTIONS INF path dirs

/-- The loop of `idaLoop` over `searchCopy`. -/
def idaLoopCopy (db : PatternDB) (fuel : Nat) :
    Nat → List Puzzle → List Dir → Int → Option (List Dir)
  | 0, _, _, _ => none
  | passes + 1, path, dirs, bound =>
    match searchCopy db fuel path 0 bound dirs with
    | none => none
    | some out =>
      if out.t = -1 then some out.dirs
      else if out.t = INF then some []
      else idaLoopCopy db fuel passes out.path out.dirs out.t

/-- The function `idaStar` over `searchCopy`. -/
def idaStarCopy (fuel : Nat) (db : PatternDB) (puzzle : Puzzle) : Option (List Dir) :=
  if puzzle.checkWin then some []
  else idaLoopCopy db fuel fuel [puzzle] [] (hScore db puzzle)

/-! ## Replaying a path -/

/-- The state `temp` of `reconstructPath` after the moves of `moves` were applied
in order with `Puzzle::move`, the returned flags discarded. -/
def replay (p : Puzzle) (moves : List Dir) : Puzzle :=
  moves.foldl (fun temp mv => (temp.move mv.1 mv.2).2) p

/-- No move of the list is the exact reverse of the move before it. -/
def NoImmediateReversal (ms : List Dir) : Prop :=
  List.Chain' (fun d d' => ¬ (d'.1 = -d.1 ∧ d'.2 = -d.2)) ms

instance (ms : List Dir) : Decidable (NoImmediateReversal ms) := by
  unfold NoImmediateReversal; infer_instance

/-! ## Loading the database (`loadPatternDB`)

Opening the resource and parsing its JSON text are external; the embedding
starts from their result.  The two files load differently: `patterndb.cpp`
reads an Android asset and parses inside `try { ... } catch (...)`,
`patterndb4_solver.cpp` reads a file and parses with no handler. -/

/-- The parsed resource: the arrays `j["groups"]` and `j["patternDbDict"]`, the
numbers as the `int`s that `get<int>()` yields. -/
structure PatternDoc where
  groups : List (List Int)
  patternDbDict : List (List (String × Int))
deriving DecidableEq

/-- What the resource `patternDb_4.json` turns out to be. -/
inductive Asset where
  /-- It cannot be opened or read (no asset manager, no such asset or file,
  nothing read). -/
  | unavailable
  /-- Its text is not JSON: the parser throws. -/
  | malformed
  /-- It is JSON, but a value has the wrong type: `get<int>()` or the iteration
  throws while the arrays are copied; `stored` is what the globals hold by then. -/
  | illTyped (stored : PatternDB)
  /-- It is a document with the two arrays. -/
  | doc (j : PatternDoc)
deriving DecidableEq

/-- The function `loadPatternDB` of `patterndb.cpp`; `old` holds the globals
before the call.  It yields the returned flag and the globals after the call.
Every exception is caught and answered with `false`; the parser runs before the
globals are cleared, the copy loops after. -/
def loadPatternDB (old : PatternDB) : Asset → Bool × PatternDB
  | .unavailable => (false, old)
  | .malformed => (false, old)
  | .illTyped stored => (false, stored)
  | .doc j => (true, { groups := j.groups, dicts := j.patternDbDict })

/-- The function `loadPatternDB` of `patterndb4_solver.cpp`, which reads the
file with `ifstream` and parses with no `try`: `none` when an exception leaves
the function and the program is terminated. -/
def loadPatternDBFromFile (old : PatternDB) : Asset → Option (Bool × PatternDB)
  | .unavailable => some (false, old)
  | .malformed => none
  | .illTyped _ => none
  | .doc j => some (true, { groups := j.groups, dicts := j.patternDbDict })

/-! ## The solve boundary (`solveThread`, `Java_com_example_patterndb_NativeSolver_solvePuzzle`)

Splitting the input text into rows of integers is external; the embedding
starts from the parsed `matrix`. -/

/-- The test `matrix.size() != 4 || matrix[0].size() != 4`; `matrix[0]` is read
only when there are four rows. -/
def shapeRejected (matrix : List (List Int)) : Bool :=
  matrix.length != 4 || (matrix.getD 0 []).length != 4

/-- The read `matrix[i][j]`: `none` when the input has no such cell, where the
read is undefined. -/
def readCell (matrix : List (List Int)) (i j : Nat) : Option Int :=
  match matrix[i]? with
  | none => none
  | some row => row[j]?

/-- The loop that copies `matrix` into `Puzzle puzzle(4)` and caches the blank:
`none` when it reads a cell the input does not have. -/
def fillPuzzle (matrix : List (List Int)) : Option Puzzle :=
  (List.range 4).foldlM (fun puzzle (i : Nat) =>
    (List.range 4).foldlM (fun (puzzle : Puzzle) (j : Nat) =>
      match readCell matrix i j with
      | none => none
      | some v =>
        let puzzle1 : Puzzle := { puzzle with board := setCell puzzle.board i j v }
        some (if v = 0 then { puzzle1 with blankRow := (i : Int), blankCol := (j : Int) }
          else puzzle1)) puzzle) (Puzzle.new 4)

/-- The output loop: `"Paso " << i << ":\n" << pathStates[i] << "\n"` for every
state of the path. -/
def formatSteps (pathStates : List String) : String :=
  (List.range pathStates.length).foldl (fun oss (i : Nat) =>
    oss ++ "Paso " ++ toString i ++ ":\n" ++ pathStates.getD i "" ++ "\n") ""

/-- The function `solveThread` of `patterndb.cpp` from the parsed matrix on: the
string left in `data->result`.  `old` holds the globals before the call and
`asset` the resource `patternDb_4.json`; the result is `none` when the fuel of
the search runs out or a read is undefined. -/
def solveThread (fuel : Nat) (old : PatternDB) (asset : Asset)
    (matrix : List (List Int)) : Option String :=
  if shapeRejected matrix then some "Error: La matriz debe ser 4x4."
  else
    match fillPuzzle matrix with
    | none => none
    | some puzzle =>
      match loadPatternDB old asset with
      | (false, _) => some "Error al cargar PatternDB."
      | (true, db) =>
        match iterativeIDAStar fuel db puzzle with
        | none => none
        | some moves => some (formatSteps (reconstructPath puzzle moves))

/-- The function `Java_com_example_patterndb_NativeSolver_solvePuzzle` of
`patterndb4_solver.cpp` from the parsed matrix on: the returned string.  The
result is `none` when no string is returned: the fuel of the search runs out,
the run meets undefined behaviour, or the loader terminates the program. -/
def solvePuzzle (fuel : Nat) (old : PatternDB) (asset : Asset)
    (matrix : List (List Int)) : Option String :=
  if shapeRejected matrix then some "Error: La matriz debe ser 4x4."
  else
    match fillPuzzle matrix with
    | none => none
    | some puzzle =>
      match loadPatternDBFromFile old asset with
      | none => none
      | some (false, _) => some "Error al cargar PatternDB."
      | some (true, db) =>
        match idaStar fuel db puzzle with
        | some (.value moves) => some (formatSteps (reconstructPath puzzle moves))
        | _ => none

/-- What the copy loop of the boundary has established once the cells in `W` are
written: the puzzle is a 4×4 grid that agrees with `matrix` on `W`, and the
cached blank is either still the `(3,3)` of the constructor, no written cell
holding `0`, or a cell of `matrix` that holds `0`. -/
def FillInv (matrix : List (List Int)) (W : Nat → Nat → Prop) (puzzle : Puzzle) : Prop :=
  puzzle.boardSize = 4 ∧ (puzzle.board.length = 4 ∧ ∀ row ∈ puzzle.board, row.length = 4) ∧
    (∀ a b, W a b → getCell puzzle.board a b = getCell matrix a b) ∧
    ((puzzle.blankRow = 3 ∧ puzzle.blankCol = 3 ∧ ∀ a b, W a b → getCell matrix a b ≠ 0) ∨
      ∃ r c : Nat, r < 4 ∧ c < 4 ∧ puzzle.blankRow = r ∧ puzzle.blankCol = c ∧
        getCell matrix r c = 0)

/-! ## Expansion order -/

/-- The position of a direction in the array `DIRECTIONS`, the order in which the loops
of both solvers try the directions. -/
def dirRank (d : Dir) : Nat := DIRECTIONS.indexOf d

/-! ## Reading a fingerprint back -/

/-- The cells holding a label of the group, in row-major order. -/
def occupiedCells (p : Puzzle) (group : Group) : List (Nat × Nat) :=
  (List.range p.boardSize.toNat).flatMap fun i =>
    ((List.range p.boardSize.toNat).filter fun j => decide (getCell p.board i j ∈ group)).map
      fun j => (i, j)

/-- Read a list of characters two by two as the decimal digits of a row and a column. -/
def decodeCells : List Char → List (Nat × Nat)
  | a :: b :: rest => (a.toNat - 48, b.toNat - 48) :: decodeCells rest
  | _ => []

/-- Read a fingerprint back as the list of cells it names. -/
def decodeHash (s : String) : List (Nat × Nat) := decodeCells s.data

/-! ## The range of `int`

The integers of the source are C++ `int`s, 32 bits wide, and an addition whose result
leaves that range is undefined.  The definitions above compute in `Int`; a statement
that depends on the arithmetic carries a bound under which every value the code
computes satisfies `IntFits`. -/

/-- The value fits in a C++ `int` (32 bits). -/
def IntFits (x : Int) : Prop := -2147483648 ≤ x ∧ x ≤ 2147483647

instance (x : Int) : Decidable (IntFits x) := by
  unfold IntFits; infer_instance

/-! ## Theorems -/

/-! ### Cells of a grid -/

theorem getD_set {α} (l : List α) (i k : Nat) (x d : α) :
    (l.set i x).getD k d = if i = k ∧ i < l.length then x else l.getD k d := by
  simp only [List.getD_eq_getElem?_getD, List.getElem?_set]
  by_cases h : i = k
  · subst h
    by_cases h2 : i < l.length
    · simp [h2]
    · simp [h2, List.getElem?_eq_none (Nat.le_of_not_lt h2)]
  · simp [h]

theorem getCell_setCell (b : List (List Int)) (i j i' j' : Nat) (v : Int) :
    getCell (setCell b i j v) i' j' =
      if i' = i ∧ j' = j ∧ i < b.length ∧ j < (b.getD i []).length then v else getCell b i' j' := by
  unfold getCell setCell
  rw [getD_set]
  by_cases h : i = i' ∧ i < b.length
  · obtain ⟨rfl, h2⟩ := h
    rw [if_pos ⟨rfl, h2⟩, getD_set]
    by_cases h3 : j = j' ∧ j < (b.getD i []).length
    · obtain ⟨rfl, h4⟩ := h3
      simp [h2, h4]
    · rw [if_neg h3, if_neg]
      intro h5; exact h3 ⟨h5.2.1.symm, h5.2.2.2⟩
  · rw [if_neg h, if_neg]
    intro h5; exact h ⟨h5.1.symm, h5.2.2.1⟩

/-- A grid of side `n`. -/
theorem length_getD_of_shaped {b : List (List Int)} {n : Nat}
    (hb : b.length = n ∧ ∀ row ∈ b, row.length = n) {i : Nat} (hi : i < n) :
    (b.getD i []).length = n := by
  have hi' : i < b.length := by omega
  rw [List.getD_eq_getElem?_getD, List.getElem?_eq_getElem hi']
  exact hb.2 _ (List.getElem_mem hi')

theorem shaped_setCell {b : List (List Int)} {n : Nat}
    (hb : b.length = n ∧ ∀ row ∈ b, row.length = n) (i j : Nat) (v : Int) :
    (setCell b i j v).length = n ∧ ∀ row ∈ setCell b i j v, row.length = n := by
  unfold setCell
  refine ⟨by simp [hb.1], ?_⟩
  intro row hrow
  rcases List.mem_or_eq_of_mem_set hrow with h | h
  · exact hb.2 _ h
  · subst h
    rw [List.length_set]
    by_cases hi : i < n
    · exact length_getD_of_shaped hb hi
    · rw [List.set_eq_of_length_le (by omega)] at hrow
      exact (List.length_set _ _ _).symm.trans (hb.2 _ hrow)

theorem getCell_eq_getElem {b : List (List Int)} {n : Nat}
    (hb : b.length = n ∧ ∀ row ∈ b, row.length = n) {i j : Nat} (hi : i < n) (hj : j < n) :
    ∃ (h1 : i < b.length) (h2 : j < (b[i]).length), getCell b i j = (b[i])[j] := by
  have hi' : i < b.length := by omega
  have hj' : j < (b[i]).length := by rw [hb.2 _ (List.getElem_mem hi')]; exact hj
  refine ⟨hi', hj', ?_⟩
  unfold getCell
  simp [List.getD_eq_getElem?_getD, List.getElem?_eq_getElem hi', List.getElem?_eq_getElem hj']

theorem board_ext {b b' : List (List Int)} {n : Nat}
    (hb : b.length = n ∧ ∀ row ∈ b, row.length = n)
    (hb' : b'.length = n ∧ ∀ row ∈ b', row.length = n)
    (h : ∀ i j, i < n → j < n → getCell b i j = getCell b' i j) : b = b' := by
  apply List.ext_getElem (by rw [hb.1, hb'.1])
  intro i h1 h2
  have hi : i < n := by omega
  apply List.ext_getElem (by rw [hb.2 _ (List.getElem_mem h1), hb'.2 _ (List.getElem_mem h2)])
  intro j h3 h4
  have hj : j < n := by rw [hb.2 _ (List.getElem_mem h1)] at h3; exact h3
  obtain ⟨_, _, e1⟩ := getCell_eq_getElem hb hi hj
  obtain ⟨_, _, e2⟩ := getCell_eq_getElem hb' hi hj
  rw [← e1, ← e2]; exact h i j hi hj

/-- Writing inside a grid. -/
theorem getCell_setCell_shaped {b : List (List Int)} {n : Nat}
    (hb : b.length = n ∧ ∀ row ∈ b, row.length = n) {i j : Nat} (hi : i < n) (hj : j < n)
    (i' j' : Nat) (v : Int) :
    getCell (setCell b i j v) i' j' = if i' = i ∧ j' = j then v else getCell b i' j' := by
  rw [getCell_setCell]
  have h1 : i < b.length := by omega
  have h2 : j < (b.getD i []).length := by rw [length_getD_of_shaped hb hi]; exact hj
  by_cases h : i' = i ∧ j' = j
  · rw [if_pos ⟨h.1, h.2, h1, h2⟩, if_pos h]
  · rw [if_neg (fun h' => h ⟨h'.1, h'.2.1⟩), if_neg h]

/-! ### The goal board -/

theorem checkWin_iff (p : Puzzle) :
    p.checkWin = true ↔
      ∀ i j : Nat, i < p.boardSize.toNat → j < p.boardSize.toNat →
        ¬ ((i : Int) = p.boardSize - 1 ∧ (j : Int) = p.boardSize - 1) →
        getCell p.board i j = (i : Int) * p.boardSize + (j : Int) + 1 := by
  unfold Puzzle.checkWin
  simp only [List.all_eq_true, List.mem_range]
  constructor
  · intro h i j hi hj hne
    have := h i hi j hj
    rw [if_neg hne] at this
    exact of_decide_eq_true this
  · intro h i hi j hj
    by_cases hne : (i : Int) = p.boardSize - 1 ∧ (j : Int) = p.boardSize - 1
    · rw [if_pos hne]
    · rw [if_neg hne]
      exact decide_eq_true (h i j hi hj hne)

theorem shaped_filled (N : Int) :
    ((List.range N.toNat).map fun (i : Nat) =>
      (List.range N.toNat).map fun (j : Nat) => (i : Int) * N + (j : Int) + 1).length = N.toNat ∧
    ∀ row ∈ ((List.range N.toNat).map fun (i : Nat) =>
      (List.range N.toNat).map fun (j : Nat) => (i : Int) * N + (j : Int) + 1), row.length = N.toNat := by
  refine ⟨by simp, ?_⟩
  intro row hrow
  simp only [List.mem_map, List.mem_range] at hrow
  obtain ⟨i, _, rfl⟩ := hrow
  simp

theorem getCell_filled (N : Int) {i j : Nat} (hi : i < N.toNat) (hj : j < N.toNat) :
    getCell ((List.range N.toNat).map fun (i : Nat) =>
      (List.range N.toNat).map fun (j : Nat) => (i : Int) * N + (j : Int) + 1) i j
      = (i : Int) * N + (j : Int) + 1 := by
  unfold getCell
  simp [List.getD_eq_getElem?_getD, List.getElem?_range, hi, hj]

theorem new_shaped (N : Int) : (Puzzle.new N).Shaped := by
  unfold Puzzle.Shaped Puzzle.new
  exact shaped_setCell (shaped_filled N) _ _ _

theorem getCell_new (N : Int) {i j : Nat} (hi : i < N.toNat) (hj : j < N.toNat) :
    getCell (Puzzle.new N).board i j =
      if (i : Int) = N - 1 ∧ (j : Int) = N - 1 then 0 else (i : Int) * N + (j : Int) + 1 := by
  unfold Puzzle.new
  simp only
  have h1 : (N - 1).toNat < N.toNat := by omega
  rw [getCell_setCell_shaped (shaped_filled N) h1 h1, getCell_filled N hi hj]
  by_cases h : i = (N - 1).toNat ∧ j = (N - 1).toNat
  · rw [if_pos h, if_pos]
    omega
  · rw [if_neg h, if_neg]
    omega

theorem new_checkWin (N : Int) : (Puzzle.new N).checkWin = true := by
  rw [checkWin_iff]
  intro i j hi hj hne
  have : (Puzzle.new N).boardSize = N := rfl
  rw [this] at hi hj hne ⊢
  rw [getCell_new N hi hj, if_neg hne]

theorem exists_cell_of_mem_flatten {b : List (List Int)} {n : Nat}
    (hb : b.length = n ∧ ∀ row ∈ b, row.length = n) {x : Int} (hx : x ∈ b.flatten) :
    ∃ i j, i < n ∧ j < n ∧ getCell b i j = x := by
  rw [List.mem_flatten] at hx
  obtain ⟨row, hrow, hxr⟩ := hx
  obtain ⟨i, hi, rfl⟩ := List.getElem_of_mem hrow
  obtain ⟨j, hj, rfl⟩ := List.getElem_of_mem hxr
  have hi' : i < n := by omega
  have hj' : j < n := by rw [hb.2 _ hrow] at hj; exact hj
  obtain ⟨_, _, e⟩ := getCell_eq_getElem hb hi' hj'
  exact ⟨i, j, hi', hj', e⟩

theorem tdiv_tmod_cell {N i j : Int} (hi : 0 ≤ i) (hj : 0 ≤ j) (hjN : j < N) :
    (i * N + j).tdiv N = i ∧ (i * N + j).tmod N = j := by
  have hN : 0 < N := by omega
  have h0 : 0 ≤ i * N + j := by
    have := Int.mul_nonneg hi (le_of_lt hN)
    omega
  rw [Int.tdiv_eq_ediv h0 (le_of_lt hN), Int.tmod_eq_emod h0 (le_of_lt hN)]
  rw [Int.ediv_emod_unique hN]
  refine ⟨?_, hj, hjN⟩
  rw [Int.mul_comm N i]; omega

/-! ### `Puzzle::move` -/

theorem move_outside {p : Puzzle} {dx dy : Int}
    (h : p.blankRow + dx < 0 ∨ p.boardSize ≤ p.blankRow + dx ∨
      p.blankCol + dy < 0 ∨ p.boardSize ≤ p.blankCol + dy) :
    p.move dx dy = (false, p) := by
  unfold Puzzle.move
  simp only [ge_iff_le]
  rw [if_pos h]

theorem move_inside {p : Puzzle} {dx dy : Int}
    (h : ¬ (p.blankRow + dx < 0 ∨ p.boardSize ≤ p.blankRow + dx ∨
      p.blankCol + dy < 0 ∨ p.boardSize ≤ p.blankCol + dy)) :
    p.move dx dy = (true,
      { p with
        board := setCell (setCell p.board p.blankRow.toNat p.blankCol.toNat
          (getCell p.board (p.blankRow + dx).toNat (p.blankCol + dy).toNat))
          (p.blankRow + dx).toNat (p.blankCol + dy).toNat 0
        blankRow := p.blankRow + dx
        blankCol := p.blankCol + dy }) := by
  unfold Puzzle.move
  simp only [ge_iff_le]
  rw [if_neg h]

/-! ### Claims on `move` and `checkWin` -/

/-- C5. `Puzzle::move` returns false exactly when the destination
`(blankRow+dx, blankCol+dy)` lies outside the board, and then the state (board
and cached blank) is unchanged; with the blank at `(0,0)` on a board of size 4
the displacements `(-1,0)` and `(0,-1)` are rejected. -/
theorem move_false_iff_outside (p : Puzzle) (dx dy : Int) :
    ((p.move dx dy).1 = false ↔
      (p.blankRow + dx < 0 ∨ p.boardSize ≤ p.blankRow + dx ∨
        p.blankCol + dy < 0 ∨ p.boardSize ≤ p.blankCol + dy)) ∧
    ((p.move dx dy).1 = false → (p.move dx dy).2 = p) ∧
    (p.boardSize = 4 → p.blankRow = 0 → p.blankCol = 0 →
      p.move (-1) 0 = (false, p) ∧ p.move 0 (-1) = (false, p)) := by
  have key : (p.move dx dy).1 = false ↔
      (p.blankRow + dx < 0 ∨ p.boardSize ≤ p.blankRow + dx ∨
        p.blankCol + dy < 0 ∨ p.boardSize ≤ p.blankCol + dy) := by
    constructor
    · intro h
      by_contra hc
      rw [move_inside hc] at h
      exact Bool.noConfusion h
    · intro h
      rw [move_outside h]
  refine ⟨key, ?_, ?_⟩
  · intro h
    rw [move_outside (key.1 h)]
  · intro hs hr hc
    exact ⟨move_outside (Or.inl (by omega)), move_outside (Or.inr (Or.inr (Or.inl (by omega))))⟩

theorem move_false_iff_outside_witness :
    (⟨4, [[0, 1, 2, 3], [4, 5, 6, 7], [8, 9, 10, 11], [12, 13, 14, 15]], 0, 0⟩ : Puzzle).move (-1) 0
      = (false, ⟨4, [[0, 1, 2, 3], [4, 5, 6, 7], [8, 9, 10, 11], [12, 13, 14, 15]], 0, 0⟩) :=
  ((move_false_iff_outside
    ⟨4, [[0, 1, 2, 3], [4, 5, 6, 7], [8, 9, 10, 11], [12, 13, 14, 15]], 0, 0⟩ (-1) 0).2.2
      rfl rfl rfl).1

/-- C6. For a well-formed state and a displacement whose destination is inside
the board, `Puzzle::move` returns true, the destination cell becomes `0`, the
former blank cell receives the tile that was at the destination, the cached
blank becomes the destination, and every other cell (and the board size) is
unchanged. -/
theorem move_inside_effect (p : Puzzle) (dx dy : Int) (hwf : p.WellFormed)
    (hr0 : 0 ≤ p.blankRow + dx) (hr1 : p.blankRow + dx < p.boardSize)
    (hc0 : 0 ≤ p.blankCol + dy) (hc1 : p.blankCol + dy < p.boardSize) :
    (p.move dx dy).1 = true ∧
    getCell (p.move dx dy).2.board (p.blankRow + dx).toNat (p.blankCol + dy).toNat = 0 ∧
    getCell (p.move dx dy).2.board p.blankRow.toNat p.blankCol.toNat =
      getCell p.board (p.blankRow + dx).toNat (p.blankCol + dy).toNat ∧
    (p.move dx dy).2.blankRow = p.blankRow + dx ∧
    (p.move dx dy).2.blankCol = p.blankCol + dy ∧
    (p.move dx dy).2.boardSize = p.boardSize ∧
    ∀ i j : Nat, (i, j) ≠ (p.blankRow.toNat, p.blankCol.toNat) →
      (i, j) ≠ ((p.blankRow + dx).toNat, (p.blankCol + dy).toNat) →
      getCell (p.move dx dy).2.board i j = getCell p.board i j := by
  obtain ⟨⟨hsh, hb0, hb1, hb2, hb3, hz⟩, _⟩ := hwf
  have hin : ¬ (p.blankRow + dx < 0 ∨ p.boardSize ≤ p.blankRow + dx ∨
      p.blankCol + dy < 0 ∨ p.boardSize ≤ p.blankCol + dy) := by omega
  rw [move_inside hin]
  have hr : p.blankRow.toNat < p.boardSize.toNat := by omega
  have hc : p.blankCol.toNat < p.boardSize.toNat := by omega
  have hr' : (p.blankRow + dx).toNat < p.boardSize.toNat := by omega
  have hc' : (p.blankCol + dy).toNat < p.boardSize.toNat := by omega
  have hsh1 := shaped_setCell hsh p.blankRow.toNat p.blankCol.toNat
    (getCell p.board (p.blankRow + dx).toNat (p.blankCol + dy).toNat)
  refine ⟨rfl, ?_, ?_, rfl, rfl, rfl, ?_⟩
  · simp only
    rw [getCell_setCell_shaped hsh1 hr' hc']
    simp
  · simp only
    rw [getCell_setCell_shaped hsh1 hr' hc', getCell_setCell_shaped hsh hr hc]
    by_cases h : p.blankRow.toNat = (p.blankRow + dx).toNat ∧
        p.blankCol.toNat = (p.blankCol + dy).toNat
    · rw [if_pos h, ← h.1, ← h.2, hz]
    · rw [if_neg h]; simp
  · intro i j h1 h2
    simp only
    rw [getCell_setCell_shaped hsh1 hr' hc', getCell_setCell_shaped hsh hr hc]
    rw [if_neg (fun h => h2 (by rw [h.1, h.2])), if_neg (fun h => h1 (by rw [h.1, h.2]))]

theorem move_inside_effect_witness :
    ((Puzzle.new 3).move (-1) 0).1 = true ∧
    getCell ((Puzzle.new 3).move (-1) 0).2.board 1 2 = 0 ∧
    getCell ((Puzzle.new 3).move (-1) 0).2.board 2 2 = 6 :=
  have h := move_inside_effect (Puzzle.new 3) (-1) 0 (by decide) (by decide) (by decide)
    (by decide) (by decide)
  ⟨h.1, h.2.1, h.2.2.1⟩

/-- C7. `checkWin` is true iff every cell `(i,j)` other than the bottom-right
holds `i*N+j+1`; hence on an `N × N` board whose values are a permutation of
`0 .. N*N-1` it is true iff the board is the one built by `Puzzle(N)`, which has
tile `k` at row `(k-1)/N`, column `(k-1)%N` and the blank at `(N-1,N-1)`. -/
theorem checkWin_iff_goal (p : Puzzle) :
    (p.checkWin = true ↔
      ∀ i j : Nat, i < p.boardSize.toNat → j < p.boardSize.toNat →
        ¬ ((i : Int) = p.boardSize - 1 ∧ (j : Int) = p.boardSize - 1) →
        getCell p.board i j = (i : Int) * p.boardSize + (j : Int) + 1) ∧
    (p.Shaped → p.IsPermutation →
      (p.checkWin = true ↔ p.board = (Puzzle.new p.boardSize).board)) ∧
    (0 < p.boardSize → ∀ k : Int, 1 ≤ k → k < p.boardSize * p.boardSize →
      getCell (Puzzle.new p.boardSize).board
        ((k - 1).tdiv p.boardSize).toNat ((k - 1).tmod p.boardSize).toNat = k) ∧
    getCell (Puzzle.new p.boardSize).board (p.boardSize - 1).toNat (p.boardSize - 1).toNat = 0 ∧
    (Puzzle.new p.boardSize).blankRow = p.boardSize - 1 ∧
    (Puzzle.new p.boardSize).blankCol = p.boardSize - 1 := by
  refine ⟨checkWin_iff p, ?_, ?_, ?_, rfl, rfl⟩
  · intro hsh hperm
    constructor
    · intro hwin
      rw [checkWin_iff] at hwin
      apply board_ext hsh (new_shaped p.boardSize)
      intro i j hi hj
      rw [getCell_new _ hi hj]
      by_cases hbr : (i : Int) = p.boardSize - 1 ∧ (j : Int) = p.boardSize - 1
      · rw [if_pos hbr]
        have h0 : (0 : Int) ∈ p.board.flatten := by
          rw [hperm.mem_iff]
          simp only [List.mem_map, List.mem_range]
          refine ⟨0, ?_, rfl⟩
          have : 0 < p.boardSize.toNat := by omega
          exact Nat.mul_pos this this
        obtain ⟨i', j', hi', hj', e⟩ := exists_cell_of_mem_flatten hsh h0
        by_cases hbr' : (i' : Int) = p.boardSize - 1 ∧ (j' : Int) = p.boardSize - 1
        · have e1 : i' = i := by omega
          have e2 : j' = j := by omega
          rw [← e1, ← e2]; exact e
        · rw [hwin i' j' hi' hj' hbr'] at e
          have h1 : (0 : Int) ≤ (i' : Int) * p.boardSize :=
            Int.mul_nonneg (Int.ofNat_nonneg _) (by omega)
          omega
      · rw [if_neg hbr]
        exact hwin i j hi hj hbr
    · intro hb
      have := new_checkWin p.boardSize
      rw [checkWin_iff] at this ⊢
      intro i j hi hj hne
      rw [hb]
      exact this i j hi hj hne
  · intro hN k hk1 hk2
    have hm0 : 0 ≤ k - 1 := by omega
    rw [Int.tdiv_eq_ediv hm0 (le_of_lt hN), Int.tmod_eq_emod hm0 (le_of_lt hN)]
    have hj0 := Int.emod_nonneg (k - 1) (ne_of_gt hN)
    have hj1 := Int.emod_lt_of_pos (k - 1) hN
    have hi0 := Int.ediv_nonneg hm0 (le_of_lt hN)
    have hi1 : (k - 1) / p.boardSize < p.boardSize :=
      Int.ediv_lt_of_lt_mul hN (by omega)
    have hsum := Int.ediv_add_emod (k - 1) p.boardSize
    rw [getCell_new _ (by omega) (by omega)]
    rw [Int.toNat_of_nonneg hi0, Int.toNat_of_nonneg hj0]
    rw [if_neg]
    · rw [Int.mul_comm]; omega
    · rintro ⟨e1, e2⟩
      rw [e1, e2] at hsum
      have : p.boardSize * (p.boardSize - 1) = p.boardSize * p.boardSize - p.boardSize := by ring
      omega
  · by_cases hN : 0 < p.boardSize
    · rw [getCell_new _ (by omega) (by omega), if_pos]
      omega
    · have : p.boardSize.toNat = 0 := by omega
      unfold Puzzle.new getCell setCell
      simp [this]

theorem checkWin_iff_goal_witness :
    ((⟨3, [[1, 2, 3], [4, 5, 6], [7, 0, 8]], 2, 1⟩ : Puzzle).checkWin = true ↔
      (⟨3, [[1, 2, 3], [4, 5, 6], [7, 0, 8]], 2, 1⟩ : Puzzle).board = (Puzzle.new 3).board) ∧
    getCell (Puzzle.new 3).board ((5 - 1 : Int).tdiv 3).toNat ((5 - 1 : Int).tmod 3).toNat = 5 :=
  ⟨(checkWin_iff_goal ⟨3, [[1, 2, 3], [4, 5, 6], [7, 0, 8]], 2, 1⟩).2.1 (by decide) (by decide),
    (checkWin_iff_goal ⟨3, [[1, 2, 3], [4, 5, 6], [7, 0, 8]], 2, 1⟩).2.2.1 (by decide) 5
      (by decide) (by decide)⟩

/-! ### Loops as sums -/

theorem foldl_add_eq_sum {α : Type} (f : α → Int) (l : List α) (a : Int) :
    l.foldl (fun h x => h + f x) a = a + (l.map f).sum := by
  induction l generalizing a with
  | nil => simp
  | cons x xs ih => simp [ih, add_assoc]

theorem sum_map_range_eq_finset (f : Nat → Int) (n : Nat) :
    ((List.range n).map f).sum = ∑ i ∈ Finset.range n, f i := by
  induction n with
  | zero => simp
  | succ n ih => rw [List.range_succ, List.map_append, List.sum_append, ih, Finset.sum_range_succ]; simp

/-- The summand of `manhattan` at cell `(i,j)`. -/
theorem manhattan_eq_sum (p : Puzzle) (group : Group) :
    manhattan p group =
      ∑ i ∈ Finset.range p.boardSize.toNat, ∑ j ∈ Finset.range p.boardSize.toNat,
        if getCell p.board i j ≠ 0 ∧ getCell p.board i j ∈ group then
          (((getCell p.board i j - 1).tdiv p.boardSize - (i : Int)).natAbs +
            ((getCell p.board i j - 1).tmod p.boardSize - (j : Int)).natAbs : Int)
        else 0 := by
  unfold manhattan
  have inner : ∀ (i : Nat) (h : Int),
      (List.range p.boardSize.toNat).foldl (fun h j =>
        let tile := getCell p.board i j
        if tile ≠ 0 ∧ tile ∈ group then
          let destRow := (tile - 1).tdiv p.boardSize
          let destCol := (tile - 1).tmod p.boardSize
          h + ((destRow - (i : Int)).natAbs + (destCol - (j : Int)).natAbs : Int)
        else h) h
      = h + ∑ j ∈ Finset.range p.boardSize.toNat,
        if getCell p.board i j ≠ 0 ∧ getCell p.board i j ∈ group then
          (((getCell p.board i j - 1).tdiv p.boardSize - (i : Int)).natAbs +
            ((getCell p.board i j - 1).tmod p.boardSize - (j : Int)).natAbs : Int)
        else 0 := by
    intro i h
    rw [← sum_map_range_eq_finset, ← foldl_add_eq_sum]
    apply List.foldl_ext
    intro a j _
    simp only
    split <;> simp
  rw [← sum_map_range_eq_finset, ← zero_add (List.sum _), ← foldl_add_eq_sum]
  apply List.foldl_ext
  intro a i _
  exact inner i a

theorem manhattan_eq_spec (p : Puzzle) (group : Group) :
    manhattan p group = manhattanSpec p group := by
  rw [manhattan_eq_sum]
  unfold manhattanSpec
  rw [Finset.sum_filter, Finset.sum_product]
  apply Finset.sum_congr rfl
  intro i _
  apply Finset.sum_congr rfl
  intro j _
  simp only [Int.natCast_natAbs]

theorem hScore_eq_sum (db : PatternDB) (p : Puzzle) :
    hScore db p =
      ((List.range db.groups.length).map fun i =>
        match (db.dicts.getD i []).lookup (p.hash (db.groups.getD i [])) with
        | some v => v
        | none => manhattan p (db.groups.getD i [])).sum := by
  unfold hScore
  rw [← zero_add (List.sum _), ← foldl_add_eq_sum]
  apply List.foldl_ext
  intro a i _
  simp only
  cases (db.dicts.getD i []).lookup (p.hash (db.groups.getD i [])) <;> rfl

theorem map_range_getD_eq_map_zip {α β γ : Type} (f : α → β → γ) (a : α) (b : β) :
    ∀ (l : List α) (l' : List β), l'.length = l.length →
      (List.range l.length).map (fun i => f (l.getD i a) (l'.getD i b))
        = (List.zip l l').map (fun gt => f gt.1 gt.2) := by
  intro l l' h
  apply List.ext_getElem
  · simp [h]
  · intro i h1 h2
    simp only [List.length_map, List.length_range] at h1
    have h3 : i < l'.length := by omega
    simp [List.getD_eq_getElem?_getD, List.getElem?_eq_getElem h1, List.getElem?_eq_getElem h3]

/-- In unbounded integers, with as many tables as groups, `hScore` is the sum over the
groups, in order, of the stored value when the fingerprint is present in the
group's table and of the group's Manhattan sum otherwise. -/
theorem hScore_eq_hScoreSpec (db : PatternDB) (p : Puzzle)
    (hlen : db.dicts.length = db.groups.length) :
    hScore db p = hScoreSpec db p := by
  rw [hScore_eq_sum]
  unfold hScoreSpec
  have := map_range_getD_eq_map_zip
    (fun (g : Group) (t : Table) =>
      match t.lookup (p.hash g) with
      | some v => v
      | none => manhattanSpec p g) [] [] db.groups db.dicts hlen
  refine Eq.trans ?_ (congrArg List.sum this)
  congr 1
  apply List.map_congr_left
  intro i _
  simp only [manhattan_eq_spec]

/-! ### Fingerprints and rendering -/

/-- C9. Fingerprint consistency: when two boards of the same size hold every
label of the group at the same cells, `hash(group)` is the same string for both,
whatever the other cells (blank included) hold. -/
theorem hash_eq_of_same_placement (p q : Puzzle) (group : Group)
    (hsize : p.boardSize = q.boardSize)
    (hplace : ∀ t ∈ group, ∀ i : Nat, i < p.boardSize.toNat → ∀ j : Nat, j < p.boardSize.toNat →
      (getCell p.board i j = t ↔ getCell q.board i j = t)) :
    p.hash group = q.hash group := by
  unfold Puzzle.hash
  rw [← hsize]
  apply List.foldl_ext
  intro oss i hi
  apply List.foldl_ext
  intro oss' j hj
  rw [List.mem_range] at hi hj
  have hmem : getCell p.board i j ∈ group ↔ getCell q.board i j ∈ group := by
    constructor
    · intro h
      have := (hplace _ h i hi j hj).1 rfl
      rw [this]; exact h
    · intro h
      have := (hplace _ h i hi j hj).2 rfl
      rw [this]; exact h
  by_cases h : getCell p.board i j ∈ group
  · rw [if_pos h, if_pos (hmem.1 h)]
  · rw [if_neg h, if_neg (fun h' => h (hmem.2 h'))]

theorem hash_eq_of_same_placement_witness :
    (⟨3, [[1, 2, 3], [4, 5, 6], [7, 8, 0]], 2, 2⟩ : Puzzle).hash [1, 5]
      = (⟨3, [[1, 3, 2], [0, 5, 4], [8, 7, 6]], 1, 0⟩ : Puzzle).hash [1, 5] :=
  hash_eq_of_same_placement ⟨3, [[1, 2, 3], [4, 5, 6], [7, 8, 0]], 2, 2⟩
    ⟨3, [[1, 3, 2], [0, 5, 4], [8, 7, 6]], 1, 0⟩ [1, 5] rfl (by decide)

/-- C10. On a board where `checkWin` is true, under any database, both `idaStar`
and `iterativeIDAStar` return the empty move list, and `reconstructPath` of the
board and that list is the single rendering of the board. -/
theorem solved_board_empty_path (db : PatternDB) (p : Puzzle) (hwin : p.checkWin = true) :
    Returns (fun fuel => idaStar fuel db p) (.value []) ∧
    Returns (fun fuel => iterativeIDAStar fuel db p) [] ∧
    reconstructPath p [] = [p.toString] := by
  refine ⟨⟨0, fun n _ => ?_⟩, ⟨1, fun n hn => ?_⟩, rfl⟩
  · show idaStar n db p = some (.value [])
    unfold idaStar
    rw [if_pos hwin]
  · obtain ⟨m, rfl⟩ : ∃ m, n = m + 1 := ⟨n - 1, by omega⟩
    show iterativeIDAStar (m + 1) db p = some []
    unfold iterativeIDAStar
    simp [iterativeLoop, iterativePass, hwin]

theorem solved_board_empty_path_witness :
    Returns (fun fuel => idaStar fuel ⟨[[1, 2, 3]], [[("000102", -5)]]⟩ (Puzzle.new 2))
      (.value []) ∧
    Returns (fun fuel =>
      iterativeIDAStar fuel ⟨[[1, 2, 3]], [[("000102", -5)]]⟩ (Puzzle.new 2)) [] ∧
    reconstructPath (Puzzle.new 2) [] = [(Puzzle.new 2).toString] :=
  solved_board_empty_path ⟨[[1, 2, 3]], [[("000102", -5)]]⟩ (Puzzle.new 2) (by decide)

/-! ### Moves on states with a cached blank -/

theorem getCell_move {p : Puzzle} (hp : p.BlankCached) {dx dy : Int}
    (hr0 : 0 ≤ p.blankRow + dx) (hr1 : p.blankRow + dx < p.boardSize)
    (hc0 : 0 ≤ p.blankCol + dy) (hc1 : p.blankCol + dy < p.boardSize) (i j : Nat) :
    getCell (p.move dx dy).2.board i j =
      if i = (p.blankRow + dx).toNat ∧ j = (p.blankCol + dy).toNat then 0
      else if i = p.blankRow.toNat ∧ j = p.blankCol.toNat then
        getCell p.board (p.blankRow + dx).toNat (p.blankCol + dy).toNat
      else getCell p.board i j := by
  obtain ⟨hsh, hb0, hb1, hb2, hb3, hz⟩ := hp
  have hin : ¬ (p.blankRow + dx < 0 ∨ p.boardSize ≤ p.blankRow + dx ∨
      p.blankCol + dy < 0 ∨ p.boardSize ≤ p.blankCol + dy) := by omega
  rw [move_inside hin]
  have hr : p.blankRow.toNat < p.boardSize.toNat := by omega
  have hc : p.blankCol.toNat < p.boardSize.toNat := by omega
  have hr' : (p.blankRow + dx).toNat < p.boardSize.toNat := by omega
  have hc' : (p.blankCol + dy).toNat < p.boardSize.toNat := by omega
  have hsh1 := shaped_setCell hsh p.blankRow.toNat p.blankCol.toNat
    (getCell p.board (p.blankRow + dx).toNat (p.blankCol + dy).toNat)
  simp only
  rw [getCell_setCell_shaped hsh1 hr' hc', getCell_setCell_shaped hsh hr hc]

theorem move_shaped {p : Puzzle} (hp : p.Shaped) (dx dy : Int) : (p.move dx dy).2.Shaped := by
  by_cases hin : (p.blankRow + dx < 0 ∨ p.boardSize ≤ p.blankRow + dx ∨
      p.blankCol + dy < 0 ∨ p.boardSize ≤ p.blankCol + dy)
  · rw [move_outside hin]; exact hp
  · rw [move_inside hin]
    exact shaped_setCell (shaped_setCell hp _ _ _) _ _ _

theorem move_boardSize (p : Puzzle) (dx dy : Int) : (p.move dx dy).2.boardSize = p.boardSize := by
  by_cases hin : (p.blankRow + dx < 0 ∨ p.boardSize ≤ p.blankRow + dx ∨
      p.blankCol + dy < 0 ∨ p.boardSize ≤ p.blankCol + dy)
  · rw [move_outside hin]
  · rw [move_inside hin]

theorem move_true_iff {p : Puzzle} {dx dy : Int} :
    (p.move dx dy).1 = true ↔
      (0 ≤ p.blankRow + dx ∧ p.blankRow + dx < p.boardSize ∧
        0 ≤ p.blankCol + dy ∧ p.blankCol + dy < p.boardSize) := by
  by_cases hin : (p.blankRow + dx < 0 ∨ p.boardSize ≤ p.blankRow + dx ∨
      p.blankCol + dy < 0 ∨ p.boardSize ≤ p.blankCol + dy)
  · rw [move_outside hin]
    constructor
    · intro h; exact Bool.noConfusion h
    · intro h; omega
  · rw [move_inside hin]
    constructor
    · intro _; omega
    · intro _; rfl

theorem move_blankCached {p : Puzzle} (hp : p.BlankCached) (dx dy : Int) :
    (p.move dx dy).2.BlankCached := by
  by_cases hin : (p.blankRow + dx < 0 ∨ p.boardSize ≤ p.blankRow + dx ∨
      p.blankCol + dy < 0 ∨ p.boardSize ≤ p.blankCol + dy)
  · rw [move_outside hin]; exact hp
  · have h1 : 0 ≤ p.blankRow + dx := by omega
    have h2 : p.blankRow + dx < p.boardSize := by omega
    have h3 : 0 ≤ p.blankCol + dy := by omega
    have h4 : p.blankCol + dy < p.boardSize := by omega
    refine ⟨move_shaped hp.1 dx dy, ?_⟩
    have hcell := getCell_move hp h1 h2 h3 h4 (p.blankRow + dx).toNat (p.blankCol + dy).toNat
    rw [if_pos ⟨rfl, rfl⟩] at hcell
    rw [move_inside hin] at hcell ⊢
    exact ⟨h1, h2, h3, h4, hcell⟩

theorem move_back {p : Puzzle} (hp : p.BlankCached) {dx dy : Int}
    (hmv : (p.move dx dy).1 = true) :
    (p.move dx dy).2.move (-dx) (-dy) = (true, p) := by
  obtain ⟨h1, h2, h3, h4⟩ := move_true_iff.1 hmv
  have hq := move_blankCached hp dx dy
  have hin : ¬ (p.blankRow + dx < 0 ∨ p.boardSize ≤ p.blankRow + dx ∨
      p.blankCol + dy < 0 ∨ p.boardSize ≤ p.blankCol + dy) := by omega
  have hqr : (p.move dx dy).2.blankRow = p.blankRow + dx := by rw [move_inside hin]
  have hqc : (p.move dx dy).2.blankCol = p.blankCol + dy := by rw [move_inside hin]
  have hqs : (p.move dx dy).2.boardSize = p.boardSize := move_boardSize p dx dy
  obtain ⟨hsh, hb0, hb1, hb2, hb3, hz⟩ := hp
  have g1 : 0 ≤ (p.move dx dy).2.blankRow + -dx := by rw [hqr]; omega
  have g2 : (p.move dx dy).2.blankRow + -dx < (p.move dx dy).2.boardSize := by
    rw [hqr, hqs]; omega
  have g3 : 0 ≤ (p.move dx dy).2.blankCol + -dy := by rw [hqc]; omega
  have g4 : (p.move dx dy).2.blankCol + -dy < (p.move dx dy).2.boardSize := by
    rw [hqc, hqs]; omega
  have hmv2 : ((p.move dx dy).2.move (-dx) (-dy)).1 = true := move_true_iff.2 ⟨g1, g2, g3, g4⟩
  have hcells : ∀ i j : Nat, getCell ((p.move dx dy).2.move (-dx) (-dy)).2.board i j
      = getCell p.board i j := by
    intro i j
    rw [getCell_move hq g1 g2 g3 g4, getCell_move ⟨hsh, hb0, hb1, hb2, hb3, hz⟩ h1 h2 h3 h4,
      getCell_move ⟨hsh, hb0, hb1, hb2, hb3, hz⟩ h1 h2 h3 h4]
    have e1 : (p.move dx dy).2.blankRow + -dx = p.blankRow := by rw [hqr]; omega
    have e2 : (p.move dx dy).2.blankCol + -dy = p.blankCol := by rw [hqc]; omega
    rw [e1, e2, hqr, hqc]
    by_cases ha : i = p.blankRow.toNat ∧ j = p.blankCol.toNat
    · rw [if_pos ha, ha.1, ha.2, hz]
    · rw [if_neg ha]
      by_cases hb : i = (p.blankRow + dx).toNat ∧ j = (p.blankCol + dy).toNat
      · have hab : ¬ (p.blankRow.toNat = (p.blankRow + dx).toNat ∧
            p.blankCol.toNat = (p.blankCol + dy).toNat) := by
          rw [← hb.1, ← hb.2]; exact fun h => ha ⟨h.1.symm, h.2.symm⟩
        rw [if_pos hb, if_neg hab, if_pos ⟨rfl, rfl⟩, hb.1, hb.2]
      · rw [if_neg hb, if_neg hb, if_neg ha]
  have hboard : ((p.move dx dy).2.move (-dx) (-dy)).2.board = p.board := by
    apply board_ext (n := p.boardSize.toNat)
    · have := move_shaped hq.1 (-dx) (-dy)
      unfold Puzzle.Shaped at this
      rw [move_boardSize, hqs] at this
      exact this
    · exact hsh
    · intro i j _ _; exact hcells i j
  have hin2 : ¬ ((p.move dx dy).2.blankRow + -dx < 0 ∨
      (p.move dx dy).2.boardSize ≤ (p.move dx dy).2.blankRow + -dx ∨
      (p.move dx dy).2.blankCol + -dy < 0 ∨
      (p.move dx dy).2.boardSize ≤ (p.move dx dy).2.blankCol + -dy) := by omega
  rw [move_inside hin2] at hboard ⊢
  simp only at hboard
  rw [hboard]
  congr 1
  cases p
  simp only [Puzzle.mk.injEq]
  simp only at hqr hqc hqs
  refine ⟨hqs, trivial, ?_, ?_⟩ <;> omega

/-! ### Manhattan distance against the moves of a group -/

theorem manhattan_eq_cellCost (p : Puzzle) (group : Group) :
    manhattan p group =
      ∑ x ∈ Finset.range p.boardSize.toNat ×ˢ Finset.range p.boardSize.toNat,
        cellCost p.boardSize group x.1 x.2 (getCell p.board x.1 x.2) := by
  rw [manhattan_eq_sum, Finset.sum_product]
  rfl

theorem sum_sub_sum_two_points {S : Finset (Nat × Nat)} {a b : Nat × Nat}
    (ha : a ∈ S) (hb : b ∈ S) (hab : a ≠ b) (w w' : Nat × Nat → Int)
    (hw : ∀ x ∈ S, x ≠ a → x ≠ b → w x = w' x) :
    ∑ x ∈ S, w x = ∑ x ∈ S, w' x + (w a - w' a) + (w b - w' b) := by
  have hb' : b ∈ S.erase a := Finset.mem_erase.2 ⟨fun h => hab h.symm, hb⟩
  rw [← Finset.add_sum_erase S w ha, ← Finset.add_sum_erase S w' ha,
    ← Finset.add_sum_erase (S.erase a) w hb', ← Finset.add_sum_erase (S.erase a) w' hb']
  have : ∑ x ∈ (S.erase a).erase b, w x = ∑ x ∈ (S.erase a).erase b, w' x := by
    apply Finset.sum_congr rfl
    intro x hx
    rw [Finset.mem_erase, Finset.mem_erase] at hx
    exact hw x hx.2.2 hx.2.1 hx.1
  rw [this]; ring

theorem cellCost_zero (N : Int) (group : Group) (i j : Nat) : cellCost N group i j 0 = 0 := by
  unfold cellCost; simp

theorem cellCost_nonneg (N : Int) (group : Group) (i j : Nat) (t : Int) :
    0 ≤ cellCost N group i j t := by
  unfold cellCost
  split
  · positivity
  · exact le_refl 0

theorem cellCost_adjacent (N : Int) (group : Group) (r c : Int) (hr : 0 ≤ r) (hc : 0 ≤ c)
    {d : Dir} (hd : d ∈ DIRECTIONS) (hr' : 0 ≤ r + d.1) (hc' : 0 ≤ c + d.2) (t : Int) :
    cellCost N group (r + d.1).toNat (c + d.2).toNat t ≤
      cellCost N group r.toNat c.toNat t + (if t ∈ group then 1 else 0) := by
  unfold cellCost
  by_cases h : t ≠ 0 ∧ t ∈ group
  · rw [if_pos h, if_pos h, if_pos h.2]
    rw [Int.toNat_of_nonneg hr, Int.toNat_of_nonneg hc, Int.toNat_of_nonneg hr',
      Int.toNat_of_nonneg hc']
    unfold DIRECTIONS at hd
    simp only [List.mem_cons, List.mem_singleton, List.not_mem_nil, or_false] at hd
    rcases hd with rfl | rfl | rfl | rfl <;> simp only <;> omega
  · rw [if_neg h, if_neg h]
    split <;> omega

theorem manhattan_step {p : Puzzle} (hp : p.BlankCached) {d : Dir} (hd : d ∈ DIRECTIONS)
    (hmv : (p.move d.1 d.2).1 = true) (group : Group) :
    manhattan p group ≤
      manhattan (p.move d.1 d.2).2 group + (if movedTile p d ∈ group then 1 else 0) := by
  obtain ⟨h1, h2, h3, h4⟩ := move_true_iff.1 hmv
  have hp' := hp
  obtain ⟨hsh, hb0, hb1, hb2, hb3, hz⟩ := hp'
  rw [manhattan_eq_cellCost, manhattan_eq_cellCost, move_boardSize]
  have ha : (p.blankRow.toNat, p.blankCol.toNat) ∈
      Finset.range p.boardSize.toNat ×ˢ Finset.range p.boardSize.toNat := by
    rw [Finset.mem_product, Finset.mem_range, Finset.mem_range]; constructor <;> omega
  have hb : ((p.blankRow + d.1).toNat, (p.blankCol + d.2).toNat) ∈
      Finset.range p.boardSize.toNat ×ˢ Finset.range p.boardSize.toNat := by
    rw [Finset.mem_product, Finset.mem_range, Finset.mem_range]; constructor <;> omega
  have hab : (p.blankRow.toNat, p.blankCol.toNat) ≠
      ((p.blankRow + d.1).toNat, (p.blankCol + d.2).toNat) := by
    intro h
    rw [Prod.mk.injEq] at h
    unfold DIRECTIONS at hd
    simp only [List.mem_cons, List.mem_singleton, List.not_mem_nil, or_false] at hd
    rcases hd with rfl | rfl | rfl | rfl <;> simp only at h h1 h3 <;> omega
  rw [sum_sub_sum_two_points ha hb hab
    (fun x => cellCost p.boardSize group x.1 x.2 (getCell p.board x.1 x.2))
    (fun x => cellCost p.boardSize group x.1 x.2 (getCell (p.move d.1 d.2).2.board x.1 x.2))]
  · have ea : getCell (p.move d.1 d.2).2.board p.blankRow.toNat p.blankCol.toNat =
        getCell p.board (p.blankRow + d.1).toNat (p.blankCol + d.2).toNat := by
      rw [getCell_move hp h1 h2 h3 h4, if_neg (fun h => hab (by rw [h.1, h.2])),
        if_pos ⟨rfl, rfl⟩]
    have eb : getCell (p.move d.1 d.2).2.board (p.blankRow + d.1).toNat
        (p.blankCol + d.2).toNat = 0 := by
      rw [getCell_move hp h1 h2 h3 h4, if_pos ⟨rfl, rfl⟩]
    simp only
    rw [ea, eb, hz, cellCost_zero, cellCost_zero]
    have := cellCost_adjacent p.boardSize group p.blankRow p.blankCol hb0 hb2 hd h1 h3
      (getCell p.board (p.blankRow + d.1).toNat (p.blankCol + d.2).toNat)
    have hn := cellCost_nonneg p.boardSize group p.blankRow.toNat p.blankCol.toNat
      (getCell p.board (p.blankRow + d.1).toNat (p.blankCol + d.2).toNat)
    unfold movedTile
    omega
  · intro x _ hxa hxb
    rw [getCell_move hp h1 h2 h3 h4, if_neg (fun h => hxb (Prod.ext h.1 h.2)),
      if_neg (fun h => hxa (Prod.ext h.1 h.2))]

theorem manhattan_solved {q : Puzzle} (hq : q.BlankCached) (hwin : q.checkWin = true)
    (group : Group) : manhattan q group = 0 := by
  obtain ⟨hsh, hb0, hb1, hb2, hb3, hz⟩ := hq
  rw [checkWin_iff] at hwin
  have hN : 0 < q.boardSize := by omega
  have hbr : q.blankRow = q.boardSize - 1 ∧ q.blankCol = q.boardSize - 1 := by
    by_contra hne
    have := hwin q.blankRow.toNat q.blankCol.toNat (by omega) (by omega)
      (by rw [Int.toNat_of_nonneg hb0, Int.toNat_of_nonneg hb2]; exact hne)
    rw [hz, Int.toNat_of_nonneg hb0, Int.toNat_of_nonneg hb2] at this
    have := Int.mul_nonneg hb0 (le_of_lt hN)
    omega
  rw [manhattan_eq_cellCost]
  apply Finset.sum_eq_zero
  intro x hx
  rw [Finset.mem_product, Finset.mem_range, Finset.mem_range] at hx
  by_cases hx' : (x.1 : Int) = q.boardSize - 1 ∧ (x.2 : Int) = q.boardSize - 1
  · have e1 : x.1 = q.blankRow.toNat := by omega
    have e2 : x.2 = q.blankCol.toNat := by omega
    rw [e1, e2, hz, cellCost_zero]
  · rw [hwin x.1 x.2 hx.1 hx.2 hx']
    unfold cellCost
    split
    · have hj : (x.2 : Int) < q.boardSize := by omega
      have := tdiv_tmod_cell (N := q.boardSize) (i := (x.1 : Int)) (j := (x.2 : Int))
        (Int.ofNat_nonneg _) (Int.ofNat_nonneg _) hj
      rw [show (x.1 : Int) * q.boardSize + (x.2 : Int) + 1 - 1
        = (x.1 : Int) * q.boardSize + (x.2 : Int) by ring, this.1, this.2]
      simp
    · rfl

theorem applyMoves_cons_some {p q : Puzzle} {d : Dir} {ds : List Dir}
    (h : applyMoves p (d :: ds) = some q) :
    d ∈ DIRECTIONS ∧ (p.move d.1 d.2).1 = true ∧ applyMoves (p.move d.1 d.2).2 ds = some q := by
  unfold applyMoves at h
  by_cases hc : d ∈ DIRECTIONS ∧ (p.move d.1 d.2).1 = true
  · rw [if_pos hc] at h
    exact ⟨hc.1, hc.2, h⟩
  · rw [if_neg hc] at h
    exact Option.noConfusion h

theorem applyMoves_cons_of {p : Puzzle} {d : Dir} (ds : List Dir)
    (hd : d ∈ DIRECTIONS) (hmv : (p.move d.1 d.2).1 = true) :
    applyMoves p (d :: ds) = applyMoves (p.move d.1 d.2).2 ds := by
  conv_lhs => unfold applyMoves
  rw [if_pos ⟨hd, hmv⟩]

theorem applyMoves_blankCached {p q : Puzzle} (hp : p.BlankCached) {ms : List Dir}
    (h : applyMoves p ms = some q) : q.BlankCached := by
  induction ms generalizing p with
  | nil =>
    unfold applyMoves at h
    cases h; exact hp
  | cons d ds ih =>
    obtain ⟨_, _, h'⟩ := applyMoves_cons_some h
    exact ih (move_blankCached hp d.1 d.2) h'

theorem manhattan_le_groupMoves {p q : Puzzle} (hp : p.BlankCached) {ms : List Dir}
    (h : applyMoves p ms = some q) (hwin : q.checkWin = true) (group : Group) :
    manhattan p group ≤ (groupMoves group p ms : Int) := by
  induction ms generalizing p with
  | nil =>
    unfold applyMoves at h
    cases h
    rw [manhattan_solved hp hwin]
    exact Int.ofNat_nonneg _
  | cons d ds ih =>
    obtain ⟨hd, hmv, h'⟩ := applyMoves_cons_some h
    have h1 := ih (move_blankCached hp d.1 d.2) h'
    have h2 := manhattan_step hp hd hmv group
    unfold groupMoves
    push_cast
    split at h2 <;> simp_all <;> omega

theorem sum_indicator_le_one (t : Int) :
    ∀ groups : List Group, groups.Pairwise (fun g g' => ∀ x, x ∈ g → x ∉ g') →
      (groups.map fun g => if t ∈ g then 1 else 0).sum ≤ 1 := by
  intro groups
  induction groups with
  | nil => intro _; simp
  | cons g gs ih =>
    intro hpw
    rw [List.pairwise_cons] at hpw
    rw [List.map_cons, List.sum_cons]
    by_cases ht : t ∈ g
    · rw [if_pos ht]
      have : (gs.map fun g => if t ∈ g then 1 else 0).sum = 0 := by
        apply List.sum_eq_zero
        intro x hx
        rw [List.mem_map] at hx
        obtain ⟨g', hg', rfl⟩ := hx
        rw [if_neg (hpw.1 g' hg' t ht)]
      omega
    · rw [if_neg ht]
      have := ih hpw.2
      omega

theorem sum_groupMoves_le_length (groups : List Group)
    (hpw : groups.Pairwise (fun g g' => ∀ x, x ∈ g → x ∉ g')) (p : Puzzle) (ms : List Dir) :
    (groups.map fun g => groupMoves g p ms).sum ≤ ms.length := by
  induction ms generalizing p with
  | nil =>
    simp [groupMoves]
  | cons d ds ih =>
    have h1 := ih (p.move d.1 d.2).2
    have h2 := sum_indicator_le_one (movedTile p d) groups hpw
    have : (groups.map fun g => groupMoves g p (d :: ds)).sum =
        (groups.map fun g => if movedTile p d ∈ g then 1 else 0).sum +
        (groups.map fun g => groupMoves g (p.move d.1 d.2).2 ds).sum := by
      rw [← List.sum_map_add]
      rfl
    rw [this, List.length_cons]
    omega

theorem map_range_getD {α β : Type} (f : α → β) (a : α) (l : List α) :
    (List.range l.length).map (fun i => f (l.getD i a)) = l.map f := by
  apply List.ext_getElem
  · simp
  · intro i h1 h2
    simp only [List.length_map, List.length_range] at h1
    simp [List.getD_eq_getElem?_getD, List.getElem?_eq_getElem h1]

/-- The estimate of a state with a cached blank is at most the length of a
solving sequence, when the groups are pairwise disjoint and every stored value
read for this state is at most the number of moves of its group. -/
theorem hScore_le_length (db : PatternDB) {p : Puzzle} (hp : p.BlankCached)
    (hdisj : db.groups.Pairwise (fun g g' => ∀ t, t ∈ g → t ∉ g'))
    {ms : List Dir} (hsol : Solves p ms)
    (htab : ∀ i, i < db.groups.length → ∀ v,
      (db.dicts.getD i []).lookup (p.hash (db.groups.getD i [])) = some v →
      v ≤ (groupMoves (db.groups.getD i []) p ms : Int)) :
    hScore db p ≤ (ms.length : Int) := by
  obtain ⟨q, hq, hwin⟩ := hsol
  rw [hScore_eq_sum]
  have h1 : ((List.range db.groups.length).map fun i =>
      match (db.dicts.getD i []).lookup (p.hash (db.groups.getD i [])) with
      | some v => v
      | none => manhattan p (db.groups.getD i [])).sum ≤
      ((List.range db.groups.length).map fun i =>
        (groupMoves (db.groups.getD i []) p ms : Int)).sum := by
    apply List.sum_le_sum
    intro i hi
    rw [List.mem_range] at hi
    cases hl : (db.dicts.getD i []).lookup (p.hash (db.groups.getD i [])) with
    | some v => exact htab i hi v hl
    | none => exact manhattan_le_groupMoves hp hq hwin _
  have h2 := map_range_getD (fun g => (groupMoves g p ms : Int)) [] db.groups
  rw [h2] at h1
  have h3 := sum_groupMoves_le_length db.groups hdisj p ms
  have h4 : (db.groups.map fun g => (groupMoves g p ms : Int)).sum
      = (((db.groups.map fun g => groupMoves g p ms).sum : Nat) : Int) := by
    rw [Nat.cast_list_sum, List.map_map]
    rfl
  rw [h4] at h1
  exact le_trans h1 (by exact_mod_cast h3)

/-- C3. Admissibility: for a well-formed state and a database whose groups are
pairwise disjoint and whose stored value for a fingerprint never exceeds the
number of moves of that group's tiles in a solving sequence from a well-formed
state with that fingerprint (in particular with empty tables, where only the
Manhattan fallback is read), `hScore` is at most the length of every legal move
sequence that takes the state to a solved state. -/
theorem hScore_admissible (db : PatternDB) (p : Puzzle) (hwf : p.WellFormed)
    (hdisj : db.groups.Pairwise (fun g g' => ∀ t, t ∈ g → t ∉ g'))
    (htab : ∀ i, i < db.groups.length → ∀ s : Puzzle, s.WellFormed → ∀ v,
      (db.dicts.getD i []).lookup (s.hash (db.groups.getD i [])) = some v →
      ∀ ms, Solves s ms → v ≤ (groupMoves (db.groups.getD i []) s ms : Int))
    (ms : List Dir) (hsol : Solves p ms) :
    hScore db p ≤ (ms.length : Int) :=
  hScore_le_length db hwf.1 hdisj hsol (fun i hi v hv => htab i hi p hwf v hv ms hsol)

theorem hScore_admissible_witness :
    hScore ⟨[[1, 2, 3, 4], [5, 6, 7, 8]], [[], []]⟩ ⟨3, [[1, 2, 3], [0, 4, 6], [7, 5, 8]], 1, 0⟩
      ≤ (([(0, 1), (1, 0), (0, 1)] : List Dir).length : Int) :=
  hScore_admissible ⟨[[1, 2, 3, 4], [5, 6, 7, 8]], [[], []]⟩
    ⟨3, [[1, 2, 3], [0, 4, 6], [7, 5, 8]], 1, 0⟩ (by decide) (by decide)
    (fun i hi s _ v hv => by
      have hi' : i < 2 := hi
      interval_cases i <;> exact Option.noConfusion hv)
    [(0, 1), (1, 0), (0, 1)] ⟨_, rfl, by decide⟩

/-! ### More fuel does not change a result -/

theorem searchLoopCopy_mono {rec rec' : List Puzzle → Int → Int → List Dir → Option CopyOut}
    (hrec : ∀ path g bound dirs r, rec path g bound dirs = some r → rec' path g bound dirs = some r)
    (cur : Puzzle) (g bound : Int) :
    ∀ (rest : List Dir) (m : Int) (path : List Puzzle) (dirs : List Dir) (r : CopyOut),
      searchLoopCopy rec cur g bound rest m path dirs = some r →
      searchLoopCopy rec' cur g bound rest m path dirs = some r := by
  intro rest
  induction rest with
  | nil => intro m path dirs r h; exact h
  | cons d rest ih =>
    intro m path dirs r h
    unfold searchLoopCopy at h ⊢
    by_cases h1 : isReverse d dirs = true
    · rw [if_pos h1] at h ⊢; exact ih _ _ _ _ h
    · rw [if_neg h1] at h ⊢
      simp only at h ⊢
      by_cases h2 : (!(cur.simulateMove d).1) = true
      · rw [if_pos h2] at h ⊢; exact ih _ _ _ _ h
      · rw [if_neg h2] at h ⊢
        cases hc : rec (path ++ [(cur.simulateMove d).2]) (g + 1) bound (dirs ++ [d]) with
        | none => rw [hc] at h; exact Option.noConfusion h
        | some out =>
          rw [hc] at h
          rw [hrec _ _ _ _ _ hc]
          simp only at h ⊢
          by_cases h3 : out.t = -1
          · rw [if_pos h3] at h ⊢; exact h
          · rw [if_neg h3] at h ⊢; exact ih _ _ _ _ h

theorem searchCopy_succ (db : PatternDB) :
    ∀ (n : Nat) (path : List Puzzle) (g bound : Int) (dirs : List Dir) (r : CopyOut),
      searchCopy db n path g bound dirs = some r → searchCopy db (n + 1) path g bound dirs = some r := by
  intro n
  induction n with
  | zero => intro path g bound dirs r h; exact Option.noConfusion h
  | succ n ih =>
    intro path g bound dirs r h
    unfold searchCopy at h ⊢
    cases hl : path.getLast? with
    | none => rw [hl] at h; exact Option.noConfusion h
    | some cur =>
      rw [hl] at h
      simp only at h ⊢
      by_cases h1 : g + hScore db cur > bound
      · rw [if_pos h1] at h ⊢; exact h
      · rw [if_neg h1] at h ⊢
        by_cases h2 : cur.checkWin = true
        · rw [if_pos h2] at h ⊢; exact h
        · rw [if_neg h2] at h ⊢
          exact searchLoopCopy_mono ih cur g bound _ _ _ _ _ h

theorem searchCopy_mono (db : PatternDB) {n m : Nat} (hnm : n ≤ m)
    {path : List Puzzle} {g bound : Int} {dirs : List Dir} {r : CopyOut}
    (h : searchCopy db n path g bound dirs = some r) : searchCopy db m path g bound dirs = some r := by
  induction hnm with
  | refl => exact h
  | step _ ih => exact searchCopy_succ db _ _ _ _ _ _ ih

theorem idaLoopCopy_mono (db : PatternDB) {n n' : Nat} (hn : n ≤ n') :
    ∀ (k k' : Nat), k ≤ k' → ∀ (path : List Puzzle) (dirs : List Dir) (bound : Int)
      (r : List Dir), idaLoopCopy db n k path dirs bound = some r →
      idaLoopCopy db n' k' path dirs bound = some r := by
  intro k
  induction k with
  | zero => intro k' _ path dirs bound r h; exact Option.noConfusion h
  | succ k ih =>
    intro k' hk path dirs bound r h
    obtain ⟨k'', rfl⟩ : ∃ k'', k' = k'' + 1 := ⟨k' - 1, by omega⟩
    unfold idaLoopCopy at h ⊢
    cases hs : searchCopy db n path 0 bound dirs with
    | none => rw [hs] at h; exact Option.noConfusion h
    | some out =>
      rw [hs] at h
      rw [searchCopy_mono db hn hs]
      simp only at h ⊢
      by_cases h1 : out.t = -1
      · rw [if_pos h1] at h ⊢; exact h
      · rw [if_neg h1] at h ⊢
        by_cases h2 : out.t = INF
        · rw [if_pos h2] at h ⊢; exact h
        · rw [if_neg h2] at h ⊢
          exact ih k'' (by omega) _ _ _ _ h

/-- A value computed by `idaStarCopy` with some fuel is the value it returns. -/
theorem idaStarCopy_returns {db : PatternDB} {p : Puzzle} {n : Nat} {r : List Dir}
    (h : idaStarCopy n db p = some r) : Returns (fun fuel => idaStarCopy fuel db p) r := by
  refine ⟨n, fun m hm => ?_⟩
  show idaStarCopy m db p = some r
  unfold idaStarCopy at h ⊢
  by_cases hw : p.checkWin = true
  · rw [if_pos hw] at h ⊢; exact h
  · rw [if_neg hw] at h ⊢
    exact idaLoopCopy_mono db hm n m hm _ _ _ _ h

theorem iterativePass_nil (db : PatternDB) (bound : Int) (n : Nat) (nb : Int) :
    iterativePass db bound n [] nb = some (none, nb) := by
  cases n <;> rfl

theorem iterativePass_mono (db : PatternDB) (bound : Int) :
    ∀ (n : Nat) (stack : List Node) (nb : Int) (r : Option (List Dir) × Int),
      iterativePass db bound n stack nb = some r →
      ∀ m, n ≤ m → iterativePass db bound m stack nb = some r := by
  intro n
  induction n with
  | zero =>
    intro stack nb r h m _
    cases stack with
    | nil => rw [iterativePass_nil] at h ⊢; exact h
    | cons top rest => unfold iterativePass at h; exact Option.noConfusion h
  | succ n ih =>
    intro stack nb r h m hm
    obtain ⟨m', rfl⟩ : ∃ m', m = m' + 1 := ⟨m - 1, by omega⟩
    have hm' : n ≤ m' := by omega
    cases stack with
    | nil => rw [iterativePass_nil] at h ⊢; exact h
    | cons top rest =>
      unfold iterativePass at h ⊢
      simp only at h ⊢
      split_ifs at h ⊢ with h1 h2 h3 h4 h5
      · exact ih _ _ _ h m' hm'
      · exact h
      · exact ih _ _ _ h m' hm'
      · exact ih _ _ _ h m' hm'
      · exact ih _ _ _ h m' hm'
      · exact ih _ _ _ h m' hm'

theorem iterativeLoop_mono (db : PatternDB) (p : Puzzle) {n n' : Nat} (hn : n ≤ n') :
    ∀ (k k' : Nat), k ≤ k' → ∀ (bound : Int) (r : List Dir),
      iterativeLoop db p n k bound = some r → iterativeLoop db p n' k' bound = some r := by
  intro k
  induction k with
  | zero => intro k' _ bound r h; exact Option.noConfusion h
  | succ k ih =>
    intro k' hk bound r h
    obtain ⟨k'', rfl⟩ : ∃ k'', k' = k'' + 1 := ⟨k' - 1, by omega⟩
    unfold iterativeLoop at h ⊢
    cases hs : iterativePass db bound n [⟨p, 0, 0, []⟩] INF with
    | none => rw [hs] at h; exact Option.noConfusion h
    | some out =>
      rw [hs] at h
      rw [iterativePass_mono db bound n _ _ _ hs n' hn]
      obtain ⟨res, nb⟩ := out
      cases res with
      | some ms => exact h
      | none =>
        simp only at h ⊢
        by_cases h2 : nb = INF
        · rw [if_pos h2] at h ⊢; exact h
        · rw [if_neg h2] at h ⊢
          exact ih k'' (by omega) _ _ h

/-- A value computed by `iterativeIDAStar` with some fuel is the value it returns. -/
theorem iterativeIDAStar_returns {db : PatternDB} {p : Puzzle} {n : Nat} {r : List Dir}
    (h : iterativeIDAStar n db p = some r) :
    Returns (fun fuel => iterativeIDAStar fuel db p) r := by
  refine ⟨n, fun m hm => ?_⟩
  show iterativeIDAStar m db p = some r
  unfold iterativeIDAStar at h ⊢
  exact iterativeLoop_mono db p hm n m hm _ _ h

/-! ### The depth-first pass -/

theorem dfs_succ_eq (h : Puzzle → Int) (bound : Int) (n : Nat) (cur : Puzzle) (g : Int)
    (moves : List Dir) :
    dfs h bound (n + 1) cur g moves =
      if g + h cur > bound then some (.cut (g + h cur))
      else if cur.checkWin = true then some (.found moves)
      else dfsLoop (dfs h bound n) cur g moves DIRECTIONS INF := rfl

theorem dfsLoop_nil (rec : Puzzle → Int → List Dir → Option PassResult) (cur : Puzzle)
    (g : Int) (moves : List Dir) (m : Int) :
    dfsLoop rec cur g moves [] m = some (.cut m) := rfl

theorem dfsLoop_cons (rec : Puzzle → Int → List Dir → Option PassResult) (cur : Puzzle)
    (g : Int) (moves : List Dir) (d : Dir) (rest : List Dir) (m : Int) :
    dfsLoop rec cur g moves (d :: rest) m =
      if isReverse d moves = true then dfsLoop rec cur g moves rest m
      else if (cur.simulateMove d).1 = false then dfsLoop rec cur g moves rest m
      else
        match rec (cur.simulateMove d).2 (g + 1) (moves ++ [d]) with
        | none => none
        | some (.found ms) => some (.found ms)
        | some (.cut t) => dfsLoop rec cur g moves rest (if t < m then t else m) := by
  conv_lhs => unfold dfsLoop
  by_cases h1 : isReverse d moves = true
  · rw [if_pos h1, if_pos h1]
  · rw [if_neg h1, if_neg h1]
    cases h2 : (cur.simulateMove d).1
    · simp
    · simp only [Bool.not_true, Bool.false_eq_true, if_false]
      rfl

/-- The three ways through one iteration of the loop. -/
theorem dfsLoop_cons_cases (rec : Puzzle → Int → List Dir → Option PassResult) (cur : Puzzle)
    (g : Int) (moves : List Dir) (d : Dir) (rest : List Dir) (m : Int) (r : PassResult)
    (h : dfsLoop rec cur g moves (d :: rest) m = some r) :
    ((isReverse d moves = true ∨ (cur.simulateMove d).1 = false) ∧
      dfsLoop rec cur g moves rest m = some r) ∨
    (isReverse d moves = false ∧ (cur.simulateMove d).1 = true ∧
      ∃ ms, rec (cur.simulateMove d).2 (g + 1) (moves ++ [d]) = some (.found ms) ∧
        r = .found ms) ∨
    (isReverse d moves = false ∧ (cur.simulateMove d).1 = true ∧
      ∃ t, rec (cur.simulateMove d).2 (g + 1) (moves ++ [d]) = some (.cut t) ∧
        dfsLoop rec cur g moves rest (if t < m then t else m) = some r) := by
  rw [dfsLoop_cons] at h
  by_cases h1 : isReverse d moves = true
  · rw [if_pos h1] at h; exact Or.inl ⟨Or.inl h1, h⟩
  · rw [if_neg h1] at h
    by_cases h2 : (cur.simulateMove d).1 = false
    · rw [if_pos h2] at h; exact Or.inl ⟨Or.inr h2, h⟩
    · rw [if_neg h2] at h
      have h1' : isReverse d moves = false := by simpa using h1
      have h2' : (cur.simulateMove d).1 = true := by simpa using h2
      cases hc : rec (cur.simulateMove d).2 (g + 1) (moves ++ [d]) with
      | none => rw [hc] at h; exact Option.noConfusion h
      | some res =>
        rw [hc] at h
        cases res with
        | found ms =>
          simp only [Option.some.injEq] at h
          exact Or.inr (Or.inl ⟨h1', h2', ms, rfl, h.symm⟩)
        | cut t => exact Or.inr (Or.inr ⟨h1', h2', t, rfl, h⟩)

theorem dfsLoop_mono {rec rec' : Puzzle → Int → List Dir → Option PassResult}
    (hrec : ∀ c g mv r, rec c g mv = some r → rec' c g mv = some r)
    (cur : Puzzle) (g : Int) (moves : List Dir) :
    ∀ (rest : List Dir) (m : Int) (r : PassResult),
      dfsLoop rec cur g moves rest m = some r → dfsLoop rec' cur g moves rest m = some r := by
  intro rest
  induction rest with
  | nil => intro m r h; exact h
  | cons d rest ih =>
    intro m r h
    rcases dfsLoop_cons_cases _ _ _ _ _ _ _ _ h with ⟨hc, h'⟩ | ⟨h1, h2, ms, hc, rfl⟩ |
      ⟨h1, h2, t, hc, h'⟩
    · rw [dfsLoop_cons]
      rcases hc with hc | hc
      · rw [if_pos hc]; exact ih _ _ h'
      · by_cases h1 : isReverse d moves = true
        · rw [if_pos h1]; exact ih _ _ h'
        · rw [if_neg h1, if_pos hc]; exact ih _ _ h'
    · rw [dfsLoop_cons, if_neg (by simp [h1]), if_neg (by simp [h2]), hrec _ _ _ _ hc]
    · rw [dfsLoop_cons, if_neg (by simp [h1]), if_neg (by simp [h2]), hrec _ _ _ _ hc]
      exact ih _ _ h'

theorem dfs_succ (h : Puzzle → Int) (bound : Int) :
    ∀ (n : Nat) (cur : Puzzle) (g : Int) (moves : List Dir) (r : PassResult),
      dfs h bound n cur g moves = some r → dfs h bound (n + 1) cur g moves = some r := by
  intro n
  induction n with
  | zero => intro cur g moves r hr; exact Option.noConfusion hr
  | succ n ih =>
    intro cur g moves r hr
    rw [dfs_succ_eq] at hr ⊢
    by_cases h1 : g + h cur > bound
    · rw [if_pos h1] at hr ⊢; exact hr
    · rw [if_neg h1] at hr ⊢
      by_cases h2 : cur.checkWin = true
      · rw [if_pos h2] at hr ⊢; exact hr
      · rw [if_neg h2] at hr ⊢
        exact dfsLoop_mono ih cur g moves _ _ _ hr

theorem dfs_mono (h : Puzzle → Int) (bound : Int) {n m : Nat} (hnm : n ≤ m)
    {cur : Puzzle} {g : Int} {moves : List Dir} {r : PassResult}
    (hr : dfs h bound n cur g moves = some r) : dfs h bound m cur g moves = some r := by
  induction hnm with
  | refl => exact hr
  | step _ ih => exact dfs_succ h bound _ _ _ _ _ ih

/-- With a non-negative heuristic the pass below a node ends. -/
theorem dfsLoop_terminates {rec : Puzzle → Int → List Dir → Option PassResult}
    (cur : Puzzle) (g : Int) (moves : List Dir)
    (hrec : ∀ c mv, ∃ r, rec c (g + 1) mv = some r) :
    ∀ (rest : List Dir) (m : Int), ∃ r, dfsLoop rec cur g moves rest m = some r := by
  intro rest
  induction rest with
  | nil => intro m; exact ⟨_, rfl⟩
  | cons d rest ih =>
    intro m
    rw [dfsLoop_cons]
    by_cases h1 : isReverse d moves = true
    · rw [if_pos h1]; exact ih m
    · rw [if_neg h1]
      by_cases h2 : (cur.simulateMove d).1 = false
      · rw [if_pos h2]; exact ih m
      · rw [if_neg h2]
        obtain ⟨r, hr⟩ := hrec (cur.simulateMove d).2 (moves ++ [d])
        rw [hr]
        cases r with
        | found ms => exact ⟨_, rfl⟩
        | cut t => exact ih _

theorem dfs_terminates (h : Puzzle → Int) (hnn : ∀ s, 0 ≤ h s) (bound : Int) :
    ∀ (n : Nat) (cur : Puzzle) (g : Int) (moves : List Dir),
      (bound - g + 1).toNat < n → ∃ r, dfs h bound n cur g moves = some r := by
  intro n
  induction n with
  | zero => intro cur g moves hn; omega
  | succ n ih =>
    intro cur g moves hn
    rw [dfs_succ_eq]
    by_cases h1 : g + h cur > bound
    · rw [if_pos h1]; exact ⟨_, rfl⟩
    · rw [if_neg h1]
      by_cases h2 : cur.checkWin = true
      · rw [if_pos h2]; exact ⟨_, rfl⟩
      · rw [if_neg h2]
        apply dfsLoop_terminates
        intro c mv
        apply ih
        have := hnn cur
        omega

/-- What a found solution is: the moves so far followed by a legal, non-reversing
sequence that ends solved within the bound. -/
theorem dfsLoop_found {h : Puzzle → Int} {bound : Int}
    {rec : Puzzle → Int → List Dir → Option PassResult} (cur : Puzzle) (g : Int)
    (moves : List Dir)
    (hrec : ∀ c mv ms, rec c (g + 1) mv = some (.found ms) →
      ∃ ds q, ms = mv ++ ds ∧ NonReversing mv ds ∧ applyMoves c ds = some q ∧
        q.checkWin = true ∧ g + 1 + (ds.length : Int) + h q ≤ bound) :
    ∀ (rest : List Dir) (m : Int) (ms : List Dir), (∀ d ∈ rest, d ∈ DIRECTIONS) →
      dfsLoop rec cur g moves rest m = some (.found ms) →
      ∃ ds q, ms = moves ++ ds ∧ NonReversing moves ds ∧ applyMoves cur ds = some q ∧
        q.checkWin = true ∧ g + (ds.length : Int) + h q ≤ bound := by
  intro rest
  induction rest with
  | nil => intro m ms _ hr; rw [dfsLoop_nil] at hr; cases hr
  | cons d rest ih =>
    intro m ms hdir hr
    have hrest : ∀ d' ∈ rest, d' ∈ DIRECTIONS := fun d' hd' => hdir d' (List.mem_cons_of_mem _ hd')
    rcases dfsLoop_cons_cases _ _ _ _ _ _ _ _ hr with ⟨_, h'⟩ | ⟨h1, h2, ms', hc, he⟩ |
      ⟨_, _, t, _, h'⟩
    · exact ih _ _ hrest h'
    · cases he
      obtain ⟨ds, q, e, hnr, hq, hwin, hb⟩ := hrec _ _ _ hc
      refine ⟨d :: ds, q, ?_, ⟨h1, hnr⟩, ?_, hwin, ?_⟩
      · rw [e]; simp
      · rw [applyMoves_cons_of ds (hdir d (List.mem_cons_self _ _)) h2]; exact hq
      · rw [List.length_cons]; push_cast; omega
    · exact ih _ _ hrest h'

theorem dfs_found (h : Puzzle → Int) (bound : Int) :
    ∀ (n : Nat) (cur : Puzzle) (g : Int) (moves ms : List Dir),
      dfs h bound n cur g moves = some (.found ms) →
      ∃ ds q, ms = moves ++ ds ∧ NonReversing moves ds ∧ applyMoves cur ds = some q ∧
        q.checkWin = true ∧ g + (ds.length : Int) + h q ≤ bound := by
  intro n
  induction n with
  | zero => intro cur g moves ms hr; exact Option.noConfusion hr
  | succ n ih =>
    intro cur g moves ms hr
    rw [dfs_succ_eq] at hr
    by_cases h1 : g + h cur > bound
    · rw [if_pos h1] at hr; cases hr
    · rw [if_neg h1] at hr
      by_cases h2 : cur.checkWin = true
      · rw [if_pos h2] at hr
        cases hr
        refine ⟨[], cur, by simp, trivial, rfl, h2, ?_⟩
        simp only [List.length_nil, Nat.cast_zero, add_zero]
        omega
      · rw [if_neg h2] at hr
        exact dfsLoop_found cur g moves (fun c mv ms' hc => ih c (g + 1) mv ms' hc) _ _ _
          (fun d hd => hd) hr

/-- The value handed up by a pass that found nothing: above the bound, or `INF`. -/
theorem dfsLoop_cut_range {bound : Int}
    {rec : Puzzle → Int → List Dir → Option PassResult} (cur : Puzzle) (g : Int)
    (moves : List Dir)
    (hrec : ∀ c mv t, rec c (g + 1) mv = some (.cut t) → bound < t ∨ t = INF) :
    ∀ (rest : List Dir) (m t : Int), dfsLoop rec cur g moves rest m = some (.cut t) →
      t ≤ m ∧ (t = m ∨ bound < t ∨ t = INF) := by
  intro rest
  induction rest with
  | nil =>
    intro m t hr
    rw [dfsLoop_nil] at hr
    cases hr
    exact ⟨le_refl _, Or.inl rfl⟩
  | cons d rest ih =>
    intro m t hr
    rcases dfsLoop_cons_cases _ _ _ _ _ _ _ _ hr with ⟨_, h'⟩ | ⟨_, _, ms', _, he⟩ |
      ⟨_, _, tc, hc, h'⟩
    · exact ih _ _ h'
    · cases he
    · obtain ⟨h1, h2⟩ := ih _ _ h'
      have h3 := hrec _ _ _ hc
      split at h1 <;> split at h2 <;> refine ⟨by omega, ?_⟩ <;> omega

theorem dfs_cut_range (h : Puzzle → Int) (bound : Int) :
    ∀ (n : Nat) (cur : Puzzle) (g : Int) (moves : List Dir) (t : Int),
      dfs h bound n cur g moves = some (.cut t) →
      (bound < t ∨ t = INF) ∧ (g + h cur ≤ bound → t ≤ INF) := by
  intro n
  induction n with
  | zero => intro cur g moves t hr; exact Option.noConfusion hr
  | succ n ih =>
    intro cur g moves t hr
    rw [dfs_succ_eq] at hr
    by_cases h1 : g + h cur > bound
    · rw [if_pos h1] at hr
      cases hr
      exact ⟨Or.inl h1, fun h' => by omega⟩
    · rw [if_neg h1] at hr
      by_cases h2 : cur.checkWin = true
      · rw [if_pos h2] at hr; cases hr
      · rw [if_neg h2] at hr
        have := dfsLoop_cut_range cur g moves (fun c mv t' hc => (ih c (g + 1) mv t' hc).1)
          _ _ _ hr
        exact ⟨by omega, fun _ => this.1⟩

theorem dfsLoop_cut_nonneg {rec : Puzzle → Int → List Dir → Option PassResult} (cur : Puzzle)
    (g : Int) (moves : List Dir)
    (hrec : ∀ c mv t, rec c (g + 1) mv = some (.cut t) → 0 ≤ t) :
    ∀ (rest : List Dir) (m t : Int), 0 ≤ m → dfsLoop rec cur g moves rest m = some (.cut t) →
      0 ≤ t := by
  intro rest
  induction rest with
  | nil =>
    intro m t hm hr
    rw [dfsLoop_nil] at hr
    cases hr
    exact hm
  | cons d rest ih =>
    intro m t hm hr
    rcases dfsLoop_cons_cases _ _ _ _ _ _ _ _ hr with ⟨_, h'⟩ | ⟨_, _, ms', _, he⟩ |
      ⟨_, _, tc, hc, h'⟩
    · exact ih _ _ hm h'
    · cases he
    · have h3 := hrec _ _ _ hc
      refine ih _ _ ?_ h'
      split <;> omega

theorem dfs_cut_nonneg (h : Puzzle → Int) (hnn : ∀ s, 0 ≤ h s) (bound : Int) :
    ∀ (n : Nat) (cur : Puzzle) (g : Int) (moves : List Dir) (t : Int), 0 ≤ g →
      dfs h bound n cur g moves = some (.cut t) → 0 ≤ t := by
  intro n
  induction n with
  | zero => intro cur g moves t _ hr; exact Option.noConfusion hr
  | succ n ih =>
    intro cur g moves t hg hr
    rw [dfs_succ_eq] at hr
    by_cases h1 : g + h cur > bound
    · rw [if_pos h1] at hr
      cases hr
      have := hnn cur
      omega
    · rw [if_neg h1] at hr
      by_cases h2 : cur.checkWin = true
      · rw [if_pos h2] at hr; cases hr
      · rw [if_neg h2] at hr
        exact dfsLoop_cut_nonneg cur g moves
          (fun c mv t' hc => ih c (g + 1) mv t' (by omega) hc) _ _ _ (by unfold INF; omega) hr

theorem dfsLoop_cut_le {rec : Puzzle → Int → List Dir → Option PassResult} (cur : Puzzle)
    (g : Int) (moves : List Dir) :
    ∀ (rest : List Dir) (m t : Int), dfsLoop rec cur g moves rest m = some (.cut t) → t ≤ m := by
  intro rest
  induction rest with
  | nil =>
    intro m t hr
    rw [dfsLoop_nil] at hr
    cases hr
    exact le_refl _
  | cons d rest ih =>
    intro m t hr
    rcases dfsLoop_cons_cases _ _ _ _ _ _ _ _ hr with ⟨_, h'⟩ | ⟨_, _, ms', _, he⟩ |
      ⟨_, _, tc, hc, h'⟩
    · exact ih _ _ h'
    · cases he
    · have := ih _ _ h'
      split at this <;> omega

/-- A pass that found nothing has pruned a state on every legal, non-reversing
solving sequence, and hands up at most the `f` of that state. -/
theorem dfsLoop_complete {h : Puzzle → Int} {bound : Int}
    {rec : Puzzle → Int → List Dir → Option PassResult} (cur : Puzzle) (g : Int)
    (moves : List Dir)
    (hrec : ∀ c mv t, rec c (g + 1) mv = some (.cut t) → ∀ ds q, NonReversing mv ds →
      applyMoves c ds = some q → q.checkWin = true → PrunedAlong h bound c (g + 1) t ds) :
    ∀ (rest : List Dir) (m t : Int), dfsLoop rec cur g moves rest m = some (.cut t) →
      ∀ d ∈ rest, ∀ ds q, NonReversing moves (d :: ds) → applyMoves cur (d :: ds) = some q →
        q.checkWin = true → PrunedAlong h bound cur g t (d :: ds) := by
  intro rest
  induction rest with
  | nil => intro m t _ d hd; exact absurd hd (List.not_mem_nil d)
  | cons d' rest ih =>
    intro m t hr d hd ds q hnr hq hwin
    obtain ⟨hdir, hmv, hq'⟩ := applyMoves_cons_some hq
    rcases dfsLoop_cons_cases _ _ _ _ _ _ _ _ hr with ⟨hskip, h'⟩ | ⟨_, _, ms', _, he⟩ |
      ⟨_, _, tc, hc, h'⟩
    · rcases List.mem_cons.1 hd with rfl | hd'
      · rcases hskip with hs | hs
        · rw [hnr.1] at hs; exact Bool.noConfusion hs
        · have : (cur.simulateMove d).1 = true := hmv
          rw [this] at hs; exact Bool.noConfusion hs
      · exact ih _ _ h' d hd' ds q hnr hq hwin
    · cases he
    · rcases List.mem_cons.1 hd with rfl | hd'
      · obtain ⟨k, s, hk, hs, hb, ht⟩ := hrec _ _ _ hc ds q hnr.2 hq' hwin
        have hle := dfsLoop_cut_le cur g moves _ _ _ h'
        refine ⟨k + 1, s, ?_, ?_, ?_, ?_⟩
        · rw [List.length_cons]; omega
        · rw [List.take_succ_cons, applyMoves_cons_of _ hdir hmv]; exact hs
        · push_cast; omega
        · push_cast
          split at hle <;> omega
      · exact ih _ _ h' d hd' ds q hnr hq hwin

theorem dfs_complete (h : Puzzle → Int) (bound : Int) :
    ∀ (n : Nat) (cur : Puzzle) (g : Int) (moves : List Dir) (t : Int),
      dfs h bound n cur g moves = some (.cut t) → ∀ ds q, NonReversing moves ds →
      applyMoves cur ds = some q → q.checkWin = true → PrunedAlong h bound cur g t ds := by
  intro n
  induction n with
  | zero => intro cur g moves t hr; exact Option.noConfusion hr
  | succ n ih =>
    intro cur g moves t hr ds q hnr hq hwin
    rw [dfs_succ_eq] at hr
    by_cases h1 : g + h cur > bound
    · rw [if_pos h1] at hr
      cases hr
      refine ⟨0, cur, Nat.zero_le _, by rw [List.take_zero]; rfl, ?_, ?_⟩
      · simp only [Nat.cast_zero, add_zero]; omega
      · simp only [Nat.cast_zero, add_zero]; omega
    · rw [if_neg h1] at hr
      by_cases h2 : cur.checkWin = true
      · rw [if_pos h2] at hr; cases hr
      · rw [if_neg h2] at hr
        cases ds with
        | nil =>
          unfold applyMoves at hq
          cases hq
          exact absurd hwin h2
        | cons d ds =>
          obtain ⟨hdir, _, _⟩ := applyMoves_cons_some hq
          exact dfsLoop_complete cur g moves (fun c mv t' hc => ih c (g + 1) mv t' hc)
            _ _ _ hr d hdir ds q hnr hq hwin

/-! ### The recursive `searchCopy` runs the depth-first pass -/

theorem searchLoopCopy_nil (rec : List Puzzle → Int → Int → List Dir → Option CopyOut)
    (cur : Puzzle) (g bound m : Int) (path : List Puzzle) (dirs : List Dir) :
    searchLoopCopy rec cur g bound [] m path dirs = some ⟨m, path, dirs⟩ := rfl

theorem searchLoopCopy_cons (rec : List Puzzle → Int → Int → List Dir → Option CopyOut)
    (cur : Puzzle) (g bound : Int) (d : Dir) (rest : List Dir) (m : Int) (path : List Puzzle)
    (dirs : List Dir) :
    searchLoopCopy rec cur g bound (d :: rest) m path dirs =
      if isReverse d dirs = true then searchLoopCopy rec cur g bound rest m path dirs
      else if (cur.simulateMove d).1 = false then searchLoopCopy rec cur g bound rest m path dirs
      else
        match rec (path ++ [(cur.simulateMove d).2]) (g + 1) bound (dirs ++ [d]) with
        | none => none
        | some out =>
          if out.t = -1 then some ⟨-1, out.path, out.dirs⟩
          else
            searchLoopCopy rec cur g bound rest (if out.t < m then out.t else m)
              out.path.dropLast out.dirs.dropLast := by
  conv_lhs => unfold searchLoopCopy
  by_cases h1 : isReverse d dirs = true
  · rw [if_pos h1, if_pos h1]
  · rw [if_neg h1, if_neg h1]
    by_cases h2 : (cur.simulateMove d).1 = false
    · rw [if_pos h2]
      simp [h2]
    · rw [if_neg h2]
      have h2' : (cur.simulateMove d).1 = true := by simpa using h2
      simp only [h2', Bool.not_true, Bool.false_eq_true, if_false]

theorem searchCopy_succ_eq (db : PatternDB) (n : Nat) {path : List Puzzle} {cur : Puzzle}
    (hcur : path.getLast? = some cur) (g bound : Int) (dirs : List Dir) :
    searchCopy db (n + 1) path g bound dirs =
      if g + hScore db cur > bound then some ⟨g + hScore db cur, path, dirs⟩
      else if cur.checkWin = true then some ⟨-1, path, dirs⟩
      else searchLoopCopy (searchCopy db n) cur g bound DIRECTIONS INF path dirs := by
  conv_lhs => unfold searchCopy
  rw [hcur]

theorem searchLoopCopy_sim {bound : Int} {recd : Puzzle → Int → List Dir → Option PassResult}
    {recs : List Puzzle → Int → Int → List Dir → Option CopyOut} (cur : Puzzle) (g : Int)
    (hcut : ∀ c path dirs t, path.getLast? = some c → recd c (g + 1) dirs = some (.cut t) →
      recs path (g + 1) bound dirs = some ⟨t, path, dirs⟩ ∧ t ≠ -1)
    (hfound : ∀ c path dirs ms, path.getLast? = some c →
      recd c (g + 1) dirs = some (.found ms) →
      ∃ path', recs path (g + 1) bound dirs = some ⟨-1, path', ms⟩) :
    ∀ (rest : List Dir) (m : Int) (path : List Puzzle) (dirs : List Dir) (r : PassResult),
      dfsLoop recd cur g dirs rest m = some r →
      (∀ t, r = .cut t → searchLoopCopy recs cur g bound rest m path dirs = some ⟨t, path, dirs⟩) ∧
      (∀ ms, r = .found ms →
        ∃ path', searchLoopCopy recs cur g bound rest m path dirs = some ⟨-1, path', ms⟩) := by
  intro rest
  induction rest with
  | nil =>
    intro m path dirs r hr
    rw [dfsLoop_nil] at hr
    cases hr
    refine ⟨fun t ht => ?_, fun ms hms => (by cases hms)⟩
    cases ht
    rfl
  | cons d rest ih =>
    intro m path dirs r hr
    have hlast : (path ++ [(cur.simulateMove d).2]).getLast? = some (cur.simulateMove d).2 := by
      simp
    rcases dfsLoop_cons_cases _ _ _ _ _ _ _ _ hr with ⟨hskip, h'⟩ | ⟨h1, h2, ms', hc, he⟩ |
      ⟨h1, h2, tc, hc, h'⟩
    · have e : searchLoopCopy recs cur g bound (d :: rest) m path dirs
          = searchLoopCopy recs cur g bound rest m path dirs := by
        rw [searchLoopCopy_cons]
        rcases hskip with hs | hs
        · rw [if_pos hs]
        · by_cases h1 : isReverse d dirs = true
          · rw [if_pos h1]
          · rw [if_neg h1, if_pos hs]
      rw [e]
      exact ih _ _ _ _ h'
    · subst he
      refine ⟨fun t ht => (by cases ht), fun ms hms => ?_⟩
      cases hms
      obtain ⟨path', hp⟩ := hfound _ _ _ _ hlast hc
      refine ⟨path', ?_⟩
      rw [searchLoopCopy_cons, if_neg (by simp [h1]), if_neg (by simp [h2]), hp]
      simp
    · obtain ⟨hp, hne⟩ := hcut _ _ _ _ hlast hc
      have e : searchLoopCopy recs cur g bound (d :: rest) m path dirs
          = searchLoopCopy recs cur g bound rest (if tc < m then tc else m) path dirs := by
        rw [searchLoopCopy_cons, if_neg (by simp [h1]), if_neg (by simp [h2]), hp]
        simp only
        rw [if_neg hne]
        simp
      rw [e]
      exact ih _ _ _ _ h'

/-- With a non-negative heuristic, `searchCopy` hands back what the pass computes:
the cut value with `path` and `dirs` restored, or `-1` with `dirs` holding the
solution. -/
theorem searchCopy_sim (db : PatternDB) (hnn : ∀ s, 0 ≤ hScore db s) (bound : Int) :
    ∀ (n : Nat) (cur : Puzzle) (g : Int) (dirs : List Dir) (path : List Puzzle)
      (r : PassResult), 0 ≤ g → path.getLast? = some cur →
      dfs (hScore db) bound n cur g dirs = some r →
      (∀ t, r = .cut t → searchCopy db n path g bound dirs = some ⟨t, path, dirs⟩) ∧
      (∀ ms, r = .found ms → ∃ path', searchCopy db n path g bound dirs = some ⟨-1, path', ms⟩) := by
  intro n
  induction n with
  | zero => intro cur g dirs path r _ _ hr; exact Option.noConfusion hr
  | succ n ih =>
    intro cur g dirs path r hg hcur hr
    rw [dfs_succ_eq] at hr
    rw [searchCopy_succ_eq db n hcur]
    by_cases h1 : g + hScore db cur > bound
    · rw [if_pos h1] at hr ⊢
      cases hr
      exact ⟨fun t ht => (by cases ht; rfl), fun ms hms => (by cases hms)⟩
    · rw [if_neg h1] at hr ⊢
      by_cases h2 : cur.checkWin = true
      · rw [if_pos h2] at hr ⊢
        cases hr
        exact ⟨fun t ht => (by cases ht), fun ms hms => (by cases hms; exact ⟨path, rfl⟩)⟩
      · rw [if_neg h2] at hr ⊢
        refine searchLoopCopy_sim cur g ?_ ?_ _ _ _ _ _ hr
        · intro c path' dirs' t hc hd
          refine ⟨(ih c (g + 1) dirs' path' _ (by omega) hc hd).1 t rfl, ?_⟩
          have := dfs_cut_nonneg (hScore db) hnn bound n c (g + 1) dirs' t (by omega) hd
          omega
        · intro c path' dirs' ms hc hd
          exact (ih c (g + 1) dirs' path' _ (by omega) hc hd).2 ms rfl

/-! ### The explicit-stack loop runs the depth-first pass -/

theorem iterativePass_cons (db : PatternDB) (bound : Int) (n : Nat) (top : Node)
    (rest : List Node) (nb : Int) :
    iterativePass db bound (n + 1) (top :: rest) nb =
      if top.g + hScore db top.state > bound then
        iterativePass db bound n rest (min nb (top.g + hScore db top.state))
      else if top.state.checkWin = true then some (some top.moves, nb)
      else if top.dirIndex ≥ DIRECTIONS.length then iterativePass db bound n rest nb
      else if isReverse (DIRECTIONS.getD top.dirIndex (0, 0)) top.moves = true then
        iterativePass db bound n ({ top with dirIndex := top.dirIndex + 1 } :: rest) nb
      else if (top.state.simulateMove (DIRECTIONS.getD top.dirIndex (0, 0))).1 = false then
        iterativePass db bound n ({ top with dirIndex := top.dirIndex + 1 } :: rest) nb
      else
        iterativePass db bound n
          (⟨(top.state.simulateMove (DIRECTIONS.getD top.dirIndex (0, 0))).2, top.g + 1, 0,
              top.moves ++ [DIRECTIONS.getD top.dirIndex (0, 0)]⟩ ::
            { top with dirIndex := top.dirIndex + 1 } :: rest) nb := by
  conv_lhs => unfold iterativePass
  simp only
  by_cases h1 : top.g + hScore db top.state > bound
  · rw [if_pos h1, if_pos h1]
  · rw [if_neg h1, if_neg h1]
    by_cases h2 : top.state.checkWin = true
    · rw [if_pos h2, if_pos h2]
    · rw [if_neg h2, if_neg h2]
      by_cases h3 : top.dirIndex ≥ DIRECTIONS.length
      · rw [if_pos h3, if_pos h3]
      · rw [if_neg h3, if_neg h3]
        by_cases h4 : isReverse (DIRECTIONS.getD top.dirIndex (0, 0)) top.moves = true
        · rw [if_pos h4, if_pos h4]
        · rw [if_neg h4, if_neg h4]
          by_cases h5 : (top.state.simulateMove (DIRECTIONS.getD top.dirIndex (0, 0))).1 = false
          · rw [if_pos h5]
            simp only [h5, Bool.not_false, if_true]
          · rw [if_neg h5]
            have h5' : (top.state.simulateMove (DIRECTIONS.getD top.dirIndex (0, 0))).1 = true := by
              simpa using h5
            simp only [h5', Bool.not_true, Bool.false_eq_true, if_false]

theorem drop_eq_cons {α : Type} {l : List α} {k : Nat} {d : α} {ds : List α}
    (h : l.drop k = d :: ds) (x : α) : k < l.length ∧ l.getD k x = d ∧ l.drop (k + 1) = ds := by
  have hk : k < l.length := by
    by_contra hc
    rw [List.drop_eq_nil_of_le (by omega)] at h
    cases h
  refine ⟨hk, ?_, ?_⟩
  · rw [List.drop_eq_getElem_cons hk] at h
    rw [List.getD_eq_getElem?_getD, List.getElem?_eq_getElem hk]
    exact (List.cons.inj h).1
  · rw [List.drop_eq_getElem_cons hk] at h
    exact (List.cons.inj h).2

theorem iterativeLoop_sim {db : PatternDB} {bound : Int}
    {recd : Puzzle → Int → List Dir → Option PassResult} (cur : Puzzle) (g : Int)
    (moves : List Dir) (hf : ¬ g + hScore db cur > bound) (hw : ¬ cur.checkWin = true)
    (hrec : ∀ c mv r, recd c (g + 1) mv = some r → ∀ rest nb, nb ≤ INF →
      (∀ t, r = .cut t → ∃ K, ∀ fuel,
        iterativePass db bound (fuel + K) (⟨c, g + 1, 0, mv⟩ :: rest) nb
          = iterativePass db bound fuel rest (min nb t)) ∧
      (∀ ms, r = .found ms → ∃ K nb', ∀ fuel,
        iterativePass db bound (fuel + K) (⟨c, g + 1, 0, mv⟩ :: rest) nb
          = some (some ms, nb'))) :
    ∀ (restDirs : List Dir) (k : Nat) (m : Int) (r : PassResult),
      DIRECTIONS.drop k = restDirs → dfsLoop recd cur g moves restDirs m = some r →
      ∀ rest nb, nb ≤ INF → m ≤ INF →
      (∀ t, r = .cut t → ∃ K, ∀ fuel,
        iterativePass db bound (fuel + K) (⟨cur, g, k, moves⟩ :: rest) (min nb m)
          = iterativePass db bound fuel rest (min nb t)) ∧
      (∀ ms, r = .found ms → ∃ K nb', ∀ fuel,
        iterativePass db bound (fuel + K) (⟨cur, g, k, moves⟩ :: rest) (min nb m)
          = some (some ms, nb')) := by
  intro restDirs
  induction restDirs with
  | nil =>
    intro k m r hk hr rest nb _ _
    rw [dfsLoop_nil] at hr
    cases hr
    have hk' : k ≥ DIRECTIONS.length := by
      by_contra hc
      have := List.drop_eq_nil_iff.1 hk
      omega
    refine ⟨fun t ht => ?_, fun ms hms => (by cases hms)⟩
    cases ht
    refine ⟨1, fun fuel => ?_⟩
    rw [iterativePass_cons]
    simp only
    rw [if_neg hf, if_neg hw, if_pos hk']
  | cons d ds ih =>
    intro k m r hk hr rest nb hnb hm
    obtain ⟨hk1, hk2, hk3⟩ := drop_eq_cons hk (0, 0)
    have hk' : ¬ k ≥ DIRECTIONS.length := by omega
    have hstep_skip : (isReverse d moves = true ∨ (cur.simulateMove d).1 = false) →
        ∀ fuel nb', iterativePass db bound (fuel + 1) (⟨cur, g, k, moves⟩ :: rest) nb'
          = iterativePass db bound fuel (⟨cur, g, k + 1, moves⟩ :: rest) nb' := by
      intro hs fuel nb'
      rw [iterativePass_cons]
      simp only
      rw [if_neg hf, if_neg hw, if_neg hk', hk2]
      rcases hs with hs | hs
      · rw [if_pos hs]
      · by_cases h1 : isReverse d moves = true
        · rw [if_pos h1]
        · rw [if_neg h1, if_pos hs]
    have hstep_push : isReverse d moves = false → (cur.simulateMove d).1 = true →
        ∀ fuel nb', iterativePass db bound (fuel + 1) (⟨cur, g, k, moves⟩ :: rest) nb'
          = iterativePass db bound fuel
            (⟨(cur.simulateMove d).2, g + 1, 0, moves ++ [d]⟩ :: ⟨cur, g, k + 1, moves⟩ :: rest)
            nb' := by
      intro h1 h2 fuel nb'
      rw [iterativePass_cons]
      simp only
      rw [if_neg hf, if_neg hw, if_neg hk', hk2, if_neg (by simp [h1]), if_neg (by simp [h2])]
    rcases dfsLoop_cons_cases _ _ _ _ _ _ _ _ hr with ⟨hskip, h'⟩ | ⟨h1, h2, ms', hc, he⟩ |
      ⟨h1, h2, tc, hc, h'⟩
    · obtain ⟨ihc, ihf⟩ := ih (k + 1) m r hk3 h' rest nb hnb hm
      constructor
      · intro t ht
        obtain ⟨K, hK⟩ := ihc t ht
        refine ⟨K + 1, fun fuel => ?_⟩
        rw [← add_assoc, hstep_skip hskip, hK]
      · intro ms hms
        obtain ⟨K, nb', hK⟩ := ihf ms hms
        refine ⟨K + 1, nb', fun fuel => ?_⟩
        rw [← add_assoc, hstep_skip hskip, hK]
    · subst he
      refine ⟨fun t ht => (by cases ht), fun ms hms => ?_⟩
      cases hms
      obtain ⟨K, nb', hK⟩ := (hrec _ _ _ hc (⟨cur, g, k + 1, moves⟩ :: rest) (min nb m)
        (le_trans (min_le_left _ _) hnb)).2 ms' rfl
      refine ⟨K + 1, nb', fun fuel => ?_⟩
      rw [← add_assoc, hstep_push h1 h2, hK]
    · obtain ⟨K1, hK1⟩ := (hrec _ _ _ hc (⟨cur, g, k + 1, moves⟩ :: rest) (min nb m)
        (le_trans (min_le_left _ _) hnb)).1 tc rfl
      have hm' : (if tc < m then tc else m) ≤ INF := by split <;> omega
      have hmin : min (min nb m) tc = min nb (if tc < m then tc else m) := by
        rw [min_assoc]
        congr 1
        split
        · exact min_eq_right (by omega)
        · exact min_eq_left (by omega)
      obtain ⟨ihc, ihf⟩ := ih (k + 1) _ r hk3 h' rest nb hnb hm'
      constructor
      · intro t ht
        obtain ⟨K, hK⟩ := ihc t ht
        refine ⟨K + K1 + 1, fun fuel => ?_⟩
        rw [← add_assoc, hstep_push h1 h2, ← add_assoc, hK1, hmin, hK]
      · intro ms hms
        obtain ⟨K, nb', hK⟩ := ihf ms hms
        refine ⟨K + K1 + 1, nb', fun fuel => ?_⟩
        rw [← add_assoc, hstep_push h1 h2, ← add_assoc, hK1, hmin, hK]

/-- The inner loop of `iterativeIDAStar`, started on a node, hands back what the
pass computes below that node: it pops the node with `newBound` lowered to the
cut value, or stops with the solution. -/
theorem iterativePass_sim (db : PatternDB) (bound : Int) :
    ∀ (n : Nat) (cur : Puzzle) (g : Int) (moves : List Dir) (r : PassResult),
      dfs (hScore db) bound n cur g moves = some r → ∀ rest nb, nb ≤ INF →
      (∀ t, r = .cut t → ∃ K, ∀ fuel,
        iterativePass db bound (fuel + K) (⟨cur, g, 0, moves⟩ :: rest) nb
          = iterativePass db bound fuel rest (min nb t)) ∧
      (∀ ms, r = .found ms → ∃ K nb', ∀ fuel,
        iterativePass db bound (fuel + K) (⟨cur, g, 0, moves⟩ :: rest) nb
          = some (some ms, nb')) := by
  intro n
  induction n with
  | zero => intro cur g moves r hr; exact Option.noConfusion hr
  | succ n ih =>
    intro cur g moves r hr rest nb hnb
    rw [dfs_succ_eq] at hr
    by_cases h1 : g + hScore db cur > bound
    · rw [if_pos h1] at hr
      cases hr
      refine ⟨fun t ht => ?_, fun ms hms => (by cases hms)⟩
      cases ht
      refine ⟨1, fun fuel => ?_⟩
      rw [iterativePass_cons]
      simp only
      rw [if_pos h1]
    · rw [if_neg h1] at hr
      by_cases h2 : cur.checkWin = true
      · rw [if_pos h2] at hr
        cases hr
        refine ⟨fun t ht => (by cases ht), fun ms hms => ?_⟩
        cases hms
        refine ⟨1, nb, fun fuel => ?_⟩
        rw [iterativePass_cons]
        simp only
        rw [if_neg h1, if_pos h2]
      · rw [if_neg h2] at hr
        have := @iterativeLoop_sim db bound _ cur g moves h1 h2
          (fun c mv r' hc => ih c (g + 1) mv r' hc) DIRECTIONS 0 INF r rfl hr rest nb hnb
          (le_refl _)
        rw [min_eq_left hnb] at this
        exact this

/-! ### The two outer loops follow the same sequence of passes -/

theorem idaLoopCopy_succ_eq (db : PatternDB) (n k : Nat) (path : List Puzzle) (dirs : List Dir)
    (bound : Int) :
    idaLoopCopy db n (k + 1) path dirs bound =
      match searchCopy db n path 0 bound dirs with
      | none => none
      | some out =>
        if out.t = -1 then some out.dirs
        else if out.t = INF then some []
        else idaLoopCopy db n k out.path out.dirs out.t := rfl

theorem iterativeLoop_succ_eq (db : PatternDB) (p : Puzzle) (n k : Nat) (bound : Int) :
    iterativeLoop db p n (k + 1) bound =
      match iterativePass db bound n [⟨p, 0, 0, []⟩] INF with
      | none => none
      | some (some solutionMoves, _) => some solutionMoves
      | some (none, newBound) =>
        if newBound = INF then some []
        else iterativeLoop db p n k newBound := rfl

theorem idaLoopCopy_of_outcome (db : PatternDB) (hnn : ∀ s, 0 ≤ hScore db s) (p : Puzzle)
    {bound : Int} {r : List Dir} (ho : Outcome (hScore db) p bound r) :
    ∃ n₀ k₀, ∀ n k, n₀ ≤ n → k₀ ≤ k → idaLoopCopy db n k [p] [] bound = some r := by
  induction ho with
  | @found bound n₁ ms hd =>
    refine ⟨n₁, 1, fun n k hn hk => ?_⟩
    obtain ⟨k', rfl⟩ : ∃ k', k = k' + 1 := ⟨k - 1, by omega⟩
    obtain ⟨path', hs⟩ := (searchCopy_sim db hnn bound n p 0 [] [p] _ (le_refl 0) rfl
      (dfs_mono _ _ hn hd)).2 ms rfl
    rw [idaLoopCopy_succ_eq, hs]
    simp
  | @exhausted bound n₁ hd =>
    refine ⟨n₁, 1, fun n k hn hk => ?_⟩
    obtain ⟨k', rfl⟩ : ∃ k', k = k' + 1 := ⟨k - 1, by omega⟩
    have hs := (searchCopy_sim db hnn bound n p 0 [] [p] _ (le_refl 0) rfl
      (dfs_mono _ _ hn hd)).1 INF rfl
    rw [idaLoopCopy_succ_eq, hs]
    simp [INF]
  | @next bound t n₁ r hd hne _ ih =>
    obtain ⟨n₀, k₀, hi⟩ := ih
    refine ⟨max n₀ n₁, k₀ + 1, fun n k hn hk => ?_⟩
    obtain ⟨k', rfl⟩ : ∃ k', k = k' + 1 := ⟨k - 1, by omega⟩
    have hs := (searchCopy_sim db hnn bound n p 0 [] [p] _ (le_refl 0) rfl
      (dfs_mono _ _ (le_trans (le_max_right _ _) hn) hd)).1 t rfl
    have ht := dfs_cut_nonneg (hScore db) hnn bound n₁ p 0 [] t (le_refl 0) hd
    rw [idaLoopCopy_succ_eq, hs]
    simp only
    rw [if_neg (by omega), if_neg hne]
    exact hi n k' (le_trans (le_max_left _ _) hn) (by omega)

theorem iterativeLoop_of_outcome (db : PatternDB) (p : Puzzle) {bound : Int} {r : List Dir}
    (ho : Outcome (hScore db) p bound r) (hb : hScore db p ≤ bound) :
    ∃ n₀ k₀, ∀ n k, n₀ ≤ n → k₀ ≤ k → iterativeLoop db p n k bound = some r := by
  induction ho with
  | @found bound n₁ ms hd =>
    obtain ⟨K, nb', hK⟩ := (iterativePass_sim db bound n₁ p 0 [] _ hd [] INF (le_refl _)).2 ms rfl
    refine ⟨K, 1, fun n k hn hk => ?_⟩
    obtain ⟨k', rfl⟩ : ∃ k', k = k' + 1 := ⟨k - 1, by omega⟩
    have hs := hK (n - K)
    rw [Nat.sub_add_cancel hn] at hs
    rw [iterativeLoop_succ_eq, hs]
  | @exhausted bound n₁ hd =>
    obtain ⟨K, hK⟩ := (iterativePass_sim db bound n₁ p 0 [] _ hd [] INF (le_refl _)).1 INF rfl
    refine ⟨K, 1, fun n k hn hk => ?_⟩
    obtain ⟨k', rfl⟩ : ∃ k', k = k' + 1 := ⟨k - 1, by omega⟩
    have hs := hK (n - K)
    rw [Nat.sub_add_cancel hn, iterativePass_nil, min_self] at hs
    rw [iterativeLoop_succ_eq, hs]
    simp
  | @next bound t n₁ r hd hne _ ih =>
    obtain ⟨hr1, hr2⟩ := dfs_cut_range (hScore db) bound n₁ p 0 [] t hd
    have hlt : bound < t := by omega
    have hle : t ≤ INF := hr2 (by omega)
    obtain ⟨n₀, k₀, hi⟩ := ih (by omega)
    obtain ⟨K, hK⟩ := (iterativePass_sim db bound n₁ p 0 [] _ hd [] INF (le_refl _)).1 t rfl
    refine ⟨max n₀ K, k₀ + 1, fun n k hn hk => ?_⟩
    obtain ⟨k', rfl⟩ : ∃ k', k = k' + 1 := ⟨k - 1, by omega⟩
    have hnK : K ≤ n := le_trans (le_max_right _ _) hn
    have hs := hK (n - K)
    rw [Nat.sub_add_cancel hnK, iterativePass_nil, min_eq_right hle] at hs
    rw [iterativeLoop_succ_eq, hs]
    simp only
    rw [if_neg hne]
    exact hi n k' (le_trans (le_max_left _ _) hn) (by omega)

/-- With a non-negative heuristic the iterative deepening ends. -/
theorem outcome_exists (h : Puzzle → Int) (hnn : ∀ s, 0 ≤ h s) (p : Puzzle) :
    ∀ (N : Nat) (bound : Int), (INF - bound).toNat ≤ N → h p ≤ bound →
      ∃ r, Outcome h p bound r := by
  intro N
  induction N with
  | zero =>
    intro bound hN hb
    obtain ⟨r, hr⟩ := dfs_terminates h hnn bound ((bound - 0 + 1).toNat + 1) p 0 []
      (Nat.lt_succ_self _)
    cases r with
    | found ms => exact ⟨ms, Outcome.found hr⟩
    | cut t =>
      obtain ⟨hr1, hr2⟩ := dfs_cut_range h bound _ p 0 [] t hr
      have hle : t ≤ INF := hr2 (by omega)
      have : t = INF := by omega
      subst this
      exact ⟨[], Outcome.exhausted hr⟩
  | succ N ih =>
    intro bound hN hb
    obtain ⟨r, hr⟩ := dfs_terminates h hnn bound ((bound - 0 + 1).toNat + 1) p 0 []
      (Nat.lt_succ_self _)
    cases r with
    | found ms => exact ⟨ms, Outcome.found hr⟩
    | cut t =>
      obtain ⟨hr1, hr2⟩ := dfs_cut_range h bound _ p 0 [] t hr
      have hle : t ≤ INF := hr2 (by omega)
      by_cases ht : t = INF
      · subst ht
        exact ⟨[], Outcome.exhausted hr⟩
      · obtain ⟨r, ho⟩ := ih t (by omega) (by omega)
        exact ⟨r, Outcome.next hr ht ho⟩

/-! ### Non-negative databases -/

theorem lookup_some_mem (key : String) :
    ∀ (t : Table) (v : Int), t.lookup key = some v → ∃ k, (k, v) ∈ t := by
  intro t
  induction t with
  | nil => intro v h; cases h
  | cons kv t ih =>
    intro v h
    obtain ⟨k, w⟩ := kv
    unfold List.lookup at h
    cases hk : key == k
    · rw [hk] at h
      obtain ⟨k', hk'⟩ := ih v h
      exact ⟨k', List.mem_cons_of_mem _ hk'⟩
    · rw [hk] at h
      cases h
      exact ⟨k, List.mem_cons_self _ _⟩

theorem manhattan_nonneg (p : Puzzle) (group : Group) : 0 ≤ manhattan p group := by
  rw [manhattan_eq_cellCost]
  exact Finset.sum_nonneg (fun x _ => cellCost_nonneg _ _ _ _ _)

theorem hScore_nonneg (db : PatternDB)
    (hdb : ∀ table ∈ db.dicts, ∀ kv ∈ table, 0 ≤ kv.2) (s : Puzzle) : 0 ≤ hScore db s := by
  rw [hScore_eq_sum]
  apply List.sum_nonneg
  intro x hx
  rw [List.mem_map] at hx
  obtain ⟨i, _, rfl⟩ := hx
  cases hl : (db.dicts.getD i []).lookup (s.hash (db.groups.getD i [])) with
  | none => exact manhattan_nonneg _ _
  | some v =>
    obtain ⟨k, hk⟩ := lookup_some_mem _ _ _ hl
    have hmem : db.dicts.getD i [] ∈ db.dicts := by
      rw [List.getD_eq_getElem?_getD]
      by_cases hi : i < db.dicts.length
      · rw [List.getElem?_eq_getElem hi]
        exact List.getElem_mem hi
      · rw [List.getElem?_eq_none (by omega)] at *
        rw [List.getD_eq_getElem?_getD, List.getElem?_eq_none (by omega)] at hk
        exact absurd hk (List.not_mem_nil _)
    exact hdb _ hmem _ hk

/-! ### Removing reversals from a move sequence -/

theorem applyMoves_append (p : Puzzle) (a b : List Dir) :
    applyMoves p (a ++ b) = (applyMoves p a).bind (fun s => applyMoves s b) := by
  induction a generalizing p with
  | nil => rfl
  | cons d ds ih =>
    rw [List.cons_append]
    by_cases hc : d ∈ DIRECTIONS ∧ (p.move d.1 d.2).1 = true
    · rw [applyMoves_cons_of _ hc.1 hc.2, applyMoves_cons_of _ hc.1 hc.2, ih]
    · unfold applyMoves
      rw [if_neg hc, if_neg hc]
      rfl

theorem applyMoves_drop {p q s : Puzzle} {ms : List Dir} {k : Nat}
    (hq : applyMoves p ms = some q) (hs : applyMoves p (ms.take k) = some s) :
    applyMoves s (ms.drop k) = some q := by
  have := applyMoves_append p (ms.take k) (ms.drop k)
  rw [List.take_append_drop, hq, hs] at this
  exact this.symm

theorem isReverse_congr (d : Dir) {moves moves' : List Dir}
    (h : moves.getLast? = moves'.getLast?) : isReverse d moves = isReverse d moves' := by
  unfold isReverse
  rw [h]

theorem nonReversing_congr :
    ∀ (ds moves moves' : List Dir), moves.getLast? = moves'.getLast? →
      NonReversing moves ds → NonReversing moves' ds := by
  intro ds
  induction ds with
  | nil => intro _ _ _ _; trivial
  | cons d ds ih =>
    intro moves moves' h hnr
    refine ⟨by rw [← isReverse_congr d h]; exact hnr.1, ?_⟩
    exact ih (moves ++ [d]) (moves' ++ [d]) (by simp) hnr.2

theorem nonReversing_nil_of (moves ds : List Dir) (h : NonReversing moves ds) :
    NonReversing [] ds := by
  cases ds with
  | nil => trivial
  | cons d ds =>
    exact ⟨rfl, nonReversing_congr ds (moves ++ [d]) ([] ++ [d]) (by simp) h.2⟩

theorem isReverse_singleton (e d : Dir) :
    isReverse e [d] = true ↔ e.1 = -d.1 ∧ e.2 = -d.2 := by
  unfold isReverse
  simp

/-- Any legal sequence can be shortened to a non-reversing one with the same
end state. -/
theorem exists_nonReversing :
    ∀ (ms : List Dir) (p q : Puzzle), p.BlankCached → applyMoves p ms = some q →
      ∃ ms', NonReversing [] ms' ∧ applyMoves p ms' = some q ∧ ms'.length ≤ ms.length := by
  intro ms
  induction ms with
  | nil => intro p q _ h; exact ⟨[], trivial, h, le_refl _⟩
  | cons d ds ih =>
    intro p q hp h
    obtain ⟨hd, hmv, h'⟩ := applyMoves_cons_some h
    obtain ⟨ds', hnr, hq, hlen⟩ := ih _ q (move_blankCached hp d.1 d.2) h'
    cases ds' with
    | nil =>
      refine ⟨[d], ⟨rfl, trivial⟩, ?_, by simp⟩
      rw [applyMoves_cons_of _ hd hmv]; exact hq
    | cons e es =>
      by_cases hrev : isReverse e [d] = true
      · obtain ⟨e1, e2⟩ := (isReverse_singleton e d).1 hrev
        obtain ⟨_, _, hq'⟩ := applyMoves_cons_some hq
        rw [e1, e2, move_back hp hmv] at hq'
        refine ⟨es, nonReversing_nil_of _ _ hnr.2, hq', ?_⟩
        simp only [List.length_cons] at hlen ⊢
        omega
      · refine ⟨d :: e :: es, ⟨rfl, ?_, ?_⟩, ?_, ?_⟩
        · simpa using hrev
        · exact nonReversing_congr es ([] ++ [e]) ([] ++ [d] ++ [e]) (by simp) hnr.2
        · rw [applyMoves_cons_of _ hd hmv]; exact hq
        · simp only [List.length_cons] at hlen ⊢
          omega

/-! ### Optimality of the iterative deepening -/

theorem prunedAlong_le {h : Puzzle → Int} {bound t : Int} {p q : Puzzle} {ms : List Dir}
    (hadm : ∀ ds s, applyMoves p ds = some s → ∀ ms', Solves s ms' → h s ≤ (ms'.length : Int))
    (hq : applyMoves p ms = some q) (hwin : q.checkWin = true)
    (hpr : PrunedAlong h bound p 0 t ms) : bound < (ms.length : Int) ∧ t ≤ (ms.length : Int) := by
  obtain ⟨k, s, hk, hs, hb, ht⟩ := hpr
  have hsol : Solves s (ms.drop k) := ⟨q, applyMoves_drop hq hs, hwin⟩
  have := hadm _ s hs _ hsol
  rw [List.length_drop] at this
  push_cast [Nat.cast_sub hk] at this
  omega

theorem outcome_optimal {h : Puzzle → Int} (hnn : ∀ s, 0 ≤ h s) {p : Puzzle}
    (hadm : ∀ ds s, applyMoves p ds = some s → ∀ ms, Solves s ms → h s ≤ (ms.length : Int))
    {ms₀ : List Dir} (hnr₀ : NonReversing [] ms₀) (hsol₀ : Solves p ms₀)
    (hlen₀ : (ms₀.length : Int) < INF) {bound : Int} {r : List Dir}
    (ho : Outcome h p bound r) :
    (∀ ms, NonReversing [] ms → Solves p ms → bound ≤ (ms.length : Int)) →
    Solves p r ∧ ∀ ms, NonReversing [] ms → Solves p ms → r.length ≤ ms.length := by
  induction ho with
  | @found bound n ms hd =>
    intro hinv
    obtain ⟨ds, q, e, _, hq, hwin, hb⟩ := dfs_found h bound n p 0 [] ms hd
    rw [List.nil_append] at e
    subst e
    refine ⟨⟨q, hq, hwin⟩, fun ms' hnr' hsol' => ?_⟩
    have h1 := hinv ms' hnr' hsol'
    have h2 := hnn q
    omega
  | @exhausted bound n hd =>
    intro _
    exfalso
    obtain ⟨q, hq, hwin⟩ := hsol₀
    have := prunedAlong_le hadm hq hwin (dfs_complete h bound n p 0 [] INF hd ms₀ q hnr₀ hq hwin)
    omega
  | @next bound t n r hd hne _ ih =>
    intro _
    apply ih
    intro ms hnr hsol
    obtain ⟨q, hq, hwin⟩ := hsol
    exact (prunedAlong_le hadm hq hwin (dfs_complete h bound n p 0 [] t hd ms q hnr hq hwin)).2

theorem solved_returns_nil (db : PatternDB) {p : Puzzle} (hwin : p.checkWin = true) :
    Returns (fun fuel => idaStarCopy fuel db p) [] ∧
    Returns (fun fuel => iterativeIDAStar fuel db p) [] := by
  refine ⟨⟨0, fun n _ => ?_⟩, ⟨1, fun n hn => ?_⟩⟩
  · show idaStarCopy n db p = some []
    unfold idaStarCopy
    rw [if_pos hwin]
  · obtain ⟨m, rfl⟩ : ∃ m, n = m + 1 := ⟨n - 1, by omega⟩
    show iterativeIDAStar (m + 1) db p = some []
    unfold iterativeIDAStar
    rw [iterativeLoop_succ_eq, iterativePass_cons]
    simp [hwin]

/-- Both solvers return what the sequence of passes from `hScore db p` ends with. -/
theorem returns_of_outcome (db : PatternDB) (hnn : ∀ s, 0 ≤ hScore db s) {p : Puzzle}
    (hw : ¬ p.checkWin = true) {r : List Dir}
    (ho : Outcome (hScore db) p (hScore db p) r) :
    Returns (fun fuel => idaStarCopy fuel db p) r ∧
    Returns (fun fuel => iterativeIDAStar fuel db p) r := by
  obtain ⟨n₀, k₀, h1⟩ := idaLoopCopy_of_outcome db hnn p ho
  obtain ⟨n₁, k₁, h2⟩ := iterativeLoop_of_outcome db p ho (le_refl _)
  refine ⟨⟨max n₀ k₀, fun n hn => ?_⟩, ⟨max n₁ k₁, fun n hn => ?_⟩⟩
  · show idaStarCopy n db p = some r
    unfold idaStarCopy
    rw [if_neg hw]
    exact h1 n n (le_trans (le_max_left _ _) hn) (le_trans (le_max_right _ _) hn)
  · show iterativeIDAStar n db p = some r
    unfold iterativeIDAStar
    exact h2 n n (le_trans (le_max_left _ _) hn) (le_trans (le_max_right _ _) hn)

theorem returns_unique {α : Type} {f : Nat → Option α} {a b : α} (ha : Returns f a)
    (hb : Returns f b) : a = b := by
  obtain ⟨n, hn⟩ := ha
  obtain ⟨m, hm⟩ := hb
  have h1 := hn (max n m) (le_max_left _ _)
  have h2 := hm (max n m) (le_max_right _ _)
  rw [h1] at h2
  exact Option.some.inj h2

/-- With non-negative stored values both solvers return one and the same list. -/
theorem solvers_agree (db : PatternDB) (hnn : ∀ s, 0 ≤ hScore db s) (p : Puzzle) :
    ∃ moves, Returns (fun fuel => idaStarCopy fuel db p) moves ∧
      Returns (fun fuel => iterativeIDAStar fuel db p) moves := by
  by_cases hw : p.checkWin = true
  · exact ⟨[], solved_returns_nil db hw⟩
  · obtain ⟨r, ho⟩ := outcome_exists (hScore db) hnn p _ (hScore db p) (le_refl _) (le_refl _)
    exact ⟨r, returns_of_outcome db hnn hw ho⟩

/-- The search on a solvable board, under a non-negative heuristic that is
admissible on the states reachable from the board: `iterativeIDAStar` and the copy form
`idaStarCopy` return the same list, a solution of minimum length. -/
theorem searchCopy_optimal (db : PatternDB) (hnn : ∀ s, 0 ≤ hScore db s) {p : Puzzle}
    (hp : p.BlankCached)
    (hadm : ∀ ds s, applyMoves p ds = some s → ∀ ms, Solves s ms →
      hScore db s ≤ (ms.length : Int))
    (hsol : ∃ ms, Solves p ms ∧ (ms.length : Int) < INF) :
    ∃ moves, Returns (fun fuel => idaStarCopy fuel db p) moves ∧
      Returns (fun fuel => iterativeIDAStar fuel db p) moves ∧
      Solves p moves ∧ ∀ ms, Solves p ms → moves.length ≤ ms.length := by
  by_cases hw : p.checkWin = true
  · obtain ⟨h1, h2⟩ := solved_returns_nil db hw
    exact ⟨[], h1, h2, ⟨p, rfl, hw⟩, fun ms _ => Nat.zero_le _⟩
  · obtain ⟨r, ho⟩ := outcome_exists (hScore db) hnn p _ (hScore db p) (le_refl _) (le_refl _)
    obtain ⟨h1, h2⟩ := returns_of_outcome db hnn hw ho
    obtain ⟨ms₀, ⟨q₀, hq₀, hwin₀⟩, hlen₀⟩ := hsol
    obtain ⟨ms₁, hnr₁, hq₁, hlen₁⟩ := exists_nonReversing ms₀ p q₀ hp hq₀
    have hopt := outcome_optimal hnn hadm hnr₁ ⟨q₀, hq₁, hwin₀⟩ (by omega) ho
      (fun ms _ hsol' => hadm [] p rfl ms hsol')
    refine ⟨r, h1, h2, hopt.1, fun ms hsol' => ?_⟩
    obtain ⟨q, hq, hwin⟩ := hsol'
    obtain ⟨ms', hnr', hq', hlen'⟩ := exists_nonReversing ms p q hp hq
    exact le_trans (hopt.2 ms' hnr' ⟨q, hq', hwin⟩) hlen'

/-! ### The recursive search of the source against its copy-holding form -/

theorem searchLoop_nil (rec : PathVec → Int → Int → List Dir → Option (Run SearchOut))
    (cur : Puzzle) (cap0 : Nat) (g bound m : Int) (path : PathVec) (dirs : List Dir) :
    searchLoop rec cur cap0 g bound [] m path dirs = some (.value ⟨m, path, dirs⟩) := rfl

theorem searchLoop_cons (rec : PathVec → Int → Int → List Dir → Option (Run SearchOut))
    (cur : Puzzle) (cap0 : Nat) (g bound : Int) (d : Dir) (rest : List Dir) (m : Int)
    (path : PathVec) (dirs : List Dir) :
    searchLoop rec cur cap0 g bound (d :: rest) m path dirs =
      if isReverse d dirs = true then searchLoop rec cur cap0 g bound rest m path dirs
      else if path.cap ≠ cap0 then some .undefined
      else if (cur.simulateMove d).1 = false then
        searchLoop rec cur cap0 g bound rest m path dirs
      else
        match rec (path.push_back (cur.simulateMove d).2) (g + 1) bound (dirs ++ [d]) with
        | none => none
        | some .undefined => some .undefined
        | some (.value out) =>
          if out.t = -1 then some (.value ⟨-1, out.path, out.dirs⟩)
          else
            searchLoop rec cur cap0 g bound rest (if out.t < m then out.t else m)
              out.path.pop_back out.dirs.dropLast := by
  conv_lhs => unfold searchLoop
  by_cases h1 : isReverse d dirs = true
  · rw [if_pos h1, if_pos h1]
  · rw [if_neg h1, if_neg h1]
    by_cases h0 : path.cap ≠ cap0
    · rw [if_pos h0, if_pos h0]
    · rw [if_neg h0, if_neg h0]
      by_cases h2 : (cur.simulateMove d).1 = false
      · rw [if_pos h2]
        simp [h2]
      · rw [if_neg h2]
        have h2' : (cur.simulateMove d).1 = true := by simpa using h2
        simp only [h2', Bool.not_true, Bool.false_eq_true, if_false]

theorem search_succ_eq (db : PatternDB) (n : Nat) {path : PathVec} {cur : Puzzle}
    (hcur : path.elems.getLast? = some cur) (g bound : Int) (dirs : List Dir) :
    search db (n + 1) path g bound dirs =
      if g + hScore db cur > bound then some (.value ⟨g + hScore db cur, path, dirs⟩)
      else if cur.checkWin = true then some (.value ⟨-1, path, dirs⟩)
      else searchLoop (search db n) cur path.cap g bound DIRECTIONS INF path dirs := by
  conv_lhs => unfold search
  rw [hcur]

theorem idaLoop_succ_eq (db : PatternDB) (n k : Nat) (path : PathVec) (dirs : List Dir)
    (bound : Int) :
    idaLoop db n (k + 1) path dirs bound =
      match search db n path 0 bound dirs with
      | none => none
      | some .undefined => some .undefined
      | some (.value out) =>
        if out.t = -1 then some (.value out.dirs)
        else if out.t = INF then some (.value [])
        else idaLoop db n k out.path out.dirs out.t := rfl

theorem searchLoop_mono {rec rec' : PathVec → Int → Int → List Dir → Option (Run SearchOut)}
    (hrec : ∀ path g bound dirs r, rec path g bound dirs = some r →
      rec' path g bound dirs = some r)
    (cur : Puzzle) (cap0 : Nat) (g bound : Int) :
    ∀ (rest : List Dir) (m : Int) (path : PathVec) (dirs : List Dir) (r : Run SearchOut),
      searchLoop rec cur cap0 g bound rest m path dirs = some r →
      searchLoop rec' cur cap0 g bound rest m path dirs = some r := by
  intro rest
  induction rest with
  | nil => intro m path dirs r h; exact h
  | cons d rest ih =>
    intro m path dirs r h
    rw [searchLoop_cons] at h ⊢
    by_cases h1 : isReverse d dirs = true
    · rw [if_pos h1] at h ⊢; exact ih _ _ _ _ h
    · rw [if_neg h1] at h ⊢
      by_cases h0 : path.cap ≠ cap0
      · rw [if_pos h0] at h ⊢; exact h
      · rw [if_neg h0] at h ⊢
        by_cases h2 : (cur.simulateMove d).1 = false
        · rw [if_pos h2] at h ⊢; exact ih _ _ _ _ h
        · rw [if_neg h2] at h ⊢
          cases hc : rec (path.push_back (cur.simulateMove d).2) (g + 1) bound (dirs ++ [d]) with
          | none => rw [hc] at h; exact Option.noConfusion h
          | some o =>
            rw [hc] at h
            rw [hrec _ _ _ _ _ hc]
            cases o with
            | undefined => exact h
            | value out =>
              simp only at h ⊢
              by_cases h3 : out.t = -1
              · rw [if_pos h3] at h ⊢; exact h
              · rw [if_neg h3] at h ⊢; exact ih _ _ _ _ h

theorem search_succ (db : PatternDB) :
    ∀ (n : Nat) (path : PathVec) (g bound : Int) (dirs : List Dir) (r : Run SearchOut),
      search db n path g bound dirs = some r → search db (n + 1) path g bound dirs = some r := by
  intro n
  induction n with
  | zero => intro path g bound dirs r h; exact Option.noConfusion h
  | succ n ih =>
    intro path g bound dirs r h
    cases hl : path.elems.getLast? with
    | none =>
      unfold search at h ⊢
      rw [hl] at h ⊢
      exact h
    | some cur =>
      rw [search_succ_eq db _ hl] at h ⊢
      by_cases h1 : g + hScore db cur > bound
      · rw [if_pos h1] at h ⊢; exact h
      · rw [if_neg h1] at h ⊢
        by_cases h2 : cur.checkWin = true
        · rw [if_pos h2] at h ⊢; exact h
        · rw [if_neg h2] at h ⊢
          exact searchLoop_mono ih cur _ g bound _ _ _ _ _ h

theorem search_mono (db : PatternDB) {n m : Nat} (hnm : n ≤ m)
    {path : PathVec} {g bound : Int} {dirs : List Dir} {r : Run SearchOut}
    (h : search db n path g bound dirs = some r) : search db m path g bound dirs = some r := by
  induction hnm with
  | refl => exact h
  | step _ ih => exact search_succ db _ _ _ _ _ _ ih

theorem idaLoop_mono (db : PatternDB) {n n' : Nat} (hn : n ≤ n') :
    ∀ (k k' : Nat), k ≤ k' → ∀ (path : PathVec) (dirs : List Dir) (bound : Int)
      (r : Run (List Dir)), idaLoop db n k path dirs bound = some r →
      idaLoop db n' k' path dirs bound = some r := by
  intro k
  induction k with
  | zero => intro k' _ path dirs bound r h; exact Option.noConfusion h
  | succ k ih =>
    intro k' hk path dirs bound r h
    obtain ⟨k'', rfl⟩ : ∃ k'', k' = k'' + 1 := ⟨k' - 1, by omega⟩
    rw [idaLoop_succ_eq] at h ⊢
    cases hs : search db n path 0 bound dirs with
    | none => rw [hs] at h; exact Option.noConfusion h
    | some o =>
      rw [hs] at h
      rw [search_mono db hn hs]
      cases o with
      | undefined => exact h
      | value out =>
        simp only at h ⊢
        by_cases h1 : out.t = -1
        · rw [if_pos h1] at h ⊢; exact h
        · rw [if_neg h1] at h ⊢
          by_cases h2 : out.t = INF
          · rw [if_pos h2] at h ⊢; exact h
          · rw [if_neg h2] at h ⊢
            exact ih k'' (by omega) _ _ _ _ h

/-- What `idaStar` computes with some fuel, a value or an undefined read, is what it
returns. -/
theorem idaStar_returns {db : PatternDB} {p : Puzzle} {n : Nat} {r : Run (List Dir)}
    (h : idaStar n db p = some r) : Returns (fun fuel => idaStar fuel db p) r := by
  refine ⟨n, fun m hm => ?_⟩
  show idaStar m db p = some r
  unfold idaStar at h ⊢
  by_cases hw : p.checkWin = true
  · rw [if_pos hw] at h ⊢; exact h
  · rw [if_neg hw] at h ⊢
    exact idaLoop_mono db hm n m hm _ _ _ _ h

theorem push_back_elems (v : PathVec) (x : Puzzle) : (v.push_back x).elems = v.elems ++ [x] := by
  unfold PathVec.push_back
  split <;> rfl

theorem searchLoop_value_copy {rec : PathVec → Int → Int → List Dir → Option (Run SearchOut)}
    {recc : List Puzzle → Int → Int → List Dir → Option CopyOut}
    (hrec : ∀ path g bound dirs out, rec path g bound dirs = some (.value out) →
      recc path.elems g bound dirs = some ⟨out.t, out.path.elems, out.dirs⟩)
    (cur : Puzzle) (cap0 : Nat) (g bound : Int) :
    ∀ (rest : List Dir) (m : Int) (path : PathVec) (dirs : List Dir) (out : SearchOut),
      searchLoop rec cur cap0 g bound rest m path dirs = some (.value out) →
      searchLoopCopy recc cur g bound rest m path.elems dirs =
        some ⟨out.t, out.path.elems, out.dirs⟩ := by
  intro rest
  induction rest with
  | nil =>
    intro m path dirs out h
    rw [searchLoop_nil] at h
    cases h
    rfl
  | cons d rest ih =>
    intro m path dirs out h
    rw [searchLoop_cons] at h
    rw [searchLoopCopy_cons]
    by_cases h1 : isReverse d dirs = true
    · rw [if_pos h1] at h ⊢; exact ih _ _ _ _ h
    · rw [if_neg h1] at h ⊢
      by_cases h0 : path.cap ≠ cap0
      · rw [if_pos h0] at h; cases h
      · rw [if_neg h0] at h
        by_cases h2 : (cur.simulateMove d).1 = false
        · rw [if_pos h2] at h ⊢; exact ih _ _ _ _ h
        · rw [if_neg h2] at h ⊢
          cases hc : rec (path.push_back (cur.simulateMove d).2) (g + 1) bound (dirs ++ [d]) with
          | none => rw [hc] at h; exact Option.noConfusion h
          | some o =>
            rw [hc] at h
            cases o with
            | undefined => cases h
            | value o =>
              have hcc := hrec _ _ _ _ _ hc
              rw [push_back_elems] at hcc
              rw [hcc]
              simp only at h ⊢
              by_cases h3 : o.t = -1
              · rw [if_pos h3] at h ⊢
                cases h
                rfl
              · rw [if_neg h3] at h ⊢
                exact ih _ _ _ _ h

/-- A run of `search` that ends with a value is a run of `searchCopy`: same returned
`int`, same elements of `path`, same `dirs`. -/
theorem search_value_copy (db : PatternDB) :
    ∀ (n : Nat) (path : PathVec) (g bound : Int) (dirs : List Dir) (out : SearchOut),
      search db n path g bound dirs = some (.value out) →
      searchCopy db n path.elems g bound dirs = some ⟨out.t, out.path.elems, out.dirs⟩ := by
  intro n
  induction n with
  | zero => intro path g bound dirs out h; exact Option.noConfusion h
  | succ n ih =>
    intro path g bound dirs out h
    cases hl : path.elems.getLast? with
    | none =>
      unfold search at h
      rw [hl] at h
      cases h
    | some cur =>
      rw [search_succ_eq db _ hl] at h
      rw [searchCopy_succ_eq db _ hl]
      by_cases h1 : g + hScore db cur > bound
      · rw [if_pos h1] at h ⊢; cases h; rfl
      · rw [if_neg h1] at h ⊢
        by_cases h2 : cur.checkWin = true
        · rw [if_pos h2] at h ⊢; cases h; rfl
        · rw [if_neg h2] at h ⊢
          exact searchLoop_value_copy ih cur _ g bound _ _ _ _ _ h

theorem idaLoop_value_copy (db : PatternDB) (n : Nat) :
    ∀ (k : Nat) (path : PathVec) (dirs : List Dir) (bound : Int) (r : List Dir),
      idaLoop db n k path dirs bound = some (.value r) →
      idaLoopCopy db n k path.elems dirs bound = some r := by
  intro k
  induction k with
  | zero => intro path dirs bound r h; exact Option.noConfusion h
  | succ k ih =>
    intro path dirs bound r h
    rw [idaLoop_succ_eq] at h
    rw [idaLoopCopy_succ_eq]
    cases hs : search db n path 0 bound dirs with
    | none => rw [hs] at h; exact Option.noConfusion h
    | some o =>
      rw [hs] at h
      cases o with
      | undefined => cases h
      | value out =>
        rw [search_value_copy db _ _ _ _ _ _ hs]
        simp only at h ⊢
        by_cases h1 : out.t = -1
        · rw [if_pos h1] at h ⊢; cases h; rfl
        · rw [if_neg h1] at h ⊢
          by_cases h2 : out.t = INF
          · rw [if_pos h2] at h ⊢; cases h; rfl
          · rw [if_neg h2] at h ⊢
            exact ih _ _ _ _ h

/-- A move list that `idaStar` returns is the one its copy-holding form computes. -/
theorem idaStar_value_copy {db : PatternDB} {p : Puzzle} {n : Nat} {r : List Dir}
    (h : idaStar n db p = some (.value r)) : idaStarCopy n db p = some r := by
  unfold idaStar at h
  unfold idaStarCopy
  by_cases hw : p.checkWin = true
  · rw [if_pos hw] at h ⊢; cases h; rfl
  · rw [if_neg hw] at h ⊢
    have := idaLoop_value_copy db n n _ _ _ _ h
    rw [push_back_elems] at this
    exact this

/-- With non-negative estimates, a move list that `idaStar` returns is the list that
`iterativeIDAStar` returns. -/
theorem idaStar_value_eq (db : PatternDB) (hnn : ∀ s, 0 ≤ hScore db s) {p : Puzzle}
    {moves : List Dir} (hm : Returns (fun fuel => iterativeIDAStar fuel db p) moves)
    {n : Nat} {r : List Dir} (h : idaStar n db p = some (.value r)) : r = moves := by
  obtain ⟨moves', h1, h2⟩ := solvers_agree db hnn p
  have e1 : r = moves' := returns_unique (idaStarCopy_returns (idaStar_value_copy h)) h1
  have e2 : moves = moves' := returns_unique hm h2
  rw [e1, e2]

/-! ### Claims on the search -/

/-- With empty tables and pairwise disjoint groups the estimate is admissible on
every state with a cached blank. -/
theorem hScore_le_length_of_empty_tables (db : PatternDB)
    (hdisj : db.groups.Pairwise (fun g g' => ∀ t, t ∈ g → t ∉ g'))
    (hempty : ∀ table ∈ db.dicts, table = []) {s : Puzzle} (hs : s.BlankCached)
    {ms : List Dir} (hsol : Solves s ms) : hScore db s ≤ (ms.length : Int) := by
  apply hScore_le_length db hs hdisj hsol
  intro i _ v hv
  have : db.dicts.getD i [] = [] := by
    rw [List.getD_eq_getElem?_getD]
    by_cases hi : i < db.dicts.length
    · rw [List.getElem?_eq_getElem hi]
      exact hempty _ (List.getElem_mem hi)
    · rw [List.getElem?_eq_none (by omega)]
      rfl
  rw [this] at hv
  cases hv

theorem hash_nil (s : Puzzle) : s.hash [] = "" := by
  unfold Puzzle.hash
  have inner : ∀ (l : List Nat) (i : Nat) (oss : String),
      l.foldl (fun oss j =>
        if getCell s.board i j ∈ ([] : Group) then oss ++ toString i ++ toString j else oss) oss
        = oss := by
    intro l
    induction l with
    | nil => intro i oss; rfl
    | cons j l ih =>
      intro i oss
      rw [List.foldl_cons, if_neg (List.not_mem_nil _)]
      exact ih i oss
  have outer : ∀ (l : List Nat) (oss : String),
      l.foldl (fun oss i =>
        (List.range s.boardSize.toNat).foldl (fun oss j =>
          if getCell s.board i j ∈ ([] : Group) then oss ++ toString i ++ toString j
          else oss) oss) oss = oss := by
    intro l
    induction l with
    | nil => intro oss; rfl
    | cons i l ih =>
      intro oss
      rw [List.foldl_cons, inner]
      exact ih oss
  exact outer _ _

theorem hScore_const (v : Int) (s : Puzzle) : hScore ⟨[[]], [[("", v)]]⟩ s = v := by
  rw [hScore_eq_sum]
  show ((List.range 1).map _).sum = v
  rw [show List.range 1 = [0] from rfl, List.map_cons, List.map_nil, List.sum_cons,
    List.sum_nil, add_zero]
  show (match ([("", v)] : Table).lookup (s.hash []) with
    | some v => v
    | none => manhattan s []) = v
  rw [hash_nil]
  rfl

/-- C1 fails as stated: with the single empty group and the table `"" ↦ -2` the
estimate is `-2` on every state, hence admissible.  The well-formed board `0 2 / 1 3`
is solved by the two moves `(1,0)`, `(0,1)` and by no shorter sequence, yet `idaStar`
returns the one-move list `[(1,0)]`: the child reached by `(1,0)` is pruned with
`f = 1 - 2 = -1`, which `search` hands up and its caller reads as the success signal. -/
theorem idaStar_optimal_counterexample :
    (⟨2, [[0, 2], [1, 3]], 0, 0⟩ : Puzzle).WellFormed ∧
    (∀ (s : Puzzle) (ms : List Dir), Solves s ms →
      hScore ⟨[[]], [[("", -2)]]⟩ s ≤ (ms.length : Int)) ∧
    Solves ⟨2, [[0, 2], [1, 3]], 0, 0⟩ [(1, 0), (0, 1)] ∧
    (∀ ms : List Dir, Solves ⟨2, [[0, 2], [1, 3]], 0, 0⟩ ms → 2 ≤ ms.length) ∧
    Returns (fun fuel => idaStar fuel ⟨[[]], [[("", -2)]]⟩ ⟨2, [[0, 2], [1, 3]], 0, 0⟩)
      (.value [(1, 0)]) := by
  refine ⟨by decide, ?_, ⟨⟨2, [[1, 2], [3, 0]], 1, 1⟩, by decide, by decide⟩, ?_,
    idaStar_returns (n := 2) (by decide)⟩
  · intro s ms _
    rw [hScore_const]
    have : (0 : Int) ≤ (ms.length : Int) := Int.ofNat_nonneg _
    omega
  · rintro ms ⟨q, hq, hwin⟩
    match ms, hq with
    | [], hq =>
      cases hq
      revert hwin
      decide
    | [d], hq =>
      exfalso
      obtain ⟨hd, hmv, hq'⟩ := applyMoves_cons_some hq
      cases hq'
      revert hmv hwin
      unfold DIRECTIONS at hd
      simp only [List.mem_cons, List.mem_singleton, List.not_mem_nil, or_false] at hd
      rcases hd with rfl | rfl | rfl | rfl <;> decide
    | _ :: _ :: _, _ =>
      simp only [List.length_cons]
      omega

/-- C1, amended: for a well-formed board from which a legal move sequence shorter
than `INF` reaches a solved state, and a database with non-negative stored values
under which `hScore` is admissible on the states reachable from the board,
`iterativeIDAStar` returns a move list that is a legal sequence to a solved state and
that no legal sequence to a solved state is shorter than; and every move list that
`idaStar` returns is that same list. -/
theorem idaStar_optimal (db : PatternDB) (p : Puzzle) (hwf : p.WellFormed)
    (hdb : ∀ table ∈ db.dicts, ∀ kv ∈ table, 0 ≤ kv.2)
    (hadm : ∀ ds s, applyMoves p ds = some s → ∀ ms, Solves s ms →
      hScore db s ≤ (ms.length : Int))
    (hsol : ∃ ms, Solves p ms ∧ (ms.length : Int) < INF) :
    ∃ moves, Returns (fun fuel => iterativeIDAStar fuel db p) moves ∧
      Solves p moves ∧ (∀ ms, Solves p ms → moves.length ≤ ms.length) ∧
      ∀ fuel r, idaStar fuel db p = some (.value r) → r = moves := by
  obtain ⟨moves, _, h2, h3, h4⟩ :=
    searchCopy_optimal db (hScore_nonneg db hdb) hwf.1 hadm hsol
  exact ⟨moves, h2, h3, h4, fun _ _ hr => idaStar_value_eq db (hScore_nonneg db hdb) h2 hr⟩

theorem idaStar_optimal_witness :
    idaStar 6 ⟨[[1, 2, 3, 4], [5, 6, 7, 8]], [[], []]⟩
        ⟨3, [[1, 2, 3], [4, 0, 6], [7, 5, 8]], 1, 1⟩ = some (.value [(1, 0), (0, 1)]) ∧
      Returns (fun fuel => iterativeIDAStar fuel ⟨[[1, 2, 3, 4], [5, 6, 7, 8]], [[], []]⟩
        ⟨3, [[1, 2, 3], [4, 0, 6], [7, 5, 8]], 1, 1⟩) [(1, 0), (0, 1)] ∧
      ∀ ms, Solves ⟨3, [[1, 2, 3], [4, 0, 6], [7, 5, 8]], 1, 1⟩ ms → 2 ≤ ms.length := by
  obtain ⟨moves, h1, _, h3, h4⟩ := idaStar_optimal ⟨[[1, 2, 3, 4], [5, 6, 7, 8]], [[], []]⟩
    ⟨3, [[1, 2, 3], [4, 0, 6], [7, 5, 8]], 1, 1⟩ (by decide) (by decide)
    (fun _ _ hs _ hsol =>
      hScore_le_length_of_empty_tables _ (by decide) (by decide)
        (applyMoves_blankCached (by decide) hs) hsol)
    ⟨[(1, 0), (0, 1)], ⟨_, rfl, by decide⟩, by decide⟩
  have hr : idaStar 6 ⟨[[1, 2, 3, 4], [5, 6, 7, 8]], [[], []]⟩
      ⟨3, [[1, 2, 3], [4, 0, 6], [7, 5, 8]], 1, 1⟩ = some (.value [(1, 0), (0, 1)]) := by
    decide
  have e := h4 6 _ hr
  subst e
  exact ⟨hr, h1, h3⟩

/-- C2 fails as stated: with the single empty group and the table `"" ↦ -2` the
estimate is `-2` on every state, hence admissible, yet on the well-formed and
solvable board `1 2 / 0 3` `idaStar` returns the list `[(-1,0)]`, whose replay
does not end in a solved state. -/
theorem idaStar_replay_counterexample :
    (⟨2, [[1, 2], [0, 3]], 1, 0⟩ : Puzzle).WellFormed ∧
    (∀ (s : Puzzle) (ms : List Dir), Solves s ms →
      hScore ⟨[[]], [[("", -2)]]⟩ s ≤ (ms.length : Int)) ∧
    Solves ⟨2, [[1, 2], [0, 3]], 1, 0⟩ [(0, 1)] ∧
    Returns (fun fuel => idaStar fuel ⟨[[]], [[("", -2)]]⟩ ⟨2, [[1, 2], [0, 3]], 1, 0⟩)
      (.value [(-1, 0)]) ∧
    ¬ Solves ⟨2, [[1, 2], [0, 3]], 1, 0⟩ [(-1, 0)] := by
  refine ⟨by decide, ?_, ⟨_, rfl, by decide⟩, idaStar_returns (n := 2) (by decide), ?_⟩
  · intro s ms _
    rw [hScore_const]
    have : (0 : Int) ≤ (ms.length : Int) := Int.ofNat_nonneg _
    omega
  · rintro ⟨q, hq, hwin⟩
    have e : applyMoves ⟨2, [[1, 2], [0, 3]], 1, 0⟩ [(-1, 0)]
        = some ⟨2, [[0, 2], [1, 3]], 0, 0⟩ := by decide
    rw [e] at hq
    cases hq
    revert hwin
    decide

/-- C2, amended: for a well-formed board from which a legal move sequence shorter
than `INF` reaches a solved state, and a database with non-negative stored
values under which `hScore` is admissible on the states reachable from the
board, `iterativeIDAStar` returns a move list whose replay from the board with
`Puzzle::move` makes every move succeed and ends in a state where `checkWin` is
true; and so does the replay of every move list that `idaStar` returns, which is
that same list. -/
theorem idaStar_replay_solves (db : PatternDB) (p : Puzzle) (hwf : p.WellFormed)
    (hdb : ∀ table ∈ db.dicts, ∀ kv ∈ table, 0 ≤ kv.2)
    (hadm : ∀ ds s, applyMoves p ds = some s → ∀ ms, Solves s ms →
      hScore db s ≤ (ms.length : Int))
    (hsol : ∃ ms, Solves p ms ∧ (ms.length : Int) < INF) :
    ∃ moves, Returns (fun fuel => iterativeIDAStar fuel db p) moves ∧
      (∃ q, applyMoves p moves = some q ∧ q.checkWin = true) ∧
      ∀ fuel r, idaStar fuel db p = some (.value r) →
        r = moves ∧ ∃ q, applyMoves p r = some q ∧ q.checkWin = true := by
  obtain ⟨moves, _, h2, h3, _⟩ :=
    searchCopy_optimal db (hScore_nonneg db hdb) hwf.1 hadm hsol
  refine ⟨moves, h2, h3, fun _ r hr => ?_⟩
  have e := idaStar_value_eq db (hScore_nonneg db hdb) h2 hr
  rw [e]
  exact ⟨rfl, h3⟩

theorem idaStar_replay_solves_witness :
    idaStar 6 ⟨[[1, 2, 3, 4, 5, 6, 7, 8]], [[]]⟩
        ⟨3, [[1, 0, 3], [4, 2, 6], [7, 5, 8]], 0, 1⟩
        = some (.value [(1, 0), (1, 0), (0, 1)]) ∧
      Returns (fun fuel => iterativeIDAStar fuel ⟨[[1, 2, 3, 4, 5, 6, 7, 8]], [[]]⟩
        ⟨3, [[1, 0, 3], [4, 2, 6], [7, 5, 8]], 0, 1⟩) [(1, 0), (1, 0), (0, 1)] ∧
      ∃ q, applyMoves ⟨3, [[1, 0, 3], [4, 2, 6], [7, 5, 8]], 0, 1⟩ [(1, 0), (1, 0), (0, 1)]
        = some q ∧ q.checkWin = true := by
  obtain ⟨moves, h1, _, h3⟩ := idaStar_replay_solves ⟨[[1, 2, 3, 4, 5, 6, 7, 8]], [[]]⟩
    ⟨3, [[1, 0, 3], [4, 2, 6], [7, 5, 8]], 0, 1⟩ (by decide) (by decide)
    (fun _ _ hs _ hsol =>
      hScore_le_length_of_empty_tables _ (by decide) (by decide)
        (applyMoves_blankCached (by decide) hs) hsol)
    ⟨[(1, 0), (1, 0), (0, 1)], ⟨_, rfl, by decide⟩, by decide⟩
  have hr : idaStar 6 ⟨[[1, 2, 3, 4, 5, 6, 7, 8]], [[]]⟩
      ⟨3, [[1, 0, 3], [4, 2, 6], [7, 5, 8]], 0, 1⟩
      = some (.value [(1, 0), (1, 0), (0, 1)]) := by
    decide
  obtain ⟨e, h5⟩ := h3 6 _ hr
  subst e
  exact ⟨hr, h1, h5⟩

/-- C4, the code at a failing input: on the board `3 1 / 0 2`, with the groups
`{1,2}`, `{3}` and the table `"0001" ↦ 0`, `"0011" ↦ 3` for the first,
`iterativeIDAStar` returns the three moves `(-1,0)`, `(0,1)`, `(1,0)`, while the
run of `idaStar` is undefined: the first child it pushes reallocates `path`, that
child's subtree ends without a solution, and the next direction is tried through
the reference `cur`, which then dangles.  The two do not return the same list. -/
theorem idaStar_undefined_at_dangling_cur :
    Returns (fun fuel => iterativeIDAStar fuel
      ⟨[[1, 2], [3]], [[("0001", 0), ("0011", 3)], []]⟩ ⟨2, [[3, 1], [0, 2]], 1, 0⟩)
      [(-1, 0), (0, 1), (1, 0)] ∧
    Returns (fun fuel => idaStar fuel
      ⟨[[1, 2], [3]], [[("0001", 0), ("0011", 3)], []]⟩ ⟨2, [[3, 1], [0, 2]], 1, 0⟩)
      .undefined :=
  ⟨iterativeIDAStar_returns (n := 60) (by decide), idaStar_returns (n := 4) (by decide)⟩

/-! ### Path reconstruction -/

theorem replay_cons (p : Puzzle) (mv : Dir) (moves : List Dir) :
    replay p (mv :: moves) = replay (p.move mv.1 mv.2).2 moves := rfl

theorem reconstructPath_go_length (moves : List Dir) :
    ∀ temp : Puzzle, (reconstructPath.go temp moves).length = moves.length := by
  induction moves with
  | nil => intro temp; rfl
  | cons mv rest ih =>
    intro temp
    unfold reconstructPath.go
    simp [ih]

theorem reconstructPath_go_getElem? (moves : List Dir) :
    ∀ (temp : Puzzle) (i : Nat), i < moves.length →
      (reconstructPath.go temp moves)[i]? = some (replay temp (moves.take (i + 1))).toString := by
  induction moves with
  | nil => intro temp i hi; exact absurd hi (Nat.not_lt_zero _)
  | cons mv rest ih =>
    intro temp i hi
    unfold reconstructPath.go
    cases i with
    | zero => simp [replay]
    | succ i =>
      simp only [List.getElem?_cons_succ, List.take_succ_cons, replay_cons]
      exact ih _ i (by simpa using hi)

/-- C12. `reconstructPath` returns `|moves|+1` strings: element 0 is the
rendering of the initial board and element `i` the rendering of the state
reached by applying the first `i` moves in order with `Puzzle::move`.  The
initial state is received by constant reference and only its copy `temp` is
moved: the function of the embedding has no other effect than its result. -/
theorem reconstructPath_spec (initial : Puzzle) (moves : List Dir) :
    (reconstructPath initial moves).length = moves.length + 1 ∧
    (reconstructPath initial moves)[0]? = some initial.toString ∧
    ∀ i, i ≤ moves.length →
      (reconstructPath initial moves)[i]? = some (replay initial (moves.take i)).toString := by
  unfold reconstructPath
  refine ⟨by simp [reconstructPath_go_length], by simp, ?_⟩
  intro i hi
  cases i with
  | zero => simp [replay]
  | succ i =>
    simp only [List.getElem?_cons_succ]
    exact reconstructPath_go_getElem? moves initial i hi

theorem reconstructPath_spec_witness :
    (reconstructPath ⟨2, [[1, 2], [0, 3]], 1, 0⟩ [(0, 1)])[1]? =
      some (replay ⟨2, [[1, 2], [0, 3]], 1, 0⟩ (([(0, 1)] : List Dir).take 1)).toString :=
  (reconstructPath_spec ⟨2, [[1, 2], [0, 3]], 1, 0⟩ [(0, 1)]).2.2 1 (by decide)

/-! ### The outcome of an exhausted search -/

/-- C14 fails as stated: on the unsolved board `2 1 / 3 0` with the table
`"" ↦ 100000` for the empty group the first pass of `iterativeIDAStar` prunes every
child at `f = 100001` and ends with nothing found and `newBound` equal to `INF`, so
the search is exhausted and `iterativeIDAStar` returns the empty list, the very value
it returns on the solved board `1 2 / 3 0`. -/
theorem no_solution_tagged_counterexample :
    (⟨2, [[2, 1], [3, 0]], 1, 1⟩ : Puzzle).checkWin = false ∧
    iterativePass ⟨[[]], [[("", 100000)]]⟩ 100000 8 [⟨⟨2, [[2, 1], [3, 0]], 1, 1⟩, 0, 0, []⟩]
      INF = some (none, INF) ∧
    Returns (fun fuel =>
      iterativeIDAStar fuel ⟨[[]], [[("", 100000)]]⟩ ⟨2, [[2, 1], [3, 0]], 1, 1⟩) [] ∧
    (⟨2, [[1, 2], [3, 0]], 1, 1⟩ : Puzzle).checkWin = true ∧
    Returns (fun fuel =>
      iterativeIDAStar fuel ⟨[[]], [[("", 100000)]]⟩ ⟨2, [[1, 2], [3, 0]], 1, 1⟩) [] := by
  refine ⟨by decide, by decide, iterativeIDAStar_returns (n := 8) (by decide), by decide,
    iterativeIDAStar_returns (n := 1) (by decide)⟩

/-- C14, amended: the outcome of `iterativeIDAStar` is not tagged.  When a pass is
exhausted (the inner loop ends with nothing found and `newBound` equal to `INF`) it
returns the empty move list, and that is also what it returns on a board where
`checkWin` is true; `idaStar` too returns the empty list on such a board. -/
theorem no_solution_returns_empty (db : PatternDB) (fuel passes : Nat)
    (initial p : Puzzle) (bound : Int) :
    (iterativePass db bound fuel [⟨initial, 0, 0, []⟩] INF = some (none, INF) →
      iterativeLoop db initial fuel (passes + 1) bound = some []) ∧
    (p.checkWin = true → iterativeIDAStar (fuel + 1) db p = some [] ∧
      idaStar fuel db p = some (.value [])) := by
  refine ⟨?_, ?_⟩
  · intro hs
    rw [iterativeLoop_succ_eq, hs]
    simp
  · intro hwin
    constructor
    · unfold iterativeIDAStar
      rw [iterativeLoop_succ_eq, iterativePass_cons]
      simp [hwin]
    · unfold idaStar
      rw [if_pos hwin]

theorem no_solution_returns_empty_witness :
    iterativeLoop ⟨[[]], [[("", 100000)]]⟩ ⟨2, [[2, 1], [3, 0]], 1, 1⟩ 8 (0 + 1) 100000
      = some [] :=
  (no_solution_returns_empty ⟨[[]], [[("", 100000)]]⟩ 8 0 ⟨2, [[2, 1], [3, 0]], 1, 1⟩
    ⟨2, [[1, 2], [3, 0]], 1, 1⟩ 100000).1 (by decide)

/-! ### The solve boundary and the loader -/

/-- C15, the code at a failing input: for the four rows
`1 2 3 4 / 5 6 7 / 9 10 11 12 / 13 14 15 0` the shape test, which looks at the
number of rows and at the first row only, does not reject; the copy loop then
reads `matrix[1][3]`, a cell the input does not have, so neither boundary
function returns the shape error. -/
theorem shape_test_misses_short_row (fuel : Nat) (old : PatternDB) (asset : Asset) :
    shapeRejected [[1, 2, 3, 4], [5, 6, 7], [9, 10, 11, 12], [13, 14, 15, 0]] = false ∧
    readCell [[1, 2, 3, 4], [5, 6, 7], [9, 10, 11, 12], [13, 14, 15, 0]] 1 3 = none ∧
    fillPuzzle [[1, 2, 3, 4], [5, 6, 7], [9, 10, 11, 12], [13, 14, 15, 0]] = none ∧
    solveThread fuel old asset [[1, 2, 3, 4], [5, 6, 7], [9, 10, 11, 12], [13, 14, 15, 0]]
      ≠ some "Error: La matriz debe ser 4x4." ∧
    solvePuzzle fuel old asset [[1, 2, 3, 4], [5, 6, 7], [9, 10, 11, 12], [13, 14, 15, 0]]
      ≠ some "Error: La matriz debe ser 4x4." := by
  have h1 : shapeRejected [[1, 2, 3, 4], [5, 6, 7], [9, 10, 11, 12], [13, 14, 15, 0]] = false := by
    decide
  have h2 : fillPuzzle [[1, 2, 3, 4], [5, 6, 7], [9, 10, 11, 12], [13, 14, 15, 0]] = none := by
    decide
  refine ⟨h1, by decide, h2, ?_, ?_⟩
  · unfold solveThread
    rw [h1, h2]
    simp
  · unfold solvePuzzle
    rw [h1, h2]
    simp

/-- C17, the code at a failing input: `loadPatternDB` compares no lengths.  Every
parsed document is accepted and its two arrays stored as they are; for the
document with one group and no table it returns true and leaves `g_groups` of
length 1 and `g_patternDbDict` of length 0, so that the index `0` that `hScore`
reads is not in range. -/
theorem loadPatternDB_accepts_mismatch (old : PatternDB) :
    (∀ j : PatternDoc, loadPatternDB old (.doc j) = (true, ⟨j.groups, j.patternDbDict⟩)) ∧
    (loadPatternDB old (.doc ⟨[[1, 2, 3]], []⟩)).1 = true ∧
    (loadPatternDB old (.doc ⟨[[1, 2, 3]], []⟩)).2.groups.length = 1 ∧
    (loadPatternDB old (.doc ⟨[[1, 2, 3]], []⟩)).2.dicts.length = 0 ∧
    (loadPatternDB old (.doc ⟨[[1, 2, 3]], []⟩)).2.dicts[0]? = none :=
  ⟨fun _ => rfl, rfl, rfl, rfl, rfl⟩

theorem readCell_of_4x4 {matrix : List (List Int)}
    (hm : matrix.length = 4 ∧ ∀ row ∈ matrix, row.length = 4) {i j : Nat} (hi : i < 4)
    (hj : j < 4) : readCell matrix i j = some (getCell matrix i j) := by
  obtain ⟨h1, h2, e⟩ := getCell_eq_getElem hm hi hj
  unfold readCell
  rw [List.getElem?_eq_getElem h1]
  simp only
  rw [List.getElem?_eq_getElem h2, e]

/-- What the copy loop has established once the cells in `W` are written. -/
theorem fill_step {matrix : List (List Int)}
    (hm : matrix.length = 4 ∧ ∀ row ∈ matrix, row.length = 4) {i j : Nat} (hi : i < 4)
    (hj : j < 4) (W : Nat → Nat → Prop) (puzzle : Puzzle)
    (hI : FillInv matrix W puzzle) :
    ∃ puzzle', (match readCell matrix i j with
        | none => none
        | some v =>
          let puzzle1 : Puzzle := { puzzle with board := setCell puzzle.board i j v }
          some (if v = 0 then { puzzle1 with blankRow := (i : Int), blankCol := (j : Int) }
            else puzzle1)) = some puzzle' ∧
      FillInv matrix (fun a b => W a b ∨ (a = i ∧ b = j)) puzzle' := by
  obtain ⟨hs, hsh, hw, hb⟩ := hI
  rw [readCell_of_4x4 hm hi hj]
  simp only
  have hcells : ∀ a b, (W a b ∨ (a = i ∧ b = j)) →
      getCell (setCell puzzle.board i j (getCell matrix i j)) a b = getCell matrix a b := by
    intro a b hab
    rw [getCell_setCell_shaped hsh hi hj]
    by_cases h : a = i ∧ b = j
    · rw [if_pos h, h.1, h.2]
    · rw [if_neg h]
      rcases hab with h' | h'
      · exact hw a b h'
      · exact absurd h' h
  by_cases hz : getCell matrix i j = 0
  · rw [if_pos hz]
    refine ⟨_, rfl, hs, shaped_setCell hsh _ _ _, hcells, ?_⟩
    exact Or.inr ⟨i, j, hi, hj, rfl, rfl, hz⟩
  · rw [if_neg hz]
    refine ⟨_, rfl, hs, shaped_setCell hsh _ _ _, hcells, ?_⟩
    rcases hb with ⟨h1, h2, h3⟩ | h
    · refine Or.inl ⟨h1, h2, ?_⟩
      intro a b hab
      rcases hab with h' | ⟨rfl, rfl⟩
      · exact h3 a b h'
      · exact hz
    · exact Or.inr h

theorem fill_inner {matrix : List (List Int)}
    (hm : matrix.length = 4 ∧ ∀ row ∈ matrix, row.length = 4) {i : Nat} (hi : i < 4) :
    ∀ (js : List Nat) (W : Nat → Nat → Prop) (puzzle : Puzzle), (∀ j ∈ js, j < 4) →
      FillInv matrix W puzzle →
      ∃ puzzle', js.foldlM (fun (puzzle : Puzzle) (j : Nat) =>
          match readCell matrix i j with
          | none => none
          | some v =>
            let puzzle1 : Puzzle := { puzzle with board := setCell puzzle.board i j v }
            some (if v = 0 then { puzzle1 with blankRow := (i : Int), blankCol := (j : Int) }
              else puzzle1)) puzzle = some puzzle' ∧
        FillInv matrix (fun a b => W a b ∨ (a = i ∧ b ∈ js)) puzzle' := by
  intro js
  induction js with
  | nil =>
    intro W puzzle _ hI
    refine ⟨puzzle, rfl, ?_⟩
    have : (fun a b => W a b ∨ (a = i ∧ b ∈ ([] : List Nat))) = W := by
      funext a b; simp
    rw [this]; exact hI
  | cons j js ih =>
    intro W puzzle hjs hI
    obtain ⟨p1, h1, hI1⟩ := fill_step hm hi (hjs j (List.mem_cons_self _ _)) W puzzle hI
    obtain ⟨p2, h2, hI2⟩ := ih _ p1 (fun j' hj' => hjs j' (List.mem_cons_of_mem _ hj')) hI1
    refine ⟨p2, ?_, ?_⟩
    · rw [List.foldlM_cons, h1]
      exact h2
    · have : (fun a b => W a b ∨ (a = i ∧ b ∈ j :: js)) =
          (fun a b => (W a b ∨ (a = i ∧ b = j)) ∨ (a = i ∧ b ∈ js)) := by
        funext a b
        simp only [List.mem_cons, eq_iff_iff]
        tauto
      rw [this]; exact hI2

theorem fill_outer {matrix : List (List Int)}
    (hm : matrix.length = 4 ∧ ∀ row ∈ matrix, row.length = 4) :
    ∀ (rows : List Nat) (W : Nat → Nat → Prop) (puzzle : Puzzle), (∀ i ∈ rows, i < 4) →
      FillInv matrix W puzzle →
      ∃ puzzle', rows.foldlM (fun puzzle (i : Nat) =>
          (List.range 4).foldlM (fun (puzzle : Puzzle) (j : Nat) =>
            match readCell matrix i j with
            | none => none
            | some v =>
              let puzzle1 : Puzzle := { puzzle with board := setCell puzzle.board i j v }
              some (if v = 0 then { puzzle1 with blankRow := (i : Int), blankCol := (j : Int) }
                else puzzle1)) puzzle) puzzle = some puzzle' ∧
        FillInv matrix (fun a b => W a b ∨ (a ∈ rows ∧ b < 4)) puzzle' := by
  intro rows
  induction rows with
  | nil =>
    intro W puzzle _ hI
    refine ⟨puzzle, rfl, ?_⟩
    have : (fun a b => W a b ∨ (a ∈ ([] : List Nat) ∧ b < 4)) = W := by
      funext a b; simp
    rw [this]; exact hI
  | cons i rows ih =>
    intro W puzzle hrows hI
    obtain ⟨p1, h1, hI1⟩ := fill_inner hm (hrows i (List.mem_cons_self _ _)) (List.range 4) W
      puzzle (fun j hj => List.mem_range.1 hj) hI
    obtain ⟨p2, h2, hI2⟩ := ih _ p1 (fun i' hi' => hrows i' (List.mem_cons_of_mem _ hi')) hI1
    refine ⟨p2, ?_, ?_⟩
    · rw [List.foldlM_cons, h1]
      exact h2
    · have : (fun a b => W a b ∨ (a ∈ i :: rows ∧ b < 4)) =
          (fun a b => (W a b ∨ (a = i ∧ b ∈ List.range 4)) ∨ (a ∈ rows ∧ b < 4)) := by
        funext a b
        simp only [List.mem_cons, List.mem_range, eq_iff_iff]
        tauto
      rw [this]; exact hI2

/-- On four rows of four integers the copy loop reads no missing cell and builds
the puzzle whose board is the input, whatever the values. -/
theorem fillPuzzle_of_4x4 {matrix : List (List Int)}
    (hm : matrix.length = 4 ∧ ∀ row ∈ matrix, row.length = 4) :
    ∃ puzzle, fillPuzzle matrix = some puzzle ∧ puzzle.boardSize = 4 ∧ puzzle.board = matrix ∧
      ((puzzle.blankRow = 3 ∧ puzzle.blankCol = 3 ∧
          ∀ a b, a < 4 → b < 4 → getCell matrix a b ≠ 0) ∨
        ∃ r c : Nat, r < 4 ∧ c < 4 ∧ puzzle.blankRow = r ∧ puzzle.blankCol = c ∧
          getCell matrix r c = 0) := by
  have h0 : FillInv matrix (fun _ _ => False) (Puzzle.new 4) :=
    ⟨rfl, new_shaped 4, fun _ _ h => h.elim, Or.inl ⟨rfl, rfl, fun _ _ h => h.elim⟩⟩
  obtain ⟨puzzle, hf, hs, hsh, hw, hb⟩ := fill_outer hm (List.range 4) _ (Puzzle.new 4)
    (fun i hi => List.mem_range.1 hi) h0
  refine ⟨puzzle, hf, hs, ?_, ?_⟩
  · apply board_ext hsh hm
    intro i j hi hj
    exact hw i j (Or.inr ⟨List.mem_range.2 hi, hj⟩)
  · rcases hb with ⟨h1, h2, h3⟩ | h
    · exact Or.inl ⟨h1, h2, fun a b ha hb' => h3 a b (Or.inr ⟨List.mem_range.2 ha, hb'⟩)⟩
    · exact Or.inr h

/-- C16 fails as stated: the rows `1 2 3 4 / 5 6 7 8 / 9 10 11 12 / 13 14 15 15` are
not a permutation of `0..15` (no blank, `15` twice), yet with a database loaded
both boundary functions run the search and return the rendering of a path, not
an error. -/
theorem values_unchecked_counterexample :
    ¬ List.Perm ([[1, 2, 3, 4], [5, 6, 7, 8], [9, 10, 11, 12], [13, 14, 15, 15]] :
        List (List Int)).flatten ((List.range 16).map fun (k : Nat) => (k : Int)) ∧
    solveThread 1 ⟨[], []⟩ (.doc ⟨[[1, 2, 3]], [[]]⟩)
        [[1, 2, 3, 4], [5, 6, 7, 8], [9, 10, 11, 12], [13, 14, 15, 15]]
      = some "Paso 0:\n1\t2\t3\t4\t\n5\t6\t7\t8\t\n9\t10\t11\t12\t\n13\t14\t15\t15\t\n\n" ∧
    solvePuzzle 1 ⟨[], []⟩ (.doc ⟨[[1, 2, 3]], [[]]⟩)
        [[1, 2, 3, 4], [5, 6, 7, 8], [9, 10, 11, 12], [13, 14, 15, 15]]
      = some "Paso 0:\n1\t2\t3\t4\t\n5\t6\t7\t8\t\n9\t10\t11\t12\t\n13\t14\t15\t15\t\n\n" := by
  refine ⟨by decide, by decide, by decide⟩

/-- C16, amended: the boundary checks the shape only.  For every input of four
rows of four integers, whatever its values, the copy loop builds the puzzle
whose board is the input, with the blank cached on a cell holding `0` when
there is one and left at `(3,3)` otherwise; once the database is loaded the
boundary runs the search on that puzzle and returns the rendering of the path
the search returns. -/
theorem boundary_accepts_any_values (matrix : List (List Int)) (hrows : matrix.length = 4)
    (hcols : ∀ row ∈ matrix, row.length = 4) :
    ∃ puzzle, fillPuzzle matrix = some puzzle ∧ puzzle.boardSize = 4 ∧ puzzle.board = matrix ∧
      ((puzzle.blankRow = 3 ∧ puzzle.blankCol = 3 ∧
          ∀ a b, a < 4 → b < 4 → getCell matrix a b ≠ 0) ∨
        ∃ r c : Nat, r < 4 ∧ c < 4 ∧ puzzle.blankRow = r ∧ puzzle.blankCol = c ∧
          getCell matrix r c = 0) ∧
      (∀ fuel old j, solveThread fuel old (.doc j) matrix =
          (iterativeIDAStar fuel ⟨j.groups, j.patternDbDict⟩ puzzle).map
            (fun moves => formatSteps (reconstructPath puzzle moves)) ∧
        ∀ moves, idaStar fuel ⟨j.groups, j.patternDbDict⟩ puzzle = some (.value moves) →
          solvePuzzle fuel old (.doc j) matrix =
            some (formatSteps (reconstructPath puzzle moves))) := by
  obtain ⟨puzzle, hf, hs, hb, hz⟩ := fillPuzzle_of_4x4 ⟨hrows, hcols⟩
  have hshape : shapeRejected matrix = false := by
    unfold shapeRejected
    have h0 : (matrix.getD 0 []).length = 4 := length_getD_of_shaped ⟨hrows, hcols⟩ (by omega)
    rw [hrows, h0]
    rfl
  refine ⟨puzzle, hf, hs, hb, hz, ?_⟩
  intro fuel old j
  constructor
  · unfold solveThread
    simp only [hshape, hf, loadPatternDB, Bool.false_eq_true, if_false]
    cases iterativeIDAStar fuel ⟨j.groups, j.patternDbDict⟩ puzzle <;> rfl
  · intro moves hm
    unfold solvePuzzle
    simp only [hshape, hf, loadPatternDBFromFile, Bool.false_eq_true, if_false, hm]

theorem boundary_accepts_any_values_witness :
    ∃ puzzle, fillPuzzle [[1, 2, 3, 4], [5, 6, 7, 8], [9, 10, 11, 12], [13, 14, 15, 15]]
        = some puzzle ∧ puzzle.boardSize = 4 ∧
      puzzle.board = [[1, 2, 3, 4], [5, 6, 7, 8], [9, 10, 11, 12], [13, 14, 15, 15]] :=
  (boundary_accepts_any_values [[1, 2, 3, 4], [5, 6, 7, 8], [9, 10, 11, 12], [13, 14, 15, 15]]
    rfl (by decide)).imp fun _ h => ⟨h.1, h.2.1, h.2.2.1⟩

/-! ### Immediate-reversal pruning -/

theorem noImmediateReversal_append {dirs : List Dir} {d : Dir}
    (h : NoImmediateReversal dirs) (hd : isReverse d dirs = false) :
    NoImmediateReversal (dirs ++ [d]) := by
  unfold NoImmediateReversal at h ⊢
  rw [List.chain'_append]
  refine ⟨h, List.chain'_singleton _, ?_⟩
  intro x hx y hy
  simp only [List.head?_cons, Option.mem_def, Option.some.injEq] at hy
  subst hy
  unfold isReverse at hd
  rw [Option.mem_def] at hx
  rw [hx] at hd
  simpa using hd

theorem noImmediateReversal_dropLast {dirs : List Dir} (h : NoImmediateReversal dirs) :
    NoImmediateReversal dirs.dropLast :=
  List.Chain'.prefix h (List.dropLast_prefix dirs)

theorem searchLoopCopy_noReversal {rec : List Puzzle → Int → Int → List Dir → Option CopyOut}
    (cur : Puzzle) (g bound : Int)
    (hrec : ∀ path g' dirs out, rec path g' bound dirs = some out → NoImmediateReversal dirs →
      NoImmediateReversal out.dirs) :
    ∀ (rest : List Dir) (m : Int) (path : List Puzzle) (dirs : List Dir) (out : CopyOut),
      searchLoopCopy rec cur g bound rest m path dirs = some out → NoImmediateReversal dirs →
      NoImmediateReversal out.dirs := by
  intro rest
  induction rest with
  | nil =>
    intro m path dirs out h hd
    rw [searchLoopCopy_nil] at h
    cases h
    exact hd
  | cons d rest ih =>
    intro m path dirs out h hd
    rw [searchLoopCopy_cons] at h
    by_cases h1 : isReverse d dirs = true
    · rw [if_pos h1] at h; exact ih _ _ _ _ h hd
    · rw [if_neg h1] at h
      by_cases h2 : (cur.simulateMove d).1 = false
      · rw [if_pos h2] at h; exact ih _ _ _ _ h hd
      · rw [if_neg h2] at h
        cases hc : rec (path ++ [(cur.simulateMove d).2]) (g + 1) bound (dirs ++ [d]) with
        | none => rw [hc] at h; exact Option.noConfusion h
        | some o =>
          rw [hc] at h
          simp only at h
          have ho := hrec _ _ _ _ hc (noImmediateReversal_append hd (by simpa using h1))
          by_cases h3 : o.t = -1
          · rw [if_pos h3] at h
            cases h
            exact ho
          · rw [if_neg h3] at h
            exact ih _ _ _ _ h (noImmediateReversal_dropLast ho)

theorem searchCopy_noReversal (db : PatternDB) (bound : Int) :
    ∀ (n : Nat) (path : List Puzzle) (g : Int) (dirs : List Dir) (out : CopyOut),
      searchCopy db n path g bound dirs = some out → NoImmediateReversal dirs →
      NoImmediateReversal out.dirs := by
  intro n
  induction n with
  | zero => intro path g dirs out h; exact Option.noConfusion h
  | succ n ih =>
    intro path g dirs out h hd
    cases hl : path.getLast? with
    | none =>
      unfold searchCopy at h
      rw [hl] at h
      exact Option.noConfusion h
    | some cur =>
      rw [searchCopy_succ_eq db n hl] at h
      by_cases h1 : g + hScore db cur > bound
      · rw [if_pos h1] at h; cases h; exact hd
      · rw [if_neg h1] at h
        by_cases h2 : cur.checkWin = true
        · rw [if_pos h2] at h; cases h; exact hd
        · rw [if_neg h2] at h
          exact searchLoopCopy_noReversal cur g bound (fun path' g' dirs' o ho => ih path' g' dirs' o ho)
            _ _ _ _ _ h hd

theorem idaLoopCopy_noReversal (db : PatternDB) (n : Nat) :
    ∀ (k : Nat) (path : List Puzzle) (dirs : List Dir) (bound : Int) (r : List Dir),
      idaLoopCopy db n k path dirs bound = some r → NoImmediateReversal dirs →
      NoImmediateReversal r := by
  intro k
  induction k with
  | zero => intro path dirs bound r h; exact Option.noConfusion h
  | succ k ih =>
    intro path dirs bound r h hd
    rw [idaLoopCopy_succ_eq] at h
    cases hs : searchCopy db n path 0 bound dirs with
    | none => rw [hs] at h; exact Option.noConfusion h
    | some out =>
      rw [hs] at h
      simp only at h
      have ho := searchCopy_noReversal db bound n path 0 dirs out hs hd
      by_cases h1 : out.t = -1
      · rw [if_pos h1] at h; cases h; exact ho
      · rw [if_neg h1] at h
        by_cases h2 : out.t = INF
        · rw [if_pos h2] at h; cases h; exact List.chain'_nil
        · rw [if_neg h2] at h
          exact ih _ _ _ _ h ho

theorem iterativePass_noReversal (db : PatternDB) (bound : Int) :
    ∀ (n : Nat) (stack : List Node) (nb : Int) (ms : List Dir) (nb' : Int),
      iterativePass db bound n stack nb = some (some ms, nb') →
      (∀ node ∈ stack, NoImmediateReversal node.moves) → NoImmediateReversal ms := by
  intro n
  induction n with
  | zero =>
    intro stack nb ms nb' h _
    cases stack with
    | nil => rw [iterativePass_nil] at h; cases h
    | cons top rest => unfold iterativePass at h; exact Option.noConfusion h
  | succ n ih =>
    intro stack nb ms nb' h hst
    cases stack with
    | nil => rw [iterativePass_nil] at h; cases h
    | cons top rest =>
      have htop := hst top (List.mem_cons_self _ _)
      have hrest : ∀ node ∈ rest, NoImmediateReversal node.moves :=
        fun node hn => hst node (List.mem_cons_of_mem _ hn)
      have hrest1 : ∀ node ∈ ({ top with dirIndex := top.dirIndex + 1 } : Node) :: rest,
          NoImmediateReversal node.moves := by
        intro node hn
        rcases List.mem_cons.1 hn with rfl | hn
        · exact htop
        · exact hrest node hn
      rw [iterativePass_cons] at h
      split_ifs at h with h1 h2 h3 h4 h5
      · exact ih _ _ _ _ h hrest
      · cases h; exact htop
      · exact ih _ _ _ _ h hrest
      · exact ih _ _ _ _ h hrest1
      · exact ih _ _ _ _ h hrest1
      · refine ih _ _ _ _ h ?_
        intro node hn
        rcases List.mem_cons.1 hn with rfl | hn
        · exact noImmediateReversal_append htop (by simpa using h4)
        · exact hrest1 node hn

theorem iterativeLoop_noReversal (db : PatternDB) (p : Puzzle) (n : Nat) :
    ∀ (k : Nat) (bound : Int) (r : List Dir),
      iterativeLoop db p n k bound = some r → NoImmediateReversal r := by
  intro k
  induction k with
  | zero => intro bound r h; exact Option.noConfusion h
  | succ k ih =>
    intro bound r h
    rw [iterativeLoop_succ_eq] at h
    cases hs : iterativePass db bound n [⟨p, 0, 0, []⟩] INF with
    | none => rw [hs] at h; exact Option.noConfusion h
    | some res =>
      rw [hs] at h
      obtain ⟨found, nb⟩ := res
      cases found with
      | some ms =>
        cases h
        refine iterativePass_noReversal db bound n _ _ _ _ hs ?_
        intro node hn
        rw [List.mem_singleton] at hn
        subst hn
        exact List.chain'_nil
      | none =>
        simp only at h
        by_cases h2 : nb = INF
        · rw [if_pos h2] at h; cases h; exact List.chain'_nil
        · rw [if_neg h2] at h
          exact ih _ _ h

theorem idaStarCopy_noReversal (db : PatternDB) (p : Puzzle) (fuel : Nat) (r : List Dir)
    (h : idaStarCopy fuel db p = some r) : NoImmediateReversal r := by
  unfold idaStarCopy at h
  by_cases hw : p.checkWin = true
  · rw [if_pos hw] at h; cases h; exact List.chain'_nil
  · rw [if_neg hw] at h
    exact idaLoopCopy_noReversal db fuel fuel _ _ _ _ h List.chain'_nil

/-- C18. Immediate-reversal pruning, for every board and every database: the
move list either solver returns has no move that is the exact reverse of the
move before it, and in both loops a direction that reverses the last move of
the node is skipped without a child being generated. -/
theorem search_never_reverses (db : PatternDB) (p : Puzzle) :
    (∀ fuel r, idaStar fuel db p = some (.value r) → NoImmediateReversal r) ∧
    (∀ fuel r, iterativeIDAStar fuel db p = some r → NoImmediateReversal r) ∧
    (∀ (rec : PathVec → Int → Int → List Dir → Option (Run SearchOut)) (cur : Puzzle)
        (cap0 : Nat) (g bound : Int) (d : Dir) (rest : List Dir) (m : Int) (path : PathVec)
        (dirs : List Dir), isReverse d dirs = true →
      searchLoop rec cur cap0 g bound (d :: rest) m path dirs =
        searchLoop rec cur cap0 g bound rest m path dirs) ∧
    (∀ (bound : Int) (n : Nat) (top : Node) (rest : List Node) (nb : Int),
      ¬ top.g + hScore db top.state > bound → ¬ top.state.checkWin = true →
      ¬ top.dirIndex ≥ DIRECTIONS.length →
      isReverse (DIRECTIONS.getD top.dirIndex (0, 0)) top.moves = true →
      iterativePass db bound (n + 1) (top :: rest) nb =
        iterativePass db bound n ({ top with dirIndex := top.dirIndex + 1 } :: rest) nb) := by
  refine ⟨?_, ?_, ?_, ?_⟩
  · intro fuel r h
    exact idaStarCopy_noReversal db p fuel r (idaStar_value_copy h)
  · intro fuel r h
    exact iterativeLoop_noReversal db p fuel fuel _ _ h
  · intro rec cur cap0 g bound d rest m path dirs h
    rw [searchLoop_cons, if_pos h]
  · intro bound n top rest nb h1 h2 h3 h4
    rw [iterativePass_cons, if_neg h1, if_neg h2, if_neg h3, if_pos h4]

theorem search_never_reverses_witness :
    NoImmediateReversal [(-1, 0), (-1, 0), (0, 1), (1, 0), (1, 0), (0, 1)] :=
  (search_never_reverses ⟨[[1, 2, 3, 4, 5, 6, 7, 8]], [[]]⟩
    ⟨3, [[4, 1, 3], [7, 2, 6], [0, 5, 8]], 2, 0⟩).1 7 _ (by decide)

/-! ### Well-formedness is an invariant -/

theorem count_eq_sum_indicator (x : Int) (l : List Int) :
    (l.count x : Int) = ∑ j ∈ Finset.range l.length, if l.getD j 0 = x then (1 : Int) else 0 := by
  have h1 : (l.count x : Int) = (l.map fun y => if y = x then (1 : Int) else 0).sum := by
    induction l with
    | nil => rfl
    | cons y l ih =>
      rw [List.count_cons, List.map_cons, List.sum_cons, ← ih]
      by_cases hy : y = x
      · subst hy; simp; ring
      · rw [if_neg hy]
        have : (y == x) = false := by simpa using hy
        simp [this]
  rw [h1, ← sum_map_range_eq_finset, map_range_getD (fun y => if y = x then (1 : Int) else 0) 0 l]

/-- The number of cells of a grid that hold `x`. -/
theorem count_flatten_eq_sum {b : List (List Int)} {n : Nat}
    (hb : b.length = n ∧ ∀ row ∈ b, row.length = n) (x : Int) :
    (b.flatten.count x : Int) =
      ∑ c ∈ Finset.range n ×ˢ Finset.range n, if getCell b c.1 c.2 = x then (1 : Int) else 0 := by
  rw [List.count_flatten, Nat.cast_list_sum, List.map_map, Finset.sum_product]
  have h1 := map_range_getD (fun row : List Int => ((row.count x : Nat) : Int)) [] b
  rw [hb.1] at h1
  have h2 : (List.map (Nat.cast ∘ List.count x) b) =
      List.map (fun row : List Int => ((row.count x : Nat) : Int)) b := rfl
  rw [h2, ← h1, sum_map_range_eq_finset]
  apply Finset.sum_congr rfl
  intro i hi
  rw [Finset.mem_range] at hi
  rw [count_eq_sum_indicator, length_getD_of_shaped hb hi]
  rfl

theorem perm_of_cell_counts {b b' : List (List Int)} {n : Nat}
    (hb : b.length = n ∧ ∀ row ∈ b, row.length = n)
    (hb' : b'.length = n ∧ ∀ row ∈ b', row.length = n)
    (h : ∀ x : Int,
      ∑ c ∈ Finset.range n ×ˢ Finset.range n, (if getCell b' c.1 c.2 = x then (1 : Int) else 0) =
      ∑ c ∈ Finset.range n ×ˢ Finset.range n, if getCell b c.1 c.2 = x then (1 : Int) else 0) :
    List.Perm b'.flatten b.flatten := by
  rw [List.perm_iff_count]
  intro x
  have := h x
  rw [← count_flatten_eq_sum hb, ← count_flatten_eq_sum hb'] at this
  exact_mod_cast this

theorem move_flatten_perm {p : Puzzle} (hp : p.BlankCached) (dx dy : Int) :
    List.Perm (p.move dx dy).2.board.flatten p.board.flatten := by
  by_cases hin : (p.blankRow + dx < 0 ∨ p.boardSize ≤ p.blankRow + dx ∨
      p.blankCol + dy < 0 ∨ p.boardSize ≤ p.blankCol + dy)
  · rw [move_outside hin]
  · have h1 : 0 ≤ p.blankRow + dx := by omega
    have h2 : p.blankRow + dx < p.boardSize := by omega
    have h3 : 0 ≤ p.blankCol + dy := by omega
    have h4 : p.blankCol + dy < p.boardSize := by omega
    have hp' := hp
    obtain ⟨hsh, hb0, hb1, hb2, hb3, hz⟩ := hp'
    have hsh' : (p.move dx dy).2.board.length = p.boardSize.toNat ∧
        ∀ row ∈ (p.move dx dy).2.board, row.length = p.boardSize.toNat := by
      have := move_shaped hsh dx dy
      unfold Puzzle.Shaped at this
      rw [move_boardSize] at this
      exact this
    apply perm_of_cell_counts hsh hsh'
    intro x
    have ha : (p.blankRow.toNat, p.blankCol.toNat) ∈
        Finset.range p.boardSize.toNat ×ˢ Finset.range p.boardSize.toNat := by
      rw [Finset.mem_product, Finset.mem_range, Finset.mem_range]; constructor <;> omega
    have hb : ((p.blankRow + dx).toNat, (p.blankCol + dy).toNat) ∈
        Finset.range p.boardSize.toNat ×ˢ Finset.range p.boardSize.toNat := by
      rw [Finset.mem_product, Finset.mem_range, Finset.mem_range]; constructor <;> omega
    by_cases hab : (p.blankRow.toNat, p.blankCol.toNat) =
        ((p.blankRow + dx).toNat, (p.blankCol + dy).toNat)
    · apply Finset.sum_congr rfl
      intro c _
      have hcell : getCell (p.move dx dy).2.board c.1 c.2 = getCell p.board c.1 c.2 := by
        rw [getCell_move hp h1 h2 h3 h4]
        rw [Prod.mk.injEq] at hab
        by_cases hc : c.1 = (p.blankRow + dx).toNat ∧ c.2 = (p.blankCol + dy).toNat
        · rw [if_pos hc, hc.1, hc.2, ← hab.1, ← hab.2, hz]
        · rw [if_neg hc, if_neg (by rw [hab.1, hab.2]; exact hc)]
      rw [hcell]
    · rw [sum_sub_sum_two_points ha hb hab
        (fun c => if getCell (p.move dx dy).2.board c.1 c.2 = x then (1 : Int) else 0)
        (fun c => if getCell p.board c.1 c.2 = x then (1 : Int) else 0)]
      · have ea : getCell (p.move dx dy).2.board p.blankRow.toNat p.blankCol.toNat =
            getCell p.board (p.blankRow + dx).toNat (p.blankCol + dy).toNat := by
          rw [getCell_move hp h1 h2 h3 h4, if_neg (fun h => hab (by rw [h.1, h.2])),
            if_pos ⟨rfl, rfl⟩]
        have eb : getCell (p.move dx dy).2.board (p.blankRow + dx).toNat
            (p.blankCol + dy).toNat = 0 := by
          rw [getCell_move hp h1 h2 h3 h4, if_pos ⟨rfl, rfl⟩]
        simp only
        rw [ea, eb, hz]
        ring
      · intro c _ hca hcb
        have hcell : getCell (p.move dx dy).2.board c.1 c.2 = getCell p.board c.1 c.2 := by
          rw [getCell_move hp h1 h2 h3 h4, if_neg (fun h => hcb (Prod.ext h.1 h.2)),
            if_neg (fun h => hca (Prod.ext h.1 h.2))]
        show (if getCell (p.move dx dy).2.board c.1 c.2 = x then (1 : Int) else 0) =
          if getCell p.board c.1 c.2 = x then (1 : Int) else 0
        rw [hcell]

theorem move_wellFormed {p : Puzzle} (hp : p.WellFormed) (dx dy : Int) :
    (p.move dx dy).2.WellFormed := by
  refine ⟨move_blankCached hp.1 dx dy, ?_⟩
  unfold Puzzle.IsPermutation
  rw [move_boardSize]
  exact (move_flatten_perm hp.1 dx dy).trans hp.2

theorem length_flatten_of_rows {b : List (List Int)} {n : Nat}
    (hb : ∀ row ∈ b, row.length = n) : b.flatten.length = b.length * n := by
  induction b with
  | nil => simp
  | cons r b ih =>
    rw [List.flatten_cons, List.length_append, List.length_cons,
      ih (fun row hrow => hb row (List.mem_cons_of_mem _ hrow)), hb r (List.mem_cons_self _ _)]
    ring

theorem getCell_mem_flatten {b : List (List Int)} {n : Nat}
    (hb : b.length = n ∧ ∀ row ∈ b, row.length = n) {i j : Nat} (hi : i < n) (hj : j < n) :
    getCell b i j ∈ b.flatten := by
  obtain ⟨h1, h2, e⟩ := getCell_eq_getElem hb hi hj
  rw [e, List.mem_flatten]
  exact ⟨b[i], List.getElem_mem h1, List.getElem_mem h2⟩

theorem new_isPermutation {N : Int} (hN : 0 < N) : (Puzzle.new N).IsPermutation := by
  unfold Puzzle.IsPermutation
  have hsize : (Puzzle.new N).boardSize = N := rfl
  rw [hsize]
  have hsh : (Puzzle.new N).board.length = N.toNat ∧
      ∀ row ∈ (Puzzle.new N).board, row.length = N.toNat := new_shaped N
  have hnd : ((List.range (N.toNat * N.toNat)).map fun (k : Nat) => (k : Int)).Nodup :=
    List.Nodup.map (fun a b h => by exact_mod_cast h) (List.nodup_range _)
  have hsub : ((List.range (N.toNat * N.toNat)).map fun (k : Nat) => (k : Int)) ⊆
      (Puzzle.new N).board.flatten := by
    intro x hx
    rw [List.mem_map] at hx
    obtain ⟨k, hk, rfl⟩ := hx
    rw [List.mem_range] at hk
    have hn : 0 < N.toNat := by omega
    have hNn : (N.toNat : Int) = N := Int.toNat_of_nonneg (le_of_lt hN)
    by_cases hk0 : k = 0
    · subst hk0
      have h1 : N.toNat - 1 < N.toNat := by omega
      have := getCell_mem_flatten hsh h1 h1
      rw [getCell_new N h1 h1, if_pos (by constructor <;> omega)] at this
      exact this
    · have hi : (k - 1) / N.toNat < N.toNat := by
        rw [Nat.div_lt_iff_lt_mul hn]; omega
      have hj : (k - 1) % N.toNat < N.toNat := Nat.mod_lt _ hn
      have hdm := Nat.div_add_mod (k - 1) N.toNat
      have := getCell_mem_flatten hsh hi hj
      rw [getCell_new N hi hj] at this
      have hne : ¬ ((((k - 1) / N.toNat : Nat) : Int) = N - 1 ∧
          (((k - 1) % N.toNat : Nat) : Int) = N - 1) := by
        rintro ⟨e1, e2⟩
        have e1' : (k - 1) / N.toNat = N.toNat - 1 := by omega
        have e2' : (k - 1) % N.toNat = N.toNat - 1 := by omega
        rw [e1', e2'] at hdm
        have : N.toNat * (N.toNat - 1) + (N.toNat - 1) + 1 = N.toNat * N.toNat := by
          cases h : N.toNat with
          | zero => omega
          | succ m => simp; ring
        omega
      rw [if_neg hne] at this
      have hval : (((k - 1) / N.toNat : Nat) : Int) * N + (((k - 1) % N.toNat : Nat) : Int) + 1 =
          (k : Int) := by
        have := congrArg (Nat.cast : Nat → Int) hdm
        rw [Nat.cast_add, Nat.cast_mul, hNn] at this
        have hk1 : ((k - 1 : Nat) : Int) = (k : Int) - 1 := by omega
        rw [hk1] at this
        linarith
      rw [hval] at this
      exact this
  have hlen : (Puzzle.new N).board.flatten.length ≤
      ((List.range (N.toNat * N.toNat)).map fun (k : Nat) => (k : Int)).length := by
    rw [length_flatten_of_rows hsh.2, hsh.1, List.length_map, List.length_range]
  exact ((List.subperm_of_subset hnd hsub).perm_of_length_le hlen).symm

theorem new_blankCached {N : Int} (hN : 0 < N) : (Puzzle.new N).BlankCached := by
  have hsize : (Puzzle.new N).boardSize = N := rfl
  have hr : (Puzzle.new N).blankRow = N - 1 := rfl
  have hc : (Puzzle.new N).blankCol = N - 1 := rfl
  refine ⟨new_shaped N, ?_, ?_, ?_, ?_, ?_⟩
  · rw [hr]; omega
  · rw [hr, hsize]; omega
  · rw [hc]; omega
  · rw [hc, hsize]; omega
  · rw [hr, hc]
    have h1 : (N - 1).toNat < N.toNat := by omega
    rw [getCell_new N h1 h1, if_pos (by constructor <;> omega)]

theorem new_wellFormed {N : Int} (hN : 0 < N) : (Puzzle.new N).WellFormed :=
  ⟨new_blankCached hN, new_isPermutation hN⟩

theorem wellFormed_count {p : Puzzle} (hp : p.WellFormed) {k : Nat}
    (hk : k < p.boardSize.toNat * p.boardSize.toNat) : p.board.flatten.count (k : Int) = 1 := by
  rw [List.Perm.count_eq hp.2]
  apply List.count_eq_one_of_mem
  · exact List.Nodup.map (fun a b h => by exact_mod_cast h) (List.nodup_range _)
  · rw [List.mem_map]
    exact ⟨k, List.mem_range.2 hk, rfl⟩

/-- C13. Board well-formedness is an invariant. For a size `0 < N` the state built by
the constructor `Puzzle(N)` is well-formed: the board is an `N × N` grid whose values are a
permutation of `0 .. N*N-1` and the cached blank coordinates point at the cell holding `0`.
For every well-formed state and every displacement `(dx, dy)`, the state left by `move`
(whether it answers `true` or `false`) and the state handed back by `simulateMove` are
again well-formed. In a well-formed state
every value `0 .. N*N-1` occupies exactly one cell, so exactly one cell holds `0`. -/
theorem wellFormed_invariant (N : Int) (hN : 0 < N) :
    (Puzzle.new N).WellFormed ∧
    (∀ (p : Puzzle), p.WellFormed → ∀ dx dy : Int,
      (p.move dx dy).2.WellFormed ∧ (p.simulateMove (dx, dy)).2.WellFormed) ∧
    (∀ (p : Puzzle), p.WellFormed → ∀ k : Nat, k < p.boardSize.toNat * p.boardSize.toNat →
      p.board.flatten.count (k : Int) = 1) :=
  ⟨new_wellFormed hN, fun _ hp dx dy => ⟨move_wellFormed hp dx dy, move_wellFormed hp dx dy⟩,
    fun _ hp _ hk => wellFormed_count hp hk⟩

theorem wellFormed_invariant_witness :
    (0 : Int) < 4 ∧ (Puzzle.new 4).WellFormed ∧
    ((Puzzle.new 4).move (-1) 0).2.WellFormed ∧
    ((Puzzle.new 4).move 1 0).2.WellFormed ∧
    ((Puzzle.new 4).move 1 0).1 = false ∧
    (Puzzle.new 4).board.flatten.count 0 = 1 :=
  ⟨by decide, (wellFormed_invariant 4 (by decide)).1,
    ((wellFormed_invariant 4 (by decide)).2.1 _ (wellFormed_invariant 4 (by decide)).1 (-1) 0).1,
    ((wellFormed_invariant 4 (by decide)).2.1 _ (wellFormed_invariant 4 (by decide)).1 1 0).1,
    by decide,
    (wellFormed_invariant 4 (by decide)).2.2 _ (wellFormed_invariant 4 (by decide)).1 0
      (by decide)⟩

/-! ### The range of the estimate -/

theorem cell_range {p : Puzzle} (hp : p.WellFormed) {i j : Nat} (hi : i < p.boardSize.toNat)
    (hj : j < p.boardSize.toNat) :
    0 ≤ getCell p.board i j ∧ getCell p.board i j < p.boardSize * p.boardSize := by
  have hmem := getCell_mem_flatten hp.1.1 hi hj
  have := (List.Perm.mem_iff hp.2).1 hmem
  rw [List.mem_map] at this
  obtain ⟨k, hk, e⟩ := this
  rw [List.mem_range] at hk
  rw [← e]
  have hN : (p.boardSize.toNat : Int) = p.boardSize := Int.toNat_of_nonneg (by omega)
  constructor
  · exact Int.ofNat_nonneg k
  · rw [← hN]
    exact_mod_cast hk

theorem cellCost_le (N : Int) (group : Group) {i j : Nat} (hi : (i : Int) < N)
    (hj : (j : Int) < N) {t : Int} (h0 : 0 ≤ t) (ht : t < N * N) :
    cellCost N group i j t ≤ 2 * N := by
  have hN : 0 < N := by omega
  unfold cellCost
  split
  · rename_i h
    have h1 : 0 ≤ t - 1 := by omega
    have hd0 : 0 ≤ (t - 1).tdiv N := Int.tdiv_nonneg h1 (le_of_lt hN)
    have hdN : (t - 1).tdiv N < N := by
      rw [Int.tdiv_eq_ediv h1 (le_of_lt hN)]
      exact Int.ediv_lt_of_lt_mul hN (by omega)
    have hm0 : 0 ≤ (t - 1).tmod N := Int.tmod_nonneg _ h1
    have hmN : (t - 1).tmod N < N := Int.tmod_lt_of_pos _ hN
    omega
  · omega

theorem manhattan_le {p : Puzzle} (hp : p.WellFormed) (group : Group) :
    manhattan p group ≤ 2 * p.boardSize ^ 3 := by
  rw [manhattan_eq_cellCost]
  have hN : (p.boardSize.toNat : Int) = p.boardSize := Int.toNat_of_nonneg (by
    have := hp.1.2.1
    have := hp.1.2.2.1
    omega)
  have hle : ∀ x ∈ Finset.range p.boardSize.toNat ×ˢ Finset.range p.boardSize.toNat,
      cellCost p.boardSize group x.1 x.2 (getCell p.board x.1 x.2) ≤ 2 * p.boardSize := by
    intro x hx
    rw [Finset.mem_product, Finset.mem_range, Finset.mem_range] at hx
    obtain ⟨h0, ht⟩ := cell_range hp hx.1 hx.2
    exact cellCost_le _ _ (by omega) (by omega) h0 ht
  have := Finset.sum_le_card_nsmul _ _ _ hle
  rw [Finset.card_product, Finset.card_range] at this
  refine le_trans this (le_of_eq ?_)
  rw [nsmul_eq_mul]
  push_cast
  rw [hN]
  ring

/-- A sum of terms of magnitude at most `M` has magnitude at most their number
times `M`. -/
theorem abs_sum_le_length_mul (M : Int) :
    ∀ l : List Int, (∀ x ∈ l, -M ≤ x ∧ x ≤ M) →
      -((l.length : Int) * M) ≤ l.sum ∧ l.sum ≤ (l.length : Int) * M := by
  intro l
  induction l with
  | nil => intro _; simp
  | cons a l ih =>
    intro h
    obtain ⟨h1, h2⟩ := h a (List.mem_cons_self _ _)
    obtain ⟨h3, h4⟩ := ih (fun x hx => h x (List.mem_cons_of_mem _ hx))
    rw [List.sum_cons, List.length_cons]
    push_cast
    constructor <;> nlinarith

theorem sum_nonneg_le_length_mul (M : Int) :
    ∀ l : List Int, (∀ x ∈ l, 0 ≤ x ∧ x ≤ M) → 0 ≤ l.sum ∧ l.sum ≤ (l.length : Int) * M := by
  intro l
  induction l with
  | nil => intro _; simp
  | cons a l ih =>
    intro h
    obtain ⟨h1, h2⟩ := h a (List.mem_cons_self _ _)
    obtain ⟨h3, h4⟩ := ih (fun x hx => h x (List.mem_cons_of_mem _ hx))
    rw [List.sum_cons, List.length_cons]
    push_cast
    constructor <;> nlinarith

theorem dicts_getD_mem_or_nil (db : PatternDB) (i : Nat) :
    db.dicts.getD i [] ∈ db.dicts ∨ db.dicts.getD i [] = [] := by
  rw [List.getD_eq_getElem?_getD]
  by_cases hi : i < db.dicts.length
  · rw [List.getElem?_eq_getElem hi]
    exact Or.inl (List.getElem_mem hi)
  · rw [List.getElem?_eq_none (by omega)]
    exact Or.inr rfl

/-- Every term that `hScore` adds on a well-formed state, a stored value of magnitude
at most `V` or a Manhattan sum, has magnitude at most `max V (2 * N ^ 3)`. -/
theorem hScore_term_range (db : PatternDB) {p : Puzzle} (hp : p.WellFormed) (V : Int)
    (hV : ∀ table ∈ db.dicts, ∀ kv ∈ table, -V ≤ kv.2 ∧ kv.2 ≤ V) (i : Nat) :
    -(max V (2 * p.boardSize ^ 3)) ≤
        (match (db.dicts.getD i []).lookup (p.hash (db.groups.getD i [])) with
          | some v => v
          | none => manhattan p (db.groups.getD i [])) ∧
      (match (db.dicts.getD i []).lookup (p.hash (db.groups.getD i [])) with
          | some v => v
          | none => manhattan p (db.groups.getD i [])) ≤ max V (2 * p.boardSize ^ 3) := by
  cases hl : (db.dicts.getD i []).lookup (p.hash (db.groups.getD i [])) with
  | none =>
    simp only
    have h1 := manhattan_nonneg p (db.groups.getD i [])
    have h2 := manhattan_le hp (db.groups.getD i [])
    have h3 := le_max_right V (2 * p.boardSize ^ 3)
    constructor <;> omega
  | some v =>
    simp only
    obtain ⟨k, hk⟩ := lookup_some_mem _ _ _ hl
    rcases dicts_getD_mem_or_nil db i with hm | hm
    · obtain ⟨h1, h2⟩ := hV _ hm _ hk
      have h3 := le_max_left V (2 * p.boardSize ^ 3)
      constructor <;> omega
    · rw [hm] at hk
      exact absurd hk (List.not_mem_nil _)

/-- The estimate of a well-formed state has magnitude at most the number of groups
times `max V (2 * N ^ 3)`, when the stored values have magnitude at most `V`. -/
theorem hScore_range (db : PatternDB) {p : Puzzle} (hp : p.WellFormed) (V : Int)
    (hV : ∀ table ∈ db.dicts, ∀ kv ∈ table, -V ≤ kv.2 ∧ kv.2 ≤ V) :
    -((db.groups.length : Int) * max V (2 * p.boardSize ^ 3)) ≤ hScore db p ∧
      hScore db p ≤ (db.groups.length : Int) * max V (2 * p.boardSize ^ 3) := by
  rw [hScore_eq_sum]
  have := abs_sum_le_length_mul (max V (2 * p.boardSize ^ 3))
    ((List.range db.groups.length).map fun i =>
      match (db.dicts.getD i []).lookup (p.hash (db.groups.getD i [])) with
      | some v => v
      | none => manhattan p (db.groups.getD i []))
    (by
      intro x hx
      rw [List.mem_map] at hx
      obtain ⟨i, _, rfl⟩ := hx
      exact hScore_term_range db hp V hV i)
  rw [List.length_map, List.length_range] at this
  exact this

theorem applyMoves_wellFormed :
    ∀ (ds : List Dir) {p s : Puzzle}, p.WellFormed → applyMoves p ds = some s →
      s.WellFormed ∧ s.boardSize = p.boardSize := by
  intro ds
  induction ds with
  | nil =>
    intro p s hp h
    cases h
    exact ⟨hp, rfl⟩
  | cons d ds ih =>
    intro p s hp h
    obtain ⟨_, _, h'⟩ := applyMoves_cons_some h
    obtain ⟨h1, h2⟩ := ih (move_wellFormed hp d.1 d.2) h'
    exact ⟨h1, by rw [h2, move_boardSize]⟩

/-! ### C8: the estimate as a sum, within the range of `int` -/

/-- C8, counterexample. Two groups that match no cell, each with a table storing
2000000000 under the empty fingerprint: there are as many tables as groups, the board
is well formed and every stored value fits in an `int`, yet the sum of the stored
values that the claim gives as the estimate is 4000000000, which no `int` holds; the
addition in `hScore` overflows. -/
theorem hScore_eq_spec_counterexample :
    (⟨[[], []], [[("", 2000000000)], [("", 2000000000)]]⟩ : PatternDB).dicts.length
        = (⟨[[], []], [[("", 2000000000)], [("", 2000000000)]]⟩ : PatternDB).groups.length ∧
      (Puzzle.new 2).WellFormed ∧
      (∀ table ∈ (⟨[[], []], [[("", 2000000000)], [("", 2000000000)]]⟩ : PatternDB).dicts,
        ∀ kv ∈ table, IntFits kv.2) ∧
      hScoreSpec ⟨[[], []], [[("", 2000000000)], [("", 2000000000)]]⟩ (Puzzle.new 2)
        = 4000000000 ∧
      ¬ IntFits
        (hScoreSpec ⟨[[], []], [[("", 2000000000)], [("", 2000000000)]]⟩ (Puzzle.new 2)) := by
  refine ⟨rfl, by decide, by decide, by decide, by decide⟩

/-- C8. On a well-formed state, with as many tables as groups, stored values of
magnitude at most `V` and `(number of groups) * max V (2 * N ^ 3)` within the range of
`int`: `hScore` is the sum over the groups, in order, of the stored value when the
fingerprint is present in the group's table and of the group's Manhattan sum
otherwise; `manhattan` is the sum of `|(t-1)/N - i| + |(t-1)%N - j|` over the cells
holding a non-zero tile `t` of the group; the sum over the first `k` groups, which is
what the loop of `hScore` holds after `k` rounds, fits in an `int` for every `k`; and
so does the Manhattan sum of every group. -/
theorem hScore_eq_spec (db : PatternDB) (p : Puzzle)
    (hlen : db.dicts.length = db.groups.length) (hwf : p.WellFormed) (V : Int)
    (hV : ∀ table ∈ db.dicts, ∀ kv ∈ table, -V ≤ kv.2 ∧ kv.2 ≤ V)
    (hfit : (db.groups.length : Int) * max V (2 * p.boardSize ^ 3) ≤ 2147483647) :
    hScore db p = hScoreSpec db p ∧
      (∀ group, manhattan p group = manhattanSpec p group) ∧
      (∀ k, k ≤ db.groups.length → IntFits (hScore ⟨db.groups.take k, db.dicts⟩ p)) ∧
      ∀ group ∈ db.groups, IntFits (manhattan p group) := by
  have hM : 0 ≤ max V (2 * p.boardSize ^ 3) := by
    have h1 := le_max_right V (2 * p.boardSize ^ 3)
    have h2 : 0 < p.boardSize := by
      have := hwf.1.2.1
      have := hwf.1.2.2.1
      omega
    have h3 : 0 < p.boardSize ^ 3 := pow_pos h2 3
    omega
  refine ⟨hScore_eq_hScoreSpec db p hlen, manhattan_eq_spec p, ?_, ?_⟩
  · intro k hk
    have h := hScore_range ⟨db.groups.take k, db.dicts⟩ hwf V hV
    have hl : (⟨db.groups.take k, db.dicts⟩ : PatternDB).groups.length = k := by
      show (db.groups.take k).length = k
      rw [List.length_take]
      omega
    rw [hl] at h
    have hkG : (k : Int) * max V (2 * p.boardSize ^ 3)
        ≤ (db.groups.length : Int) * max V (2 * p.boardSize ^ 3) :=
      mul_le_mul_of_nonneg_right (by exact_mod_cast hk) hM
    unfold IntFits
    constructor <;> omega
  · intro group hg
    have h1 := manhattan_nonneg p group
    have h2 := manhattan_le hwf group
    have h3 := le_max_right V (2 * p.boardSize ^ 3)
    have hG : (1 : Int) ≤ (db.groups.length : Int) := by
      have := List.length_pos_of_mem hg
      omega
    have h4 : 1 * max V (2 * p.boardSize ^ 3)
        ≤ (db.groups.length : Int) * max V (2 * p.boardSize ^ 3) :=
      mul_le_mul_of_nonneg_right hG hM
    unfold IntFits
    constructor <;> omega

theorem hScore_eq_spec_witness :
    hScore ⟨[[1, 2], [3]], [[("1011", 7)], []]⟩ ⟨2, [[0, 3], [1, 2]], 0, 0⟩
        = hScoreSpec ⟨[[1, 2], [3]], [[("1011", 7)], []]⟩ ⟨2, [[0, 3], [1, 2]], 0, 0⟩ ∧
      IntFits (hScore ⟨[[1, 2], [3]], [[("1011", 7)], []]⟩ ⟨2, [[0, 3], [1, 2]], 0, 0⟩) :=
  ⟨(hScore_eq_spec ⟨[[1, 2], [3]], [[("1011", 7)], []]⟩ ⟨2, [[0, 3], [1, 2]], 0, 0⟩ rfl
      (by decide) 7 (by decide) (by decide)).1,
    by decide⟩

/-! ### The one-move scenario -/

theorem manhattan_move_eq {p : Puzzle} (hp : p.BlankCached) {d : Dir} (hd : d ∈ DIRECTIONS)
    (hmv : (p.move d.1 d.2).1 = true) (group : Group) :
    manhattan p group + cellCost p.boardSize group p.blankRow.toNat p.blankCol.toNat
        (movedTile p d) =
      manhattan (p.move d.1 d.2).2 group +
        cellCost p.boardSize group (p.blankRow + d.1).toNat (p.blankCol + d.2).toNat
          (movedTile p d) := by
  obtain ⟨h1, h2, h3, h4⟩ := move_true_iff.1 hmv
  have hp' := hp
  obtain ⟨hsh, hb0, hb1, hb2, hb3, hz⟩ := hp'
  rw [manhattan_eq_cellCost, manhattan_eq_cellCost, move_boardSize]
  have ha : (p.blankRow.toNat, p.blankCol.toNat) ∈
      Finset.range p.boardSize.toNat ×ˢ Finset.range p.boardSize.toNat := by
    rw [Finset.mem_product, Finset.mem_range, Finset.mem_range]; constructor <;> omega
  have hb : ((p.blankRow + d.1).toNat, (p.blankCol + d.2).toNat) ∈
      Finset.range p.boardSize.toNat ×ˢ Finset.range p.boardSize.toNat := by
    rw [Finset.mem_product, Finset.mem_range, Finset.mem_range]; constructor <;> omega
  have hab : (p.blankRow.toNat, p.blankCol.toNat) ≠
      ((p.blankRow + d.1).toNat, (p.blankCol + d.2).toNat) := by
    intro h
    rw [Prod.mk.injEq] at h
    unfold DIRECTIONS at hd
    simp only [List.mem_cons, List.mem_singleton, List.not_mem_nil, or_false] at hd
    rcases hd with rfl | rfl | rfl | rfl <;> simp only at h h1 h3 <;> omega
  rw [sum_sub_sum_two_points ha hb hab
    (fun x => cellCost p.boardSize group x.1 x.2 (getCell p.board x.1 x.2))
    (fun x => cellCost p.boardSize group x.1 x.2 (getCell (p.move d.1 d.2).2.board x.1 x.2))]
  · have ea : getCell (p.move d.1 d.2).2.board p.blankRow.toNat p.blankCol.toNat =
        getCell p.board (p.blankRow + d.1).toNat (p.blankCol + d.2).toNat := by
      rw [getCell_move hp h1 h2 h3 h4, if_neg (fun h => hab (by rw [h.1, h.2])),
        if_pos ⟨rfl, rfl⟩]
    have eb : getCell (p.move d.1 d.2).2.board (p.blankRow + d.1).toNat
        (p.blankCol + d.2).toNat = 0 := by
      rw [getCell_move hp h1 h2 h3 h4, if_pos ⟨rfl, rfl⟩]
    simp only
    rw [ea, eb, hz, cellCost_zero, cellCost_zero]
    unfold movedTile
    ring
  · intro x _ hxa hxb
    rw [getCell_move hp h1 h2 h3 h4, if_neg (fun h => hxb (Prod.ext h.1 h.2)),
      if_neg (fun h => hxa (Prod.ext h.1 h.2))]

theorem dicts_getD_of_empty {db : PatternDB} (hempty : ∀ table ∈ db.dicts, table = [])
    (i : Nat) : db.dicts.getD i [] = [] := by
  rw [List.getD_eq_getElem?_getD]
  by_cases hi : i < db.dicts.length
  · rw [List.getElem?_eq_getElem hi]
    exact hempty _ (List.getElem_mem hi)
  · rw [List.getElem?_eq_none (by omega)]
    rfl

/-- With empty tables the estimate is the sum of the Manhattan sums of the groups. -/
theorem hScore_of_empty_tables {db : PatternDB} (hempty : ∀ table ∈ db.dicts, table = [])
    (s : Puzzle) :
    hScore db s =
      ((List.range db.groups.length).map fun i => manhattan s (db.groups.getD i [])).sum := by
  rw [hScore_eq_sum]
  congr 1
  apply List.map_congr_left
  intro i _
  rw [dicts_getD_of_empty hempty]
  rfl

/-- The pass from the scenario board when the bound admits the board and its right
neighbour, and the pass below its upper neighbour ends without a solution: the right
neighbour is solved and `[(0,1)]` is handed back. -/
theorem scenario_pass (h : Puzzle → Int) (b : Int) (n : Nat)
    (hroot : h (⟨4, [[1, 2, 3, 4], [5, 6, 7, 8], [9, 10, 11, 12], [13, 14, 0, 15]], 3, 2⟩ : Puzzle) ≤ b)
    (hG : 1 + h ((⟨4, [[1, 2, 3, 4], [5, 6, 7, 8], [9, 10, 11, 12], [13, 14, 0, 15]], 3, 2⟩ : Puzzle).simulateMove (0, 1)).2 ≤ b)
    (hu : ∃ t, dfs h b (n + 1) ((⟨4, [[1, 2, 3, 4], [5, 6, 7, 8], [9, 10, 11, 12], [13, 14, 0, 15]], 3, 2⟩ : Puzzle).simulateMove (-1, 0)).2 (0 + 1) ([] ++ [(-1, 0)]) =
      some (.cut t)) :
    dfs h b (n + 2) (⟨4, [[1, 2, 3, 4], [5, 6, 7, 8], [9, 10, 11, 12], [13, 14, 0, 15]], 3, 2⟩ : Puzzle) 0 [] = some (.found [(0, 1)]) := by
  obtain ⟨t, hu⟩ := hu
  rw [dfs_succ_eq, if_neg (by omega), if_neg (by decide)]
  unfold DIRECTIONS
  rw [dfsLoop_cons, if_neg (by decide), if_pos (by decide)]
  rw [dfsLoop_cons, if_neg (by decide), if_neg (by decide), hu]
  simp only
  rw [dfsLoop_cons, if_neg (by decide), if_neg (by decide)]
  rw [dfs_succ_eq, if_neg (by omega), if_pos (by decide)]
  rfl

/-- The pass below the upper neighbour of the scenario board ends without a solution when
the bound is the estimate of the board, or `1`. -/
theorem scenario_up (h : Puzzle → Int) (hnn : ∀ s, 0 ≤ h s) (b : Int)
    (hb : b = h (⟨4, [[1, 2, 3, 4], [5, 6, 7, 8], [9, 10, 11, 12], [13, 14, 0, 15]], 3, 2⟩ : Puzzle) ∨ b = 1)
    (hle : h (⟨4, [[1, 2, 3, 4], [5, 6, 7, 8], [9, 10, 11, 12], [13, 14, 0, 15]], 3, 2⟩ : Puzzle) ≤ h ((⟨4, [[1, 2, 3, 4], [5, 6, 7, 8], [9, 10, 11, 12], [13, 14, 0, 15]], 3, 2⟩ : Puzzle).simulateMove (-1, 0)).2) (n : Nat) :
    ∃ t, dfs h b (n + 2) ((⟨4, [[1, 2, 3, 4], [5, 6, 7, 8], [9, 10, 11, 12], [13, 14, 0, 15]], 3, 2⟩ : Puzzle).simulateMove (-1, 0)).2 (0 + 1) ([] ++ [(-1, 0)]) =
      some (.cut t) := by
  by_cases hf : (0 + 1) + h ((⟨4, [[1, 2, 3, 4], [5, 6, 7, 8], [9, 10, 11, 12], [13, 14, 0, 15]], 3, 2⟩ : Puzzle).simulateMove (-1, 0)).2 > b
  · exact ⟨_, by rw [dfs_succ_eq, if_pos hf]⟩
  · have hb1 : b = 1 := by
      rcases hb with hb | hb
      · omega
      · exact hb
    subst hb1
    obtain ⟨r, hr⟩ := dfs_terminates h hnn 1 (n + 2) ((⟨4, [[1, 2, 3, 4], [5, 6, 7, 8], [9, 10, 11, 12], [13, 14, 0, 15]], 3, 2⟩ : Puzzle).simulateMove (-1, 0)).2 (0 + 1)
      ([] ++ [(-1, 0)]) (by omega)
    cases r with
    | cut t => exact ⟨t, hr⟩
    | found ms =>
      exfalso
      obtain ⟨ds, q, _, _, hq, hwin, hlen⟩ := dfs_found h 1 _ _ _ _ _ hr
      have h0 := hnn q
      have hds : ds = [] := by
        cases ds with
        | nil => rfl
        | cons d ds => rw [List.length_cons] at hlen; push_cast at hlen; omega
      subst hds
      have : q = ((⟨4, [[1, 2, 3, 4], [5, 6, 7, 8], [9, 10, 11, 12], [13, 14, 0, 15]], 3, 2⟩ : Puzzle).simulateMove (-1, 0)).2 := by
        have := hq
        unfold applyMoves at this
        exact (Option.some.inj this).symm
      subst this
      revert hwin
      decide

/-- The pass with bound `0` from the scenario board, when the board and its right
neighbour have estimate `0`: the least pruned `f` is `1`. -/
theorem scenario_pass_zero (h : Puzzle → Int) (hnn : ∀ s, 0 ≤ h s)
    (h0 : h (⟨4, [[1, 2, 3, 4], [5, 6, 7, 8], [9, 10, 11, 12], [13, 14, 0, 15]], 3, 2⟩ : Puzzle) = 0)
    (hG : h ((⟨4, [[1, 2, 3, 4], [5, 6, 7, 8], [9, 10, 11, 12], [13, 14, 0, 15]], 3, 2⟩ : Puzzle).simulateMove (0, 1)).2 = 0) :
    dfs h 0 2 (⟨4, [[1, 2, 3, 4], [5, 6, 7, 8], [9, 10, 11, 12], [13, 14, 0, 15]], 3, 2⟩ : Puzzle) 0 [] = some (.cut 1) := by
  obtain ⟨r, hr⟩ := dfs_terminates h hnn 0 2 (⟨4, [[1, 2, 3, 4], [5, 6, 7, 8], [9, 10, 11, 12], [13, 14, 0, 15]], 3, 2⟩ : Puzzle) 0 [] (by decide)
  cases r with
  | found ms =>
    exfalso
    obtain ⟨ds, q, _, _, hq, hwin, hlen⟩ := dfs_found h 0 _ _ _ _ _ hr
    have hq0 := hnn q
    have hds : ds = [] := by
      cases ds with
      | nil => rfl
      | cons d ds => rw [List.length_cons] at hlen; push_cast at hlen; omega
    subst hds
    have : q = (⟨4, [[1, 2, 3, 4], [5, 6, 7, 8], [9, 10, 11, 12], [13, 14, 0, 15]], 3, 2⟩ : Puzzle) := by
      have := hq
      unfold applyMoves at this
      exact (Option.some.inj this).symm
    subst this
    revert hwin
    decide
  | cut t =>
    have hrange := dfs_cut_range h 0 _ _ _ _ _ hr
    have hpr := dfs_complete h 0 _ _ _ _ _ hr [(0, 1)] ((⟨4, [[1, 2, 3, 4], [5, 6, 7, 8], [9, 10, 11, 12], [13, 14, 0, 15]], 3, 2⟩ : Puzzle).simulateMove (0, 1)).2
      ⟨rfl, trivial⟩ (by decide) (by decide)
    obtain ⟨k, s, hk, hs, hlt, hle⟩ := hpr
    have ht : t = 1 := by
      have hk' : k = 0 ∨ k = 1 := by
        simp only [List.length_singleton] at hk
        omega
      rcases hk' with rfl | rfl
      · have : s = (⟨4, [[1, 2, 3, 4], [5, 6, 7, 8], [9, 10, 11, 12], [13, 14, 0, 15]], 3, 2⟩ : Puzzle) := by
          have := hs
          rw [List.take_zero] at this
          unfold applyMoves at this
          exact (Option.some.inj this).symm
        subst this
        rw [h0] at hlt
        simp at hlt
      · have : s = ((⟨4, [[1, 2, 3, 4], [5, 6, 7, 8], [9, 10, 11, 12], [13, 14, 0, 15]], 3, 2⟩ : Puzzle).simulateMove (0, 1)).2 := by
          have h2 : applyMoves (⟨4, [[1, 2, 3, 4], [5, 6, 7, 8], [9, 10, 11, 12], [13, 14, 0, 15]], 3, 2⟩ : Puzzle) [(0, 1)] = some ((⟨4, [[1, 2, 3, 4], [5, 6, 7, 8], [9, 10, 11, 12], [13, 14, 0, 15]], 3, 2⟩ : Puzzle).simulateMove (0, 1)).2 := by decide
          have := hs
          rw [List.take_succ_cons, List.take_zero, h2] at this
          exact (Option.some.inj this).symm
        subst this
        rw [hG] at hle hlt
        have := hrange.1
        unfold INF at this
        push_cast at hle
        omega
    rw [hr, ht]

theorem hScore_scenario_up {db : PatternDB} (hempty : ∀ table ∈ db.dicts, table = []) :
    hScore db (⟨4, [[1, 2, 3, 4], [5, 6, 7, 8], [9, 10, 11, 12], [13, 14, 0, 15]], 3, 2⟩ : Puzzle) ≤ hScore db ((⟨4, [[1, 2, 3, 4], [5, 6, 7, 8], [9, 10, 11, 12], [13, 14, 0, 15]], 3, 2⟩ : Puzzle).simulateMove (-1, 0)).2 := by
  rw [hScore_of_empty_tables hempty, hScore_of_empty_tables hempty]
  apply List.sum_le_sum
  intro i _
  have := @manhattan_move_eq (⟨4, [[1, 2, 3, 4], [5, 6, 7, 8], [9, 10, 11, 12], [13, 14, 0, 15]], 3, 2⟩ : Puzzle) (by decide) (-1, 0) (by decide) (by decide)
    (db.groups.getD i [])
  have h1 := cellCost_nonneg (⟨4, [[1, 2, 3, 4], [5, 6, 7, 8], [9, 10, 11, 12], [13, 14, 0, 15]], 3, 2⟩ : Puzzle).boardSize (db.groups.getD i [])
    (⟨4, [[1, 2, 3, 4], [5, 6, 7, 8], [9, 10, 11, 12], [13, 14, 0, 15]], 3, 2⟩ : Puzzle).blankRow.toNat (⟨4, [[1, 2, 3, 4], [5, 6, 7, 8], [9, 10, 11, 12], [13, 14, 0, 15]], 3, 2⟩ : Puzzle).blankCol.toNat (movedTile (⟨4, [[1, 2, 3, 4], [5, 6, 7, 8], [9, 10, 11, 12], [13, 14, 0, 15]], 3, 2⟩ : Puzzle) (-1, 0))
  have h2 : cellCost (⟨4, [[1, 2, 3, 4], [5, 6, 7, 8], [9, 10, 11, 12], [13, 14, 0, 15]], 3, 2⟩ : Puzzle).boardSize (db.groups.getD i [])
      ((⟨4, [[1, 2, 3, 4], [5, 6, 7, 8], [9, 10, 11, 12], [13, 14, 0, 15]], 3, 2⟩ : Puzzle).blankRow + (-1 : Int)).toNat ((⟨4, [[1, 2, 3, 4], [5, 6, 7, 8], [9, 10, 11, 12], [13, 14, 0, 15]], 3, 2⟩ : Puzzle).blankCol + (0 : Int)).toNat
      (movedTile (⟨4, [[1, 2, 3, 4], [5, 6, 7, 8], [9, 10, 11, 12], [13, 14, 0, 15]], 3, 2⟩ : Puzzle) (-1, 0)) = 0 := by
    unfold cellCost
    split
    · rfl
    · rfl
  rw [h2] at this
  show manhattan (⟨4, [[1, 2, 3, 4], [5, 6, 7, 8], [9, 10, 11, 12], [13, 14, 0, 15]], 3, 2⟩ : Puzzle) (db.groups.getD i []) ≤
    manhattan ((⟨4, [[1, 2, 3, 4], [5, 6, 7, 8], [9, 10, 11, 12], [13, 14, 0, 15]], 3, 2⟩ : Puzzle).move (-1, 0).1 (-1, 0).2).2 (db.groups.getD i [])
  omega

theorem hScore_solved_of_empty_tables {db : PatternDB}
    (hempty : ∀ table ∈ db.dicts, table = []) {q : Puzzle} (hq : q.BlankCached)
    (hwin : q.checkWin = true) : hScore db q = 0 := by
  rw [hScore_of_empty_tables hempty]
  apply List.sum_eq_zero
  intro x hx
  rw [List.mem_map] at hx
  obtain ⟨i, _, rfl⟩ := hx
  exact manhattan_solved hq hwin _

/-- On the scenario board the run of `idaStar` is undefined whenever the estimate is
non-negative and does not drop from the board to its upper neighbour: the first pass
pushes that neighbour, which reallocates `path`, prunes it, and then tries the
direction `(0,1)` through the reference `cur`. -/
theorem scenario_idaStar_undefined (db : PatternDB) (hnn : ∀ s, 0 ≤ hScore db s)
    (hle : hScore db (⟨4, [[1, 2, 3, 4], [5, 6, 7, 8], [9, 10, 11, 12], [13, 14, 0, 15]], 3, 2⟩ : Puzzle) ≤ hScore db ((⟨4, [[1, 2, 3, 4], [5, 6, 7, 8], [9, 10, 11, 12], [13, 14, 0, 15]], 3, 2⟩ : Puzzle).simulateMove (-1, 0)).2) (n : Nat) :
    idaStar (n + 2) db (⟨4, [[1, 2, 3, 4], [5, 6, 7, 8], [9, 10, 11, 12], [13, 14, 0, 15]], 3, 2⟩ : Puzzle) = some .undefined := by
  have hu := hnn ((⟨4, [[1, 2, 3, 4], [5, 6, 7, 8], [9, 10, 11, 12], [13, 14, 0, 15]], 3, 2⟩ : Puzzle).simulateMove (-1, 0)).2
  unfold idaStar
  rw [if_neg (by decide)]
  have hpush : (⟨[], 0⟩ : PathVec).push_back (⟨4, [[1, 2, 3, 4], [5, 6, 7, 8], [9, 10, 11, 12], [13, 14, 0, 15]], 3, 2⟩ : Puzzle) = ⟨[(⟨4, [[1, 2, 3, 4], [5, 6, 7, 8], [9, 10, 11, 12], [13, 14, 0, 15]], 3, 2⟩ : Puzzle)], 1⟩ := by decide
  rw [hpush, idaLoop_succ_eq]
  have hs : search db (n + 2) ⟨[(⟨4, [[1, 2, 3, 4], [5, 6, 7, 8], [9, 10, 11, 12], [13, 14, 0, 15]], 3, 2⟩ : Puzzle)], 1⟩ 0 (hScore db (⟨4, [[1, 2, 3, 4], [5, 6, 7, 8], [9, 10, 11, 12], [13, 14, 0, 15]], 3, 2⟩ : Puzzle)) [] = some .undefined := by
    rw [search_succ_eq db _ (show (⟨[(⟨4, [[1, 2, 3, 4], [5, 6, 7, 8], [9, 10, 11, 12], [13, 14, 0, 15]], 3, 2⟩ : Puzzle)], 1⟩ : PathVec).elems.getLast? = some (⟨4, [[1, 2, 3, 4], [5, 6, 7, 8], [9, 10, 11, 12], [13, 14, 0, 15]], 3, 2⟩ : Puzzle) from rfl),
      if_neg (by omega), if_neg (by decide)]
    unfold DIRECTIONS
    rw [searchLoop_cons, if_neg (by decide), if_neg (by decide), if_pos (by decide)]
    rw [searchLoop_cons, if_neg (by decide), if_neg (by decide), if_neg (by decide)]
    have hpush2 : (⟨[(⟨4, [[1, 2, 3, 4], [5, 6, 7, 8], [9, 10, 11, 12], [13, 14, 0, 15]], 3, 2⟩ : Puzzle)], 1⟩ : PathVec).push_back ((⟨4, [[1, 2, 3, 4], [5, 6, 7, 8], [9, 10, 11, 12], [13, 14, 0, 15]], 3, 2⟩ : Puzzle).simulateMove (-1, 0)).2 =
        ⟨[(⟨4, [[1, 2, 3, 4], [5, 6, 7, 8], [9, 10, 11, 12], [13, 14, 0, 15]], 3, 2⟩ : Puzzle), ((⟨4, [[1, 2, 3, 4], [5, 6, 7, 8], [9, 10, 11, 12], [13, 14, 0, 15]], 3, 2⟩ : Puzzle).simulateMove (-1, 0)).2], 2⟩ := by decide
    rw [hpush2, search_succ_eq db _
      (show (⟨[(⟨4, [[1, 2, 3, 4], [5, 6, 7, 8], [9, 10, 11, 12], [13, 14, 0, 15]], 3, 2⟩ : Puzzle), ((⟨4, [[1, 2, 3, 4], [5, 6, 7, 8], [9, 10, 11, 12], [13, 14, 0, 15]], 3, 2⟩ : Puzzle).simulateMove (-1, 0)).2], 2⟩ : PathVec).elems.getLast? =
        some ((⟨4, [[1, 2, 3, 4], [5, 6, 7, 8], [9, 10, 11, 12], [13, 14, 0, 15]], 3, 2⟩ : Puzzle).simulateMove (-1, 0)).2 from rfl), if_pos (by omega)]
    simp only
    rw [if_neg (by omega)]
    rw [searchLoop_cons, if_neg (by decide), if_pos (by decide)]
  rw [hs]

/-- C11, the code at the scenario: on the 4×4 board
`1 2 3 4 / 5 6 7 8 / 9 10 11 12 / 13 14 0 15` (blank at row 3, column 2), for every list
of groups with all tables empty, `iterativeIDAStar` returns exactly the one-move list
`[(0,1)]`; that move slides tile 15 and leaves the goal board, and `reconstructPath` on
it gives exactly two boards, the initial one and then the goal.  The run of `idaStar` is
undefined: `(1,0)` is off the board, the child reached by `(-1,0)` is pushed, which
reallocates `path`, and pruned, and `(0,1)` is then tried through the dangling
reference `cur`. -/
theorem scenario_one_move (db : PatternDB) (hempty : ∀ table ∈ db.dicts, table = []) :
    Returns (fun fuel => idaStar fuel db (⟨4, [[1, 2, 3, 4], [5, 6, 7, 8], [9, 10, 11, 12], [13, 14, 0, 15]], 3, 2⟩ : Puzzle)) .undefined ∧
    Returns (fun fuel => iterativeIDAStar fuel db (⟨4, [[1, 2, 3, 4], [5, 6, 7, 8], [9, 10, 11, 12], [13, 14, 0, 15]], 3, 2⟩ : Puzzle)) [(0, 1)] ∧
    movedTile (⟨4, [[1, 2, 3, 4], [5, 6, 7, 8], [9, 10, 11, 12], [13, 14, 0, 15]], 3, 2⟩ : Puzzle) (0, 1) = 15 ∧
    (⟨4, [[1, 2, 3, 4], [5, 6, 7, 8], [9, 10, 11, 12], [13, 14, 0, 15]], 3, 2⟩ : Puzzle).move 0 1 = (true, Puzzle.new 4) ∧
    reconstructPath (⟨4, [[1, 2, 3, 4], [5, 6, 7, 8], [9, 10, 11, 12], [13, 14, 0, 15]], 3, 2⟩ : Puzzle) [(0, 1)] = [(⟨4, [[1, 2, 3, 4], [5, 6, 7, 8], [9, 10, 11, 12], [13, 14, 0, 15]], 3, 2⟩ : Puzzle).toString, (Puzzle.new 4).toString] := by
  have hnn : ∀ s, 0 ≤ hScore db s :=
    hScore_nonneg db (fun table ht kv hkv => by rw [hempty table ht] at hkv; cases hkv)
  have hG : hScore db ((⟨4, [[1, 2, 3, 4], [5, 6, 7, 8], [9, 10, 11, 12], [13, 14, 0, 15]], 3, 2⟩ : Puzzle).simulateMove (0, 1)).2 = 0 :=
    hScore_solved_of_empty_tables hempty (by decide) (by decide)
  have hle := hScore_scenario_up hempty
  have ho : Outcome (hScore db) (⟨4, [[1, 2, 3, 4], [5, 6, 7, 8], [9, 10, 11, 12], [13, 14, 0, 15]], 3, 2⟩ : Puzzle) (hScore db (⟨4, [[1, 2, 3, 4], [5, 6, 7, 8], [9, 10, 11, 12], [13, 14, 0, 15]], 3, 2⟩ : Puzzle)) [(0, 1)] := by
    by_cases hc : 1 ≤ hScore db (⟨4, [[1, 2, 3, 4], [5, 6, 7, 8], [9, 10, 11, 12], [13, 14, 0, 15]], 3, 2⟩ : Puzzle)
    · exact Outcome.found (scenario_pass (hScore db) _ 1 (le_refl _) (by omega)
        (scenario_up (hScore db) hnn _ (Or.inl rfl) hle 0))
    · have h0 : hScore db (⟨4, [[1, 2, 3, 4], [5, 6, 7, 8], [9, 10, 11, 12], [13, 14, 0, 15]], 3, 2⟩ : Puzzle) = 0 := by
        have := hnn (⟨4, [[1, 2, 3, 4], [5, 6, 7, 8], [9, 10, 11, 12], [13, 14, 0, 15]], 3, 2⟩ : Puzzle)
        omega
      rw [h0]
      refine Outcome.next (scenario_pass_zero (hScore db) hnn h0 hG) (by decide) ?_
      exact Outcome.found (scenario_pass (hScore db) _ 1 (by omega) (by omega)
        (scenario_up (hScore db) hnn _ (Or.inr rfl) hle 0))
  have hr := returns_of_outcome db hnn (by decide) ho
  refine ⟨⟨2, fun n hn => ?_⟩, hr.2, by decide, by decide, by decide⟩
  obtain ⟨m, rfl⟩ : ∃ m, n = m + 2 := ⟨n - 2, by omega⟩
  exact scenario_idaStar_undefined db hnn hle m

theorem scenario_one_move_witness :
    Returns (fun fuel => idaStar fuel
      ⟨[[1, 2, 3, 4, 5, 6, 7, 8], [9, 10, 11, 12, 13, 14, 15]], [[], []]⟩ (⟨4, [[1, 2, 3, 4], [5, 6, 7, 8], [9, 10, 11, 12], [13, 14, 0, 15]], 3, 2⟩ : Puzzle)) .undefined ∧
    Returns (fun fuel => iterativeIDAStar fuel
      ⟨[[1, 2, 3, 4, 5, 6, 7, 8], [9, 10, 11, 12, 13, 14, 15]], [[], []]⟩ (⟨4, [[1, 2, 3, 4], [5, 6, 7, 8], [9, 10, 11, 12], [13, 14, 0, 15]], 3, 2⟩ : Puzzle)) [(0, 1)] :=
  ⟨(scenario_one_move ⟨[[1, 2, 3, 4, 5, 6, 7, 8], [9, 10, 11, 12, 13, 14, 15]], [[], []]⟩
      (by decide)).1,
    (scenario_one_move ⟨[[1, 2, 3, 4, 5, 6, 7, 8], [9, 10, 11, 12, 13, 14, 15]], [[], []]⟩
      (by decide)).2.1⟩

/-! ### C20: the first pass of the recursive solver -/

/-- C20, the code at a failing input: on the well-formed board `1 2 / 0 3`, with the one
group `{1,2,3}` and an empty table (no stored value at all), the estimate is 1 and the
first pass of the recursive solver, `search` on the one-element path with `g = 0` and
bound 1, does not return a value: down is off the board, the child reached by up is
pushed, which reallocates `path`, and is pruned with `f = 3`, and the direction right is
then tried through the reference `cur`, which dangles.  So the run of `idaStar` is
undefined: the pass yields no next bound and the outer loop returns neither a solution
nor the empty list.  On the same input `iterativeIDAStar` returns the one move
`(0,1)`. -/
theorem first_pass_undefined_at_dangling_cur :
    (⟨2, [[1, 2], [0, 3]], 1, 0⟩ : Puzzle).WellFormed ∧
    (∀ table ∈ (⟨[[1, 2, 3]], [[]]⟩ : PatternDB).dicts, ∀ kv ∈ table, 0 ≤ kv.2) ∧
    hScore ⟨[[1, 2, 3]], [[]]⟩ ⟨2, [[1, 2], [0, 3]], 1, 0⟩ = 1 ∧
    hScore ⟨[[1, 2, 3]], [[]]⟩ ⟨2, [[0, 2], [1, 3]], 0, 0⟩ = 2 ∧
    (∀ fuel, search ⟨[[1, 2, 3]], [[]]⟩ (fuel + 2)
      ((⟨[], 0⟩ : PathVec).push_back ⟨2, [[1, 2], [0, 3]], 1, 0⟩) 0 1 [] = some .undefined) ∧
    Returns (fun fuel => idaStar fuel ⟨[[1, 2, 3]], [[]]⟩ ⟨2, [[1, 2], [0, 3]], 1, 0⟩)
      .undefined ∧
    Returns (fun fuel => iterativeIDAStar fuel ⟨[[1, 2, 3]], [[]]⟩ ⟨2, [[1, 2], [0, 3]], 1, 0⟩)
      [(0, 1)] :=
  ⟨by decide, by decide, by decide, by decide,
    fun fuel => search_mono _ (Nat.le_add_left 2 fuel) (by decide),
    idaStar_returns (n := 4) (by decide), iterativeIDAStar_returns (n := 60) (by decide)⟩

/-! ### C19: the tie-break of the two solvers -/

set_option maxRecDepth 100000 in
/-- C19, the code at a failing input: the well-formed board `1 2 3 / 4 0 8 / 7 6 5`, with
the one group `{1,...,8}` and an empty table, so that the estimate is the Manhattan
distance, admissible and non-negative.  Its estimate is 6 and no solution has fewer
than six moves; two six-move lists solve it, one starting down and one starting right,
and the first is the smaller under down < up < right < left.  `iterativeIDAStar` returns
that list, but the run of `idaStar` is undefined: in its first pass a call of `search`
pushes a child, which reallocates `path`, the child returns without a solution, and the
call tries its next direction through its reference `cur`, which then dangles.  The
recursive solver returns no list at all. -/
theorem tie_break_undefined_at_dangling_cur :
    (⟨3, [[1, 2, 3], [4, 0, 8], [7, 6, 5]], 1, 1⟩ : Puzzle).WellFormed ∧
    hScore ⟨[[1, 2, 3, 4, 5, 6, 7, 8]], [[]]⟩ ⟨3, [[1, 2, 3], [4, 0, 8], [7, 6, 5]], 1, 1⟩ = 6 ∧
    (∀ ms, Solves ⟨3, [[1, 2, 3], [4, 0, 8], [7, 6, 5]], 1, 1⟩ ms → 6 ≤ ms.length) ∧
    Solves ⟨3, [[1, 2, 3], [4, 0, 8], [7, 6, 5]], 1, 1⟩
      [(1, 0), (0, 1), (-1, 0), (0, -1), (1, 0), (0, 1)] ∧
    Solves ⟨3, [[1, 2, 3], [4, 0, 8], [7, 6, 5]], 1, 1⟩
      [(0, 1), (1, 0), (0, -1), (-1, 0), (0, 1), (1, 0)] ∧
    List.Lex (fun a b => dirRank a < dirRank b)
      [(1, 0), (0, 1), (-1, 0), (0, -1), (1, 0), (0, 1)]
      [(0, 1), (1, 0), (0, -1), (-1, 0), (0, 1), (1, 0)] ∧
    Returns (fun fuel => iterativeIDAStar fuel ⟨[[1, 2, 3, 4, 5, 6, 7, 8]], [[]]⟩
      ⟨3, [[1, 2, 3], [4, 0, 8], [7, 6, 5]], 1, 1⟩)
      [(1, 0), (0, 1), (-1, 0), (0, -1), (1, 0), (0, 1)] ∧
    Returns (fun fuel => idaStar fuel ⟨[[1, 2, 3, 4, 5, 6, 7, 8]], [[]]⟩
      ⟨3, [[1, 2, 3], [4, 0, 8], [7, 6, 5]], 1, 1⟩) .undefined := by
  refine ⟨by decide, by decide, fun ms hsol => ?_, ⟨_, rfl, by decide⟩, ⟨_, rfl, by decide⟩,
    by decide, iterativeIDAStar_returns (n := 100) (by decide),
    idaStar_returns (n := 10) (by decide)⟩
  have h := hScore_le_length_of_empty_tables ⟨[[1, 2, 3, 4, 5, 6, 7, 8]], [[]]⟩ (by decide)
    (by decide) (show (⟨3, [[1, 2, 3], [4, 0, 8], [7, 6, 5]], 1, 1⟩ : Puzzle).BlankCached by
      decide) hsol
  have h6 : hScore ⟨[[1, 2, 3, 4, 5, 6, 7, 8]], [[]]⟩
      ⟨3, [[1, 2, 3], [4, 0, 8], [7, 6, 5]], 1, 1⟩ = 6 := by decide
  rw [h6] at h
  exact_mod_cast h

/-! ### C22: the success signal of `search` -/

theorem replay_of_applyMoves :
    ∀ (ms : List Dir) (p q : Puzzle), applyMoves p ms = some q → replay p ms = q := by
  intro ms
  induction ms with
  | nil => intro p q h; exact Option.some.inj h
  | cons d ds ih =>
    intro p q h
    obtain ⟨_, _, h'⟩ := applyMoves_cons_some h
    rw [replay_cons]
    exact ih _ _ h'

theorem searchLoopCopy_signal {rec : List Puzzle → Int → Int → List Dir → Option CopyOut}
    (cur : Puzzle) (g bound : Int)
    (hrec : ∀ path' dirs' out, rec path' (g + 1) bound dirs' = some out →
      (out.t ≠ -1 → out.path = path' ∧ out.dirs = dirs') ∧
      (out.t = -1 → ∀ c, path'.getLast? = some c → ∃ ds last, out.dirs = dirs' ++ ds ∧
        applyMoves c ds = some last ∧ out.path.getLast? = some last ∧ last.checkWin = true)) :
    ∀ (rest : List Dir), (∀ d ∈ rest, d ∈ DIRECTIONS) →
      ∀ (m : Int) (path : List Puzzle) (dirs : List Dir) (out : CopyOut), m ≠ -1 →
      searchLoopCopy rec cur g bound rest m path dirs = some out →
      (out.t ≠ -1 → out.path = path ∧ out.dirs = dirs) ∧
      (out.t = -1 → ∃ ds last, out.dirs = dirs ++ ds ∧ applyMoves cur ds = some last ∧
        out.path.getLast? = some last ∧ last.checkWin = true) := by
  intro rest
  induction rest with
  | nil =>
    intro _ m path dirs out hm hr
    rw [searchLoopCopy_nil] at hr
    cases hr
    exact ⟨fun _ => ⟨rfl, rfl⟩, fun h => absurd h hm⟩
  | cons d rest ih =>
    intro hdirs m path dirs out hm hr
    have hrest : ∀ d' ∈ rest, d' ∈ DIRECTIONS := fun d' hd' => hdirs d' (List.mem_cons_of_mem _ hd')
    rw [searchLoopCopy_cons] at hr
    by_cases h1 : isReverse d dirs = true
    · rw [if_pos h1] at hr
      exact ih hrest m path dirs out hm hr
    · rw [if_neg h1] at hr
      by_cases h2 : (cur.simulateMove d).1 = false
      · rw [if_pos h2] at hr
        exact ih hrest m path dirs out hm hr
      · rw [if_neg h2] at hr
        have hmv : (cur.move d.1 d.2).1 = true := by
          have : (cur.simulateMove d).1 = true := by simpa using h2
          exact this
        cases hc : rec (path ++ [(cur.simulateMove d).2]) (g + 1) bound (dirs ++ [d]) with
        | none => rw [hc] at hr; cases hr
        | some o =>
          rw [hc] at hr
          simp only at hr
          obtain ⟨hkeep, hsig⟩ := hrec _ _ _ hc
          by_cases h3 : o.t = -1
          · rw [if_pos h3] at hr
            cases hr
            refine ⟨fun h => absurd rfl h, fun _ => ?_⟩
            obtain ⟨ds, last, hd, ha, hl, hw⟩ := hsig h3 (cur.simulateMove d).2 (by simp)
            refine ⟨d :: ds, last, ?_, ?_, hl, hw⟩
            · show o.dirs = dirs ++ d :: ds
              rw [hd, List.append_assoc]
              rfl
            · rw [applyMoves_cons_of _ (hdirs d (List.mem_cons_self _ _)) hmv]
              exact ha
          · rw [if_neg h3] at hr
            obtain ⟨hp, hd⟩ := hkeep h3
            rw [hp, hd, List.dropLast_concat, List.dropLast_concat] at hr
            refine ih hrest _ path dirs out ?_ hr
            split
            · exact h3
            · exact hm

/-- With a non-negative estimate and a non-negative depth, a call of `searchCopy` that does
not hand back `-1` leaves `path` and `dirs` as it received them, and one that hands back
`-1` leaves the moves to a solved state appended to `dirs` and that state last on `path`. -/
theorem searchCopy_signal (db : PatternDB) (hnn : ∀ s, 0 ≤ hScore db s) (bound : Int) :
    ∀ (n : Nat) (path : List Puzzle) (g : Int) (dirs : List Dir) (out : CopyOut), 0 ≤ g →
      searchCopy db n path g bound dirs = some out →
      (out.t ≠ -1 → out.path = path ∧ out.dirs = dirs) ∧
      (out.t = -1 → ∀ c, path.getLast? = some c → ∃ ds last, out.dirs = dirs ++ ds ∧
        applyMoves c ds = some last ∧ out.path.getLast? = some last ∧ last.checkWin = true) := by
  intro n
  induction n with
  | zero => intro path g dirs out _ hr; exact Option.noConfusion hr
  | succ n ih =>
    intro path g dirs out hg hr
    cases hcur : path.getLast? with
    | none =>
      unfold searchCopy at hr
      rw [hcur] at hr
      cases hr
    | some cur =>
      rw [searchCopy_succ_eq db n hcur] at hr
      by_cases h1 : g + hScore db cur > bound
      · rw [if_pos h1] at hr
        cases hr
        have := hnn cur
        exact ⟨fun _ => ⟨rfl, rfl⟩, fun h => absurd h (by show g + hScore db cur ≠ -1; omega)⟩
      · rw [if_neg h1] at hr
        by_cases h2 : cur.checkWin = true
        · rw [if_pos h2] at hr
          cases hr
          refine ⟨fun h => absurd rfl h, fun _ c hc => ?_⟩
          cases hc
          exact ⟨[], cur, (List.append_nil _).symm, rfl, hcur, h2⟩
        · rw [if_neg h2] at hr
          obtain ⟨hkeep, hsig⟩ := searchLoopCopy_signal cur g bound
            (fun path' dirs' o ho => ih path' (g + 1) dirs' o (by omega) ho)
            DIRECTIONS (fun _ hd => hd) INF path dirs out (by decide) hr
          refine ⟨hkeep, fun h c hc => ?_⟩
          cases hc
          exact hsig h

theorem idaLoopCopy_signal (db : PatternDB) (hnn : ∀ s, 0 ≤ hScore db s) (fuel : Nat) (p : Puzzle) :
    ∀ (passes : Nat) (bound : Int) (moves : List Dir),
      idaLoopCopy db fuel passes [p] [] bound = some moves → Solves p moves ∨ moves = [] := by
  intro passes
  induction passes with
  | zero => intro bound moves hr; exact Option.noConfusion hr
  | succ k ih =>
    intro bound moves hr
    rw [idaLoopCopy_succ_eq] at hr
    cases hs : searchCopy db fuel [p] 0 bound [] with
    | none => rw [hs] at hr; cases hr
    | some out =>
      rw [hs] at hr
      simp only at hr
      obtain ⟨hkeep, hsig⟩ := searchCopy_signal db hnn bound fuel [p] 0 [] out (le_refl 0) hs
      by_cases h1 : out.t = -1
      · rw [if_pos h1] at hr
        cases hr
        obtain ⟨ds, last, hd, ha, _, hw⟩ := hsig h1 p rfl
        rw [List.nil_append] at hd
        rw [hd]
        exact Or.inl ⟨last, ha, hw⟩
      · rw [if_neg h1] at hr
        by_cases h2 : out.t = INF
        · rw [if_pos h2] at hr
          cases hr
          exact Or.inr rfl
        · rw [if_neg h2] at hr
          obtain ⟨hp, hd⟩ := hkeep h1
          rw [hp, hd] at hr
          exact ih _ _ hr

/-- C22 fails as stated: with the single empty group and the table `"" ↦ -2` the
estimate is `-2` on every state. On the board `1 2 / 0 3` with the bound `-2` the child
reached by `(-1,0)`, the first one pushed, is pruned with `f = 1 - 2 = -1`, so `search`
hands back `-1` while the last state of the path it leaves, `0 2 / 1 3`, is not solved;
`idaStar` then returns the non-empty list `[(-1,0)]`, whose replay is that unsolved
state. -/
theorem search_signal_counterexample :
    search ⟨[[]], [[("", -2)]]⟩ 2 ((⟨[], 0⟩ : PathVec).push_back ⟨2, [[1, 2], [0, 3]], 1, 0⟩)
        0 (-2) [] =
      some (.value ⟨-1, ⟨[⟨2, [[1, 2], [0, 3]], 1, 0⟩, ⟨2, [[0, 2], [1, 3]], 0, 0⟩], 2⟩,
        [(-1, 0)]⟩) ∧
    (⟨2, [[0, 2], [1, 3]], 0, 0⟩ : Puzzle).checkWin = false ∧
    Returns (fun fuel => idaStar fuel ⟨[[]], [[("", -2)]]⟩ ⟨2, [[1, 2], [0, 3]], 1, 0⟩)
      (.value [(-1, 0)]) ∧
    replay ⟨2, [[1, 2], [0, 3]], 1, 0⟩ [(-1, 0)] = ⟨2, [[0, 2], [1, 3]], 0, 0⟩ := by
  refine ⟨by decide, by decide, idaStar_returns (n := 2) (by decide), by decide⟩

/-- C22, amended. Take a database whose stored values lie between 0 and `V`, and boards
that are well formed with `(number of groups) * max V (2 * N ^ 3)` at most 1000000000.
Then the estimate of every such board lies between 0 and 1000000000, so that `g + hScore`
is a non-negative `int` for every depth `g` from 0 to 1000000001, the depths that occur
under a bound of at most 1000000000.  For every path whose last state is such a board,
every depth `0 ≤ g ≤ 1000000000` and every bound of at most 1000000000, a call of
`search` that returns `-1` leaves as last state of the path a state that satisfies
`checkWin`; the moves it has appended to `dirs` lead, all legal, from the state it was
called on to that state.  Hence whenever `idaStar` returns a non-empty move list on
such a board, replaying it from the board with `Puzzle::move` makes every move succeed
and ends in a solved state. -/
theorem search_signal_sound (db : PatternDB) (V : Int)
    (hdb : ∀ table ∈ db.dicts, ∀ kv ∈ table, 0 ≤ kv.2 ∧ kv.2 ≤ V) :
    (∀ (s : Puzzle), s.WellFormed →
      (db.groups.length : Int) * max V (2 * s.boardSize ^ 3) ≤ 1000000000 →
      0 ≤ hScore db s ∧ hScore db s ≤ 1000000000 ∧
      ∀ g : Int, 0 ≤ g → g ≤ 1000000001 → 0 ≤ g + hScore db s ∧ IntFits (g + hScore db s)) ∧
    (∀ (fuel : Nat) (path : PathVec) (g bound : Int) (dirs : List Dir) (out : SearchOut)
      (cur : Puzzle), path.elems.getLast? = some cur → cur.WellFormed →
      (db.groups.length : Int) * max V (2 * cur.boardSize ^ 3) ≤ 1000000000 →
      0 ≤ g → g ≤ 1000000000 → bound ≤ 1000000000 →
      search db fuel path g bound dirs = some (.value out) → out.t = -1 →
      ∃ ds last, out.dirs = dirs ++ ds ∧ applyMoves cur ds = some last ∧
        out.path.elems.getLast? = some last ∧ last.checkWin = true) ∧
    (∀ (fuel : Nat) (p : Puzzle) (moves : List Dir), p.WellFormed →
      (db.groups.length : Int) * max V (2 * p.boardSize ^ 3) ≤ 1000000000 →
      idaStar fuel db p = some (.value moves) → moves ≠ [] →
      Solves p moves ∧ (replay p moves).checkWin = true) := by
  have hnn := hScore_nonneg db (fun table ht kv hkv => (hdb table ht kv hkv).1)
  refine ⟨fun s hs hfit => ?_,
    fun fuel path g bound dirs out cur hcur _ _ hg _ _ hr ht => ?_,
    fun fuel p moves _ _ hr hne => ?_⟩
  · have h0 := hnn s
    have h1 := (hScore_range db hs V (fun table ht kv hkv => by
      have := hdb table ht kv hkv
      constructor <;> omega)).2
    refine ⟨h0, by omega, fun g hg0 hg1 => ⟨by omega, ?_⟩⟩
    unfold IntFits
    constructor <;> omega
  · exact (searchCopy_signal db hnn bound fuel path.elems g dirs _ hg
      (search_value_copy db fuel path g bound dirs out hr)).2 ht cur hcur
  · have hsol : Solves p moves := by
      have hc := idaStar_value_copy hr
      unfold idaStarCopy at hc
      by_cases hw : p.checkWin = true
      · rw [if_pos hw] at hc
        cases hc
        exact absurd rfl hne
      · rw [if_neg hw] at hc
        rcases idaLoopCopy_signal db hnn fuel p fuel _ moves hc with h | h
        · exact h
        · exact absurd h hne
    obtain ⟨q, hq, hwin⟩ := hsol
    refine ⟨⟨q, hq, hwin⟩, ?_⟩
    rw [replay_of_applyMoves _ _ _ hq]
    exact hwin

theorem search_signal_sound_witness :
    idaStar 3 ⟨[[1, 2, 3]], [[]]⟩ ⟨2, [[1, 0], [3, 2]], 0, 1⟩ = some (.value [(1, 0)]) ∧
    Solves ⟨2, [[1, 0], [3, 2]], 0, 1⟩ [(1, 0)] ∧
    (replay ⟨2, [[1, 0], [3, 2]], 0, 1⟩ [(1, 0)]).checkWin = true :=
  ⟨by decide, (search_signal_sound ⟨[[1, 2, 3]], [[]]⟩ 0 (by decide)).2.2 3
    ⟨2, [[1, 0], [3, 2]], 0, 1⟩ [(1, 0)] (by decide) (by decide) (by decide) (by decide)⟩

/-! ### The fingerprint as an encoding -/

theorem toString_digit (k : Nat) (hk : k < 10) :
    (toString k).data = [Char.ofNat (48 + k)] := by
  interval_cases k <;> rfl

theorem digit_toNat (k : Nat) (hk : k < 10) : (Char.ofNat (48 + k)).toNat - 48 = k := by
  interval_cases k <;> rfl

theorem hash_row_data (p : Puzzle) (group : Group) (i : Nat) :
    ∀ (l : List Nat) (oss : String),
      (l.foldl (fun oss j =>
        if getCell p.board i j ∈ group then oss ++ toString i ++ toString j else oss) oss).data =
      oss.data ++ ((l.filter fun j => decide (getCell p.board i j ∈ group)).map
        fun j => (i, j)).flatMap fun c => (toString c.1).data ++ (toString c.2).data := by
  intro l
  induction l with
  | nil => intro oss; simp
  | cons j l ih =>
    intro oss
    rw [List.foldl_cons, ih]
    by_cases h : getCell p.board i j ∈ group
    · rw [if_pos h, List.filter_cons_of_pos (by simpa using h), List.map_cons,
        List.flatMap_cons, String.data_append, String.data_append]
      simp only [List.append_assoc]
    · rw [if_neg h, List.filter_cons_of_neg (by simpa using h)]

/-- The characters of the fingerprint: the row and the column of every occupied cell, in
row-major order, each in decimal. -/
theorem hash_data (p : Puzzle) (group : Group) :
    (p.hash group).data =
      (occupiedCells p group).flatMap fun c => (toString c.1).data ++ (toString c.2).data := by
  have outer : ∀ (l : List Nat) (oss : String),
      (l.foldl (fun oss i =>
        (List.range p.boardSize.toNat).foldl (fun oss j =>
          if getCell p.board i j ∈ group then oss ++ toString i ++ toString j else oss) oss)
        oss).data =
      oss.data ++ (l.flatMap fun i =>
        ((List.range p.boardSize.toNat).filter fun j =>
          decide (getCell p.board i j ∈ group)).map fun j => (i, j)).flatMap
        fun c => (toString c.1).data ++ (toString c.2).data := by
    intro l
    induction l with
    | nil => intro oss; simp
    | cons i l ih =>
      intro oss
      rw [List.foldl_cons, ih, hash_row_data, List.flatMap_cons, List.flatMap_append,
        List.append_assoc]
  have := outer (List.range p.boardSize.toNat) ""
  unfold Puzzle.hash occupiedCells
  rw [this]
  rfl

theorem mem_occupiedCells (p : Puzzle) (group : Group) (i j : Nat) :
    (i, j) ∈ occupiedCells p group ↔
      i < p.boardSize.toNat ∧ j < p.boardSize.toNat ∧ getCell p.board i j ∈ group := by
  unfold occupiedCells
  simp only [List.mem_flatMap, List.mem_map, List.mem_filter, List.mem_range, Prod.mk.injEq,
    decide_eq_true_eq]
  constructor
  · rintro ⟨a, ha, b, ⟨hb, hm⟩, rfl, rfl⟩
    exact ⟨ha, hb, hm⟩
  · rintro ⟨hi, hj, hm⟩
    exact ⟨i, hi, j, ⟨hj, hm⟩, rfl, rfl⟩

theorem nodup_occupiedCells (p : Puzzle) (group : Group) : (occupiedCells p group).Nodup := by
  unfold occupiedCells
  rw [List.nodup_flatMap]
  constructor
  · intro i _
    exact List.Nodup.map (fun a b h => (Prod.mk.injEq _ _ _ _ ▸ h : _ ∧ a = b).2)
      (List.Nodup.filter _ (List.nodup_range _))
  · apply List.Pairwise.imp _ (List.nodup_range p.boardSize.toNat)
    intro a b hab
    show List.Disjoint _ _
    intro c h1 h2
    rw [List.mem_map] at h1 h2
    obtain ⟨_, _, rfl⟩ := h1
    obtain ⟨_, _, h⟩ := h2
    exact hab (Prod.mk.inj h).1.symm

theorem decodeCells_encode :
    ∀ (cells : List (Nat × Nat)), (∀ c ∈ cells, c.1 < 10 ∧ c.2 < 10) →
      decodeCells (cells.flatMap fun c => (toString c.1).data ++ (toString c.2).data) = cells ∧
      (cells.flatMap fun c => (toString c.1).data ++ (toString c.2).data).length =
        2 * cells.length := by
  intro cells
  induction cells with
  | nil => intro _; exact ⟨rfl, rfl⟩
  | cons c cells ih =>
    intro h
    obtain ⟨h1, h2⟩ := h c (List.mem_cons_self _ _)
    obtain ⟨ih1, ih2⟩ := ih (fun c' hc' => h c' (List.mem_cons_of_mem _ hc'))
    rw [List.flatMap_cons, toString_digit _ h1, toString_digit _ h2]
    constructor
    · show ((Char.ofNat (48 + c.1)).toNat - 48, (Char.ofNat (48 + c.2)).toNat - 48) ::
        decodeCells (cells.flatMap fun c => (toString c.1).data ++ (toString c.2).data) = _
      rw [ih1, digit_toNat _ h1, digit_toNat _ h2]
    · rw [List.length_append, ih2, List.length_cons]
      simp only [List.singleton_append, List.length_cons, List.length_nil]
      omega

/-- C21. For a board of dimension `N < 10` and every group the fingerprint is an
unambiguous fixed-length encoding. `hash(group)` has exactly two characters for each cell
holding a label of the group (the list `occupiedCells` names each such cell once), and it
decodes, two characters at a time, into the row-major list of those cells. Hence two
boards of the same size with the same fingerprint, each for its group, have their group
tiles on the same set of cells: boards whose group tiles occupy different sets of cells
have different fingerprints. -/
theorem hash_unambiguous (p : Puzzle) (group : Group) (hN : p.boardSize < 10) :
    (p.hash group).length = 2 * (occupiedCells p group).length ∧
    (occupiedCells p group).Nodup ∧
    (∀ i j, (i, j) ∈ occupiedCells p group ↔
      i < p.boardSize.toNat ∧ j < p.boardSize.toNat ∧ getCell p.board i j ∈ group) ∧
    decodeHash (p.hash group) = occupiedCells p group ∧
    (∀ (q : Puzzle) (group' : Group), q.boardSize = p.boardSize →
      q.hash group' = p.hash group →
      ∀ i j, i < p.boardSize.toNat → j < p.boardSize.toNat →
        (getCell q.board i j ∈ group' ↔ getCell p.board i j ∈ group)) := by
  have hdigits : ∀ (s : Puzzle) (g : Group), s.boardSize = p.boardSize →
      ∀ c ∈ occupiedCells s g, c.1 < 10 ∧ c.2 < 10 := by
    intro s g hs c hc
    obtain ⟨h1, h2, _⟩ := (mem_occupiedCells s g c.1 c.2).1 hc
    rw [hs] at h1 h2
    constructor <;> omega
  have hdec : ∀ (s : Puzzle) (g : Group), s.boardSize = p.boardSize →
      decodeHash (s.hash g) = occupiedCells s g := by
    intro s g hs
    unfold decodeHash
    rw [hash_data]
    exact (decodeCells_encode _ (hdigits s g hs)).1
  refine ⟨?_, nodup_occupiedCells p group, mem_occupiedCells p group, hdec p group rfl, ?_⟩
  · show (p.hash group).data.length = _
    rw [hash_data]
    exact (decodeCells_encode _ (hdigits p group rfl)).2
  · intro q group' hs hh i j hi hj
    have hcells : occupiedCells q group' = occupiedCells p group := by
      rw [← hdec q group' hs, ← hdec p group rfl, hh]
    have h1 := mem_occupiedCells q group' i j
    have h2 := mem_occupiedCells p group i j
    rw [hcells, hs] at h1
    constructor
    · intro h
      exact (h2.1 (h1.2 ⟨hi, hj, h⟩)).2.2
    · intro h
      exact (h1.1 (h2.2 ⟨hi, hj, h⟩)).2.2

theorem hash_unambiguous_witness :
    ((⟨3, [[1, 2, 3], [4, 5, 6], [7, 8, 0]], 2, 2⟩ : Puzzle).hash [1, 5]).length =
      2 * (occupiedCells ⟨3, [[1, 2, 3], [4, 5, 6], [7, 8, 0]], 2, 2⟩ [1, 5]).length ∧
    decodeHash ((⟨3, [[1, 2, 3], [4, 5, 6], [7, 8, 0]], 2, 2⟩ : Puzzle).hash [1, 5]) =
      occupiedCells ⟨3, [[1, 2, 3], [4, 5, 6], [7, 8, 0]], 2, 2⟩ [1, 5] :=
  ⟨(hash_unambiguous ⟨3, [[1, 2, 3], [4, 5, 6], [7, 8, 0]], 2, 2⟩ [1, 5] (by decide)).1,
    (hash_unambiguous ⟨3, [[1, 2, 3], [4, 5, 6], [7, 8, 0]], 2, 2⟩ [1, 5] (by decide)).2.2.2.1⟩

/-! ### The fingerprint ignores which tile of the group is where -/

/-- The fingerprint reads each cell only through the test `tile ∈ group`. -/
theorem hash_eq_of_same_cells (p q : Puzzle) (group : Group)
    (hsize : q.boardSize = p.boardSize)
    (hcells : ∀ i j : Nat, i < p.boardSize.toNat → j < p.boardSize.toNat →
      (getCell q.board i j ∈ group ↔ getCell p.board i j ∈ group)) :
    q.hash group = p.hash group := by
  unfold Puzzle.hash
  rw [hsize]
  apply List.foldl_ext
  intro oss i hi
  apply List.foldl_ext
  intro oss' j hj
  rw [List.mem_range] at hi hj
  by_cases h : getCell p.board i j ∈ group
  · rw [if_pos h, if_pos ((hcells i j hi hj).2 h)]
  · rw [if_neg h, if_neg (fun h' => h ((hcells i j hi hj).1 h'))]

/-- C23. `hash(group)` depends only on the set of cells occupied by tiles of the group.
For every board `p` and every two labels `a`, `b` of the group, a board `q` of the same
size that holds `b` where `p` holds `a`, `a` where `p` holds `b`, and the tile of `p`
everywhere else has its group tiles on the same cells and the same `hash(group)`; when
`a` and `b` are distinct and `a` is on the board, `q` is a different board, so two
different placements of the group share one key. -/
theorem hash_exchange_invariant (p q : Puzzle) (group : Group) (a b : Int)
    (ha : a ∈ group) (hb : b ∈ group) (hsize : q.boardSize = p.boardSize)
    (hex : ∀ i : Nat, i < p.boardSize.toNat → ∀ j : Nat, j < p.boardSize.toNat →
      getCell q.board i j =
        if getCell p.board i j = a then b
        else if getCell p.board i j = b then a else getCell p.board i j) :
    q.hash group = p.hash group ∧
    (∀ i j : Nat, i < p.boardSize.toNat → j < p.boardSize.toNat →
      (getCell q.board i j ∈ group ↔ getCell p.board i j ∈ group)) ∧
    (a ≠ b → (∃ i j : Nat, i < p.boardSize.toNat ∧ j < p.boardSize.toNat ∧
      getCell p.board i j = a) → q.board ≠ p.board) := by
  have hcells : ∀ i j : Nat, i < p.boardSize.toNat → j < p.boardSize.toNat →
      (getCell q.board i j ∈ group ↔ getCell p.board i j ∈ group) := by
    intro i j hi hj
    rw [hex i hi j hj]
    by_cases h1 : getCell p.board i j = a
    · rw [if_pos h1, h1]
      exact ⟨fun _ => ha, fun _ => hb⟩
    · rw [if_neg h1]
      by_cases h2 : getCell p.board i j = b
      · rw [if_pos h2, h2]
        exact ⟨fun _ => hb, fun _ => ha⟩
      · rw [if_neg h2]
  refine ⟨hash_eq_of_same_cells p q group hsize hcells, hcells, ?_⟩
  rintro hab ⟨i, j, hi, hj, hc⟩ heq
  have := hex i hi j hj
  rw [heq, hc, if_pos rfl] at this
  exact hab this

theorem hash_exchange_invariant_witness :
    (⟨3, [[5, 2, 3], [4, 1, 6], [7, 8, 0]], 2, 2⟩ : Puzzle).hash [1, 5] =
      (⟨3, [[1, 2, 3], [4, 5, 6], [7, 8, 0]], 2, 2⟩ : Puzzle).hash [1, 5] ∧
    (⟨3, [[5, 2, 3], [4, 1, 6], [7, 8, 0]], 2, 2⟩ : Puzzle).board ≠
      (⟨3, [[1, 2, 3], [4, 5, 6], [7, 8, 0]], 2, 2⟩ : Puzzle).board :=
  ⟨(hash_exchange_invariant ⟨3, [[1, 2, 3], [4, 5, 6], [7, 8, 0]], 2, 2⟩
      ⟨3, [[5, 2, 3], [4, 1, 6], [7, 8, 0]], 2, 2⟩ [1, 5] 1 5 (by decide) (by decide) rfl
      (by decide)).1,
    (hash_exchange_invariant ⟨3, [[1, 2, 3], [4, 5, 6], [7, 8, 0]], 2, 2⟩
      ⟨3, [[5, 2, 3], [4, 1, 6], [7, 8, 0]], 2, 2⟩ [1, 5] 1 5 (by decide) (by decide) rfl
      (by decide)).2.2 (by decide) ⟨0, 0, by decide, by decide, by decide⟩⟩

end PatternDb
